import Mathlib

/-! SortedSetFree: a shallow embedding of the skip-list backed sorted set.

The Go package keeps a hash index (`dict`) next to a skip list whose nodes live on the
garbage-collected heap.  The embedding makes the heap explicit:

* a node pointer `*node` is `Option Nat` (`none` is `nil`), an address is a `Nat`;
* `SSFreeSkiplist.mem` maps every address to the node stored there and
  `SSFreeSkiplist.next` is the first address that was never allocated;
* a Go `string` is its byte sequence, compared lexicographically byte by byte;
* a `float64` score that is not NaN is an element of a linear order `S` with a zero
  (the zero value of the `Value` field of an interval); only `<`, `<=`, `==` are used;
* `int64`/`int16` counters are `Int`/`Nat` (no operation gets near the word size);
* a run-time panic (nil dereference, index out of range, the explicit `panic` calls of
  `ForEach`) is an `Except.error`; every pointer-chasing `for` loop takes fuel and
  reports `Err.outOfFuel` when it is exhausted.
-/

namespace SortedSetFree

/-- The constant `maxLevel` of `SSFreeSkiplist.go`. -/
def maxLevel : Nat := 16

/-- A Go string: a sequence of bytes, ordered lexicographically. -/
abbrev GoString := List (Fin 256)

/-- The ways in which a call can fail to return. -/
inductive Err where
  | nilDeref
  | indexOutOfRange
  | illegalStart
  | illegalEnd
  | makeslice
  | outOfFuel
  deriving DecidableEq, Repr

/-- The struct `store`: a key with its score (`KeyRank`). -/
structure store (S : Type) where
  Key : GoString
  KeyRank : S
  deriving DecidableEq, Repr

/-- The struct `Level`: forward pointer and span of one level of a node. -/
structure Level where
  forwardNode : Option Nat
  span : Int
  deriving DecidableEq, Repr

/-- The struct `node`: it embeds `store`; `level` is the slice of its levels. -/
structure node (S : Type) extends store S where
  backwardNode : Option Nat
  level : List Level

/-- The struct `SSFreeSkiplist` together with the heap its pointers refer to. -/
structure SSFreeSkiplist (S : Type) where
  mem : Nat → node S
  next : Nat
  header : Nat
  tail : Option Nat
  length : Int
  level : Nat

/-- The struct `SSFreeRankInterval`. -/
structure SSFreeRankInterval (S : Type) where
  limit : Int
  Value : S
  isOpenInterval : Bool

/-- The constant `NegativeInfinity`. -/
def NegativeInfinity : Int := -1

/-- The constant `PositiveInfinity`. -/
def PositiveInfinity : Int := 1

section Model

variable {S : Type} [LinearOrder S] [Zero S]

/-- The method `greater`: does `value` satisfy this interval used as an upper bound. -/
def SSFreeRankInterval.greater (r : SSFreeRankInterval S) (value : S) : Bool :=
  if r.limit = NegativeInfinity then false
  else if r.limit = PositiveInfinity then true
  else if r.isOpenInterval then decide (r.Value > value)
  else decide (r.Value ≥ value)

/-- The method `less`: does `value` satisfy this interval used as a lower bound. -/
def SSFreeRankInterval.less (r : SSFreeRankInterval S) (value : S) : Bool :=
  if r.limit = NegativeInfinity then true
  else if r.limit = PositiveInfinity then false
  else if r.isOpenInterval then decide (r.Value < value)
  else decide (r.Value ≤ value)

/-- The variable `PositiveInfinityExtremum`: only `limit` is set, the rest is zero. -/
def PositiveInfinityExtremum : SSFreeRankInterval S :=
  { limit := PositiveInfinity, Value := 0, isOpenInterval := false }

/-- The variable `NegativeInfinityExtremum`: only `limit` is set, the rest is zero. -/
def NegativeInfinityExtremum : SSFreeRankInterval S :=
  { limit := NegativeInfinity, Value := 0, isOpenInterval := false }

/-! ### Heap access -/

/-- Dereferencing a pointer: `nil` panics. -/
def deref (p : Option Nat) : Except Err Nat :=
  match p with
  | some a => .ok a
  | none => .error .nilDeref

/-- Reading `p.level[i]`: panics on a nil pointer and on an index outside the slice. -/
def SSFreeSkiplist.getLevel (sl : SSFreeSkiplist S) (p : Option Nat) (i : Nat) :
    Except Err Level :=
  match p with
  | none => .error .nilDeref
  | some a =>
    match (sl.mem a).level[i]? with
    | some l => .ok l
    | none => .error .indexOutOfRange

/-- Overwriting the level record `p.level[i]` (both fields). -/
def SSFreeSkiplist.setLevel (sl : SSFreeSkiplist S) (p : Option Nat) (i : Nat) (l : Level) :
    Except Err (SSFreeSkiplist S) :=
  match p with
  | none => .error .nilDeref
  | some a =>
    if i < (sl.mem a).level.length then
      .ok { sl with
            mem := Function.update sl.mem a ({ sl.mem a with level := (sl.mem a).level.set i l }) }
    else .error .indexOutOfRange

/-- The assignment `p.level[i].forwardNode = v`. -/
def SSFreeSkiplist.setForward (sl : SSFreeSkiplist S) (p : Option Nat) (i : Nat)
    (v : Option Nat) : Except Err (SSFreeSkiplist S) :=
  match sl.getLevel p i with
  | .error e => .error e
  | .ok l => sl.setLevel p i { l with forwardNode := v }

/-- The assignment `p.level[i].span = v`. -/
def SSFreeSkiplist.setSpan (sl : SSFreeSkiplist S) (p : Option Nat) (i : Nat)
    (v : Int) : Except Err (SSFreeSkiplist S) :=
  match sl.getLevel p i with
  | .error e => .error e
  | .ok l => sl.setLevel p i { l with span := v }

/-- The assignment `p.backwardNode = v`. -/
def SSFreeSkiplist.setBackward (sl : SSFreeSkiplist S) (p : Option Nat) (v : Option Nat) :
    Except Err (SSFreeSkiplist S) :=
  match p with
  | none => .error .nilDeref
  | some a =>
    .ok { sl with mem := Function.update sl.mem a ({ sl.mem a with backwardNode := v }) }

/-- Reading the node a pointer refers to. -/
def SSFreeSkiplist.getNode (sl : SSFreeSkiplist S) (p : Option Nat) : Except Err (node S) :=
  match p with
  | none => .error .nilDeref
  | some a => .ok (sl.mem a)

/-- The function `makeNode`: allocates a node with `level` fresh, zeroed `Level` records at
the first free address and returns the address. -/
def makeNode (sl : SSFreeSkiplist S) (level : Nat) (keyRank : S) (key : GoString) :
    SSFreeSkiplist S × Nat :=
  ({ sl with
      mem := Function.update sl.mem sl.next
        { Key := key, KeyRank := keyRank, backwardNode := none,
          level := List.replicate level { forwardNode := none, span := 0 } }
      next := sl.next + 1 }, sl.next)

/-- The function `makeSSFreeSkiplist`: on an empty heap, a header of `maxLevel` levels. -/
def makeSSFreeSkiplist : SSFreeSkiplist S :=
  let empty : SSFreeSkiplist S :=
    { mem := fun _ => { Key := [], KeyRank := 0, backwardNode := none, level := [] }
      next := 0, header := 0, tail := none, length := 0, level := 1 }
  let r := makeNode empty maxLevel 0 []
  { r.1 with header := r.2, level := 1 }

/-- The library function `bits.Len64` of Go: the number of bits needed to write `k`
(0 for 0), by at most `fuel` halvings. -/
def bitsLen : Nat → Nat → Nat
  | 0, _ => 0
  | fuel + 1, k => if k = 0 then 0 else bitsLen fuel (k / 2) + 1

/-- The function `randomLevel`, as a function of the value `r` returned by `rand.Uint64()`.
`bits.Len64 k` is at most 16 here, so the subtraction never goes below zero. -/
def randomLevel (r : Nat) : Nat :=
  let total := 2 ^ maxLevel - 1
  let k := r % total
  maxLevel - bitsLen 64 k + 1

/-! ### Traversal -/

/-- One inner loop of a descent, at level `i`, starting at node `x` with `acc` base-level
steps behind it:
`for x.level[i].forwardNode != nil && cond { acc += x.level[i].span; x = x.level[i].forwardNode }`.
The loop condition `cond` receives `acc + x.level[i].span` and the forward node. -/
def SSFreeSkiplist.scan (sl : SSFreeSkiplist S) (i : Nat) (cond : Int → node S → Bool) :
    Nat → Nat → Int → Except Err (Nat × Int)
  | 0, _, _ => .error .outOfFuel
  | fuel + 1, x, acc =>
    match sl.getLevel (some x) i with
    | .error e => .error e
    | .ok lv =>
      match lv.forwardNode with
      | none => .ok (x, acc)
      | some y =>
        if cond (acc + lv.span) (sl.mem y) then sl.scan i cond fuel y (acc + lv.span)
        else .ok (x, acc)

/-- The outer loop `for i := level - 1; i >= 0; i--` of a descent that records, for every
level, the node where the inner loop stopped (`update[i]`) and the steps behind it
(`rank[i]`).  The first argument is `i + 1`. -/
def SSFreeSkiplist.descend (sl : SSFreeSkiplist S) (cond : Int → node S → Bool) :
    Nat → Nat → Int → (Nat → Option Nat) → (Nat → Int) →
      Except Err (Nat × Int × (Nat → Option Nat) × (Nat → Int))
  | 0, x, acc, update, rank => .ok (x, acc, update, rank)
  | i + 1, x, acc, update, rank =>
    match sl.scan i cond sl.next x acc with
    | .error e => .error e
    | .ok (y, r) =>
      sl.descend cond i y r (Function.update update i (some y)) (Function.update rank i r)

/-- A `for i := lo; i < lo + n; i++` loop over a state. -/
def forRange {σ : Type} (body : Nat → σ → Except Err σ) : Nat → Nat → σ → Except Err σ
  | _, 0, s => .ok s
  | lo, n + 1, s =>
    match body lo s with
    | .error e => .error e
    | .ok s' => forRange body (lo + 1) n s'

/-- The loop condition of `insert` and `remove`: the forward node is before `(keyrank, key)`. -/
def before (key : GoString) (keyrank : S) (f : node S) : Bool :=
  decide (f.KeyRank < keyrank) || (decide (f.KeyRank = keyrank) && decide (f.Key < key))

/-- The loop condition of `getRank`: the forward node is before or at `(keyrank, key)`. -/
def beforeEq (key : GoString) (keyrank : S) (f : node S) : Bool :=
  decide (f.KeyRank < keyrank) || (decide (f.KeyRank = keyrank) && decide (f.Key ≤ key))

/-- The body of the linking loop of `insert` for level `i`. -/
def insertLink (update : Nat → Option Nat) (rank : Nat → Int) (n : Nat) (i : Nat)
    (sl : SSFreeSkiplist S) : Except Err (SSFreeSkiplist S) := do
  let ul ← sl.getLevel (update i) i
  let sl ← sl.setForward (some n) i ul.forwardNode
  let sl ← sl.setForward (update i) i (some n)
  let ul ← sl.getLevel (update i) i
  let sl ← sl.setSpan (some n) i (ul.span - (rank 0 - rank i))
  sl.setSpan (update i) i ((rank 0 - rank i) + 1)

/-- The body of the loop of `insert` over the levels the new node does not reach. -/
def insertBump (update : Nat → Option Nat) (i : Nat) (sl : SSFreeSkiplist S) :
    Except Err (SSFreeSkiplist S) := do
  let ul ← sl.getLevel (update i) i
  sl.setSpan (update i) i (ul.span + 1)

/-- The body of the extension loop of `insert` for level `i`, on the list and the arrays
`update` and `rank`. -/
def insertExtend (i : Nat) (st : SSFreeSkiplist S × (Nat → Option Nat) × (Nat → Int)) :
    Except Err (SSFreeSkiplist S × (Nat → Option Nat) × (Nat → Int)) := do
  let rank := Function.update st.2.2 i 0
  let update := Function.update st.2.1 i (some st.1.header)
  let sl ← st.1.setSpan (update i) i st.1.length
  pure (sl, update, rank)

/-- The statement `if level > SSFreeSkiplist.level { ... }` of `insert`.  The arrays have
`maxLevel` entries, so a `level` beyond `maxLevel` panics in the loop. -/
def insertGrow (sl : SSFreeSkiplist S) (update : Nat → Option Nat) (rank : Nat → Int)
    (level : Nat) : Except Err (SSFreeSkiplist S × (Nat → Option Nat) × (Nat → Int)) :=
  if sl.level < level then
    if maxLevel < level then .error Err.indexOutOfRange
    else
      match forRange insertExtend sl.level (level - sl.level) (sl, update, rank) with
      | .error e => .error e
      | .ok st => .ok ({ st.1 with level := level }, st.2.1, st.2.2)
  else .ok (sl, update, rank)

/-- The end of `insert`: the backward pointers, the tail and the length. -/
def insertFinish (sl : SSFreeSkiplist S) (update : Nat → Option Nat) (n : Nat) :
    Except Err (SSFreeSkiplist S × Nat) :=
  match sl.setBackward (some n) (if update 0 = some sl.header then none else update 0) with
  | .error e => .error e
  | .ok sl1 =>
    match sl1.getLevel (some n) 0 with
    | .error e => .error e
    | .ok nl =>
      match nl.forwardNode with
      | some f =>
        match sl1.setBackward (some f) (some n) with
        | .error e => .error e
        | .ok sl2 => .ok ({ sl2 with length := sl2.length + 1 }, n)
      | none => .ok ({ sl1 with tail := some n, length := sl1.length + 1 }, n)

/-- The method `insert`; `r` is the value the call of `rand.Uint64()` returns.  The arrays
`update` and `rank` have `maxLevel` entries, and the descent writes index `level - 1`
first. -/
def SSFreeSkiplist.insert (sl : SSFreeSkiplist S) (r : Nat) (key : GoString) (keyrank : S) :
    Except Err (SSFreeSkiplist S × Nat) :=
  if maxLevel < sl.level then .error Err.indexOutOfRange
  else
    match sl.descend (fun _ f => before key keyrank f) sl.level sl.header 0
        (fun _ => none) (fun _ => 0) with
    | .error e => .error e
    | .ok (_, _, update, rank) =>
      let level := randomLevel r
      match insertGrow sl update rank level with
      | .error e => .error e
      | .ok (sl1, update, rank) =>
        let sl2 := (makeNode sl1 level keyrank key).1
        let n := (makeNode sl1 level keyrank key).2
        match forRange (insertLink update rank n) 0 level sl2 with
        | .error e => .error e
        | .ok sl3 =>
          match forRange (insertBump update) level (sl3.level - level) sl3 with
          | .error e => .error e
          | .ok sl4 => insertFinish sl4 update n

/-- The list a call of `insert` leaves behind when the level drawn exceeds `maxLevel`.  The
descent writes the local arrays only; the loop of `if level > SSFreeSkiplist.level` runs for
the levels from `SSFreeSkiplist.level` up to `maxLevel - 1`, writing the header's span at
each, and panics at `rank[maxLevel]`, before `SSFreeSkiplist.level` is assigned and before a
node is made. -/
def SSFreeSkiplist.insertPanicked (sl : SSFreeSkiplist S) (key : GoString) (keyrank : S) :
    Except Err (SSFreeSkiplist S) :=
  match sl.descend (fun _ f => before key keyrank f) sl.level sl.header 0
      (fun _ => none) (fun _ => 0) with
  | .error e => .error e
  | .ok (_, _, update, rank) =>
    match forRange insertExtend sl.level (maxLevel - sl.level) (sl, update, rank) with
    | .error e => .error e
    | .ok st => .ok st.1

/-- The body of the first loop of `removeNode` for level `i`. -/
def removeNodeLevel (nd : Nat) (update : Nat → Option Nat) (i : Nat)
    (sl : SSFreeSkiplist S) : Except Err (SSFreeSkiplist S) :=
  match sl.getLevel (update i) i with
  | .error e => .error e
  | .ok ul =>
    if ul.forwardNode = some nd then
      match sl.getLevel (some nd) i with
      | .error e => .error e
      | .ok nl =>
        match sl.setSpan (update i) i (ul.span + (nl.span - 1)) with
        | .error e => .error e
        | .ok sl1 =>
          match sl1.getLevel (some nd) i with
          | .error e => .error e
          | .ok nl1 => sl1.setForward (update i) i nl1.forwardNode
    else
      sl.setSpan (update i) i (ul.span - 1)

/-- The loop `for level > 1 && header.level[level-1].forwardNode == nil { level-- }` of
`removeNode`; the first argument bounds the number of iterations by the level. -/
def SSFreeSkiplist.shrink : Nat → SSFreeSkiplist S → Except Err (SSFreeSkiplist S)
  | 0, sl => .ok sl
  | k + 1, sl =>
    if 1 < sl.level then
      match sl.getLevel (some sl.header) (sl.level - 1) with
      | .error e => .error e
      | .ok hl =>
        if hl.forwardNode = none then SSFreeSkiplist.shrink k { sl with level := sl.level - 1 }
        else .ok sl
    else .ok sl

/-- The method `removeNode`. -/
def SSFreeSkiplist.removeNode (sl : SSFreeSkiplist S) (nd : Nat) (update : Nat → Option Nat) :
    Except Err (SSFreeSkiplist S) :=
  match forRange (removeNodeLevel nd update) 0 sl.level sl with
  | .error e => .error e
  | .ok sl1 =>
    match sl1.getLevel (some nd) 0 with
    | .error e => .error e
    | .ok nl =>
      match (match nl.forwardNode with
        | some f => sl1.setBackward (some f) (sl1.mem nd).backwardNode
        | none => .ok { sl1 with tail := (sl1.mem nd).backwardNode }) with
      | .error e => .error e
      | .ok sl2 =>
        match sl2.shrink sl2.level with
        | .error e => .error e
        | .ok sl3 => .ok { sl3 with length := sl3.length - 1 }

/-- The method `remove`. -/
def SSFreeSkiplist.remove (sl : SSFreeSkiplist S) (key : GoString) (keyrank : S) :
    Except Err (SSFreeSkiplist S × Bool) :=
  if maxLevel < sl.level then .error Err.indexOutOfRange
  else
    match sl.descend (fun _ f => before key keyrank f) sl.level sl.header 0
        (fun _ => none) (fun _ => 0) with
    | .error e => .error e
    | .ok (x, _, update, _) =>
      match sl.getLevel (some x) 0 with
      | .error e => .error e
      | .ok xl =>
        match xl.forwardNode with
        | none => .ok (sl, false)
        | some nd =>
          if keyrank = (sl.mem nd).KeyRank ∧ (sl.mem nd).Key = key then
            match sl.removeNode nd update with
            | .error e => .error e
            | .ok sl1 => .ok (sl1, true)
          else .ok (sl, false)

/-- The outer loop of `getRank`, with its return from inside the loop. -/
def SSFreeSkiplist.getRankLoop (sl : SSFreeSkiplist S) (key : GoString) (keyrank : S) :
    Nat → Nat → Int → Except Err Int
  | 0, _, _ => .ok 0
  | i + 1, x, rank =>
    match sl.scan i (fun _ f => beforeEq key keyrank f) sl.next x rank with
    | .error e => .error e
    | .ok (y, r) =>
      if (sl.mem y).Key = key then .ok r
      else sl.getRankLoop key keyrank i y r

/-- The method `getRank`. -/
def SSFreeSkiplist.getRank (sl : SSFreeSkiplist S) (key : GoString) (keyrank : S) :
    Except Err Int :=
  sl.getRankLoop key keyrank sl.level sl.header 0

/-- The outer loop of `getByRank`, with its return from inside the loop. -/
def SSFreeSkiplist.getByRankLoop (sl : SSFreeSkiplist S) (rank : Int) :
    Nat → Nat → Int → Except Err (Option Nat)
  | 0, _, _ => .ok none
  | level + 1, n, i =>
    match sl.scan level (fun q _ => decide (q ≤ rank)) sl.next n i with
    | .error e => .error e
    | .ok (n', i') =>
      if i' = rank then .ok (some n')
      else sl.getByRankLoop rank level n' i'

/-- The method `getByRank`. -/
def SSFreeSkiplist.getByRank (sl : SSFreeSkiplist S) (rank : Int) : Except Err (Option Nat) :=
  sl.getByRankLoop rank sl.level sl.header 0

/-- The method `hasInRange`. -/
def SSFreeSkiplist.hasInRange (sl : SSFreeSkiplist S) (min max : SSFreeRankInterval S) :
    Except Err Bool :=
  if min.Value > max.Value ∨
      (min.Value = max.Value ∧ (min.isOpenInterval = true ∨ max.isOpenInterval = true)) then
    .ok false
  else
    match sl.tail with
    | none => .ok false
    | some t =>
      if min.less (sl.mem t).KeyRank = false then .ok false
      else
        match sl.getLevel (some sl.header) 0 with
        | .error e => .error e
        | .ok hl =>
          match hl.forwardNode with
          | none => .ok false
          | some n =>
            if max.greater (sl.mem n).KeyRank = false then .ok false
            else .ok true

/-- The method `getFirstInScoreRange`. -/
def SSFreeSkiplist.getFirstInScoreRange (sl : SSFreeSkiplist S)
    (min max : SSFreeRankInterval S) : Except Err (Option Nat) :=
  match sl.hasInRange min max with
  | .error e => .error e
  | .ok false => .ok none
  | .ok true =>
    match sl.descend (fun _ f => !min.less f.KeyRank) sl.level sl.header 0
        (fun _ => none) (fun _ => 0) with
    | .error e => .error e
    | .ok (n, _, _, _) =>
      match sl.getLevel (some n) 0 with
      | .error e => .error e
      | .ok nl =>
        match sl.getNode nl.forwardNode with
        | .error e => .error e
        | .ok f =>
          if max.greater f.KeyRank = false then .ok none
          else .ok nl.forwardNode

/-- The method `getLastInScoreRange`. -/
def SSFreeSkiplist.getLastInScoreRange (sl : SSFreeSkiplist S)
    (min max : SSFreeRankInterval S) : Except Err (Option Nat) :=
  match sl.hasInRange min max with
  | .error e => .error e
  | .ok false => .ok none
  | .ok true =>
    match sl.descend (fun _ f => max.greater f.KeyRank) sl.level sl.header 0
        (fun _ => none) (fun _ => 0) with
    | .error e => .error e
    | .ok (n, _, _, _) =>
      if min.less (sl.mem n).KeyRank = false then .ok none
      else .ok (some n)

/-- The removal loop of `RemoveRangeByScore`. -/
def SSFreeSkiplist.removeByScoreLoop (max : SSFreeRankInterval S) (limit : Int)
    (update : Nat → Option Nat) :
    Nat → SSFreeSkiplist S → Option Nat → List (store S) →
      Except Err (SSFreeSkiplist S × List (store S))
  | 0, _, _, _ => .error .outOfFuel
  | fuel + 1, sl, p, removed =>
    match p with
    | none => .ok (sl, removed)
    | some nd =>
      if !max.greater (sl.mem nd).KeyRank then .ok (sl, removed)
      else
        match sl.getLevel (some nd) 0 with
        | .error e => .error e
        | .ok nl =>
          let removed := removed ++ [(sl.mem nd).tostore]
          match sl.removeNode nd update with
          | .error e => .error e
          | .ok sl =>
            if 0 < limit ∧ (removed.length : Int) = limit then .ok (sl, removed)
            else SSFreeSkiplist.removeByScoreLoop max limit update fuel sl nl.forwardNode removed

/-- The method `RemoveRangeByScore`. -/
def SSFreeSkiplist.RemoveRangeByScore (sl : SSFreeSkiplist S)
    (min max : SSFreeRankInterval S) (limit : Int) :
    Except Err (SSFreeSkiplist S × List (store S)) :=
  if maxLevel < sl.level then .error Err.indexOutOfRange
  else
    match sl.descend (fun _ f => !min.less f.KeyRank) sl.level sl.header 0
        (fun _ => none) (fun _ => 0) with
    | .error e => .error e
    | .ok (x, _, update, _) =>
      match sl.getLevel (some x) 0 with
      | .error e => .error e
      | .ok xl =>
        SSFreeSkiplist.removeByScoreLoop max limit update sl.next sl xl.forwardNode []

/-- The removal loop of `RemoveRangeByRank`. -/
def SSFreeSkiplist.removeByRankLoop (stop : Int) (update : Nat → Option Nat) :
    Nat → SSFreeSkiplist S → Option Nat → Int → List (store S) →
      Except Err (SSFreeSkiplist S × List (store S))
  | 0, _, _, _, _ => .error .outOfFuel
  | fuel + 1, sl, p, i, removed =>
    match p with
    | none => .ok (sl, removed)
    | some nd =>
      if i < stop then
        match sl.getLevel (some nd) 0 with
        | .error e => .error e
        | .ok nl =>
          match sl.removeNode nd update with
          | .error e => .error e
          | .ok sl' =>
            SSFreeSkiplist.removeByRankLoop stop update fuel sl' nl.forwardNode (i + 1)
              (removed ++ [(sl.mem nd).tostore])
      else .ok (sl, removed)

/-- The method `RemoveRangeByRank`. -/
def SSFreeSkiplist.RemoveRangeByRank (sl : SSFreeSkiplist S) (start stop : Int) :
    Except Err (SSFreeSkiplist S × List (store S)) :=
  if maxLevel < sl.level then .error Err.indexOutOfRange
  else
    match sl.descend (fun q _ => decide (q < start)) sl.level sl.header 0
        (fun _ => none) (fun _ => 0) with
    | .error e => .error e
    | .ok (x, i, update, _) =>
      match sl.getLevel (some x) 0 with
      | .error e => .error e
      | .ok xl =>
        SSFreeSkiplist.removeByRankLoop stop update sl.next sl xl.forwardNode (i + 1) []

/-! ### The hash index -/

/-- The lookup `dict[key]` of the Go map: the entry and whether it is present. -/
def dictGet : List (GoString × store S) → GoString → Option (store S)
  | [], _ => none
  | e :: d, k => if e.1 = k then some e.2 else dictGet d k

/-- The statement `delete(dict, key)`. -/
def dictDelete (d : List (GoString × store S)) (k : GoString) : List (GoString × store S) :=
  d.filter (fun e => decide (e.1 ≠ k))

/-- The assignment `dict[key] = v`: the map keeps one entry per key. -/
def dictSet (d : List (GoString × store S)) (k : GoString) (v : store S) :
    List (GoString × store S) :=
  (k, v) :: dictDelete d k

/-- The struct `SortedSet`: the hash index `dict` (a Go map, here an association list with
one entry per key) and the skip list. -/
structure SortedSet (S : Type) where
  dict : List (GoString × store S)
  SSFreeSkiplist : SSFreeSkiplist S

/-- The function `Make`. -/
def Make : SortedSet S :=
  { dict := [], SSFreeSkiplist := makeSSFreeSkiplist }

/-- The method `Add`; `r` is the value `rand.Uint64()` returns if `insert` is reached. -/
def SortedSet.Add (sortedSet : SortedSet S) (r : Nat) (key : GoString) (keyrank : S) :
    Except Err (SortedSet S × Bool) :=
  let dict := dictSet sortedSet.dict key { Key := key, KeyRank := keyrank }
  match dictGet sortedSet.dict key with
  | some element =>
    if keyrank ≠ element.KeyRank then
      match sortedSet.SSFreeSkiplist.remove key element.KeyRank with
      | .error e => .error e
      | .ok (sl, _) =>
        match sl.insert r key keyrank with
        | .error e => .error e
        | .ok (sl1, _) => .ok ({ dict := dict, SSFreeSkiplist := sl1 }, false)
    else .ok ({ dict := dict, SSFreeSkiplist := sortedSet.SSFreeSkiplist }, false)
  | none =>
    match sortedSet.SSFreeSkiplist.insert r key keyrank with
    | .error e => .error e
    | .ok (sl, _) => .ok ({ dict := dict, SSFreeSkiplist := sl }, true)

/-- The set a call of `Add` leaves behind when the level `insert` draws exceeds `maxLevel`:
`sortedSet.dict[key]` is assigned first, a node of another score is removed, and `insert`
panics as `insertPanicked` describes.  With the score unchanged `insert` is not called. -/
def SortedSet.addPanicked (sortedSet : SortedSet S) (key : GoString) (keyrank : S) :
    Except Err (SortedSet S) :=
  let dict := dictSet sortedSet.dict key { Key := key, KeyRank := keyrank }
  match dictGet sortedSet.dict key with
  | some element =>
    if keyrank ≠ element.KeyRank then
      match sortedSet.SSFreeSkiplist.remove key element.KeyRank with
      | .error e => .error e
      | .ok (sl, _) =>
        match sl.insertPanicked key keyrank with
        | .error e => .error e
        | .ok sl1 => .ok { dict := dict, SSFreeSkiplist := sl1 }
    else .ok { dict := dict, SSFreeSkiplist := sortedSet.SSFreeSkiplist }
  | none =>
    match sortedSet.SSFreeSkiplist.insertPanicked key keyrank with
    | .error e => .error e
    | .ok sl => .ok { dict := dict, SSFreeSkiplist := sl }

/-- The method `Len`. -/
def SortedSet.Len (sortedSet : SortedSet S) : Int :=
  (sortedSet.dict.length : Int)

/-- The method `Get`: `none` stands for the result `(nil, false)`. -/
def SortedSet.Get (sortedSet : SortedSet S) (key : GoString) : Option (store S) :=
  dictGet sortedSet.dict key

/-- The method `Remove`. -/
def SortedSet.Remove (sortedSet : SortedSet S) (key : GoString) :
    Except Err (SortedSet S × Bool) :=
  match dictGet sortedSet.dict key with
  | some v =>
    match sortedSet.SSFreeSkiplist.remove key v.KeyRank with
    | .error e => .error e
    | .ok (sl, _) =>
      .ok ({ dict := dictDelete sortedSet.dict key, SSFreeSkiplist := sl }, true)
  | none => .ok (sortedSet, false)

/-- The method `GetRank`. -/
def SortedSet.GetRank (sortedSet : SortedSet S) (key : GoString) (desc : Bool) :
    Except Err Int :=
  match dictGet sortedSet.dict key with
  | none => .ok (-1)
  | some element =>
    match sortedSet.SSFreeSkiplist.getRank key element.KeyRank with
    | .error e => .error e
    | .ok r =>
      if desc then .ok (sortedSet.SSFreeSkiplist.length - r)
      else .ok (r - 1)

/-- The visiting loop of `ForEach`: `k` iterations are left, the visitor `consumer` threads
its own state `σ` (the variables its closure captures) and may panic itself. -/
def SSFreeSkiplist.forEachLoop {σ : Type} (sl : SSFreeSkiplist S) (desc : Bool)
    (consumer : σ → store S → Except Err (σ × Bool)) :
    Nat → Option Nat → σ → Except Err σ
  | 0, _, s => .ok s
  | k + 1, p, s =>
    match sl.getNode p with
    | .error e => .error e
    | .ok nd =>
      match consumer s nd.tostore with
      | .error e => .error e
      | .ok (s', cont) =>
        if !cont then .ok s'
        else if desc then sl.forEachLoop desc consumer k nd.backwardNode s'
        else
          match sl.getLevel p 0 with
          | .error e => .error e
          | .ok l => sl.forEachLoop desc consumer k l.forwardNode s'

/-- The node `ForEach` starts from. -/
def SortedSet.startNode (sortedSet : SortedSet S) (start : Int) (desc : Bool) :
    Except Err (Option Nat) :=
  let sl := sortedSet.SSFreeSkiplist
  if desc then
    if start > 0 then sl.getByRank (sortedSet.Len - start) else .ok sl.tail
  else
    match sl.getLevel (some sl.header) 0 with
    | .error e => .error e
    | .ok hl => if start > 0 then sl.getByRank (start + 1) else .ok hl.forwardNode

/-- The method `ForEach`; the result is the final state of the visitor. -/
def SortedSet.ForEach {σ : Type} (sortedSet : SortedSet S) (start stop : Int) (desc : Bool)
    (consumer : σ → store S → Except Err (σ × Bool)) (init : σ) : Except Err σ :=
  let size := sortedSet.Len
  if start < 0 ∨ start ≥ size then .error Err.illegalStart
  else if stop < start ∨ stop > size then .error Err.illegalEnd
  else
    match sortedSet.startNode start desc with
    | .error e => .error e
    | .ok p =>
      sortedSet.SSFreeSkiplist.forEachLoop desc consumer (stop - start).toNat p init

/-- The visitor of `Range`: it stores the member at index `i` of the slice. -/
def rangeVisitor (st : List (Option (store S)) × Nat) (element : store S) :
    Except Err ((List (Option (store S)) × Nat) × Bool) :=
  if st.2 < st.1.length then .ok ((st.1.set st.2 (some element), st.2 + 1), true)
  else .error Err.indexOutOfRange

/-- The method `Range`: the slice is allocated with `stop - start` nil entries (a negative
size panics) and filled by the visitor. -/
def SortedSet.Range (sortedSet : SortedSet S) (start stop : Int) (desc : Bool) :
    Except Err (List (Option (store S))) :=
  let sliceSize := stop - start
  if sliceSize < 0 then .error Err.makeslice
  else
    match sortedSet.ForEach start stop desc rangeVisitor
        (List.replicate sliceSize.toNat none, 0) with
    | .error e => .error e
    | .ok r => .ok r.1

/-- The method `Count`. -/
def SortedSet.Count (sortedSet : SortedSet S) (min max : SSFreeRankInterval S) :
    Except Err Int :=
  sortedSet.ForEach 0 sortedSet.Len false
    (fun (i : Int) element =>
      if !min.less element.KeyRank then .ok (i, true)
      else if !max.greater element.KeyRank then .ok (i, false)
      else .ok (i + 1, true))
    0

/-- The first loop of `ForEachByScore`: skip `offset` members. -/
def SSFreeSkiplist.skipLoop (sl : SSFreeSkiplist S) (desc : Bool) :
    Nat → Option Nat → Except Err (Option Nat)
  | 0, p => .ok p
  | k + 1, p =>
    match p with
    | none => .ok none
    | some a =>
      if desc then sl.skipLoop desc k (sl.mem a).backwardNode
      else
        match sl.getLevel (some a) 0 with
        | .error e => .error e
        | .ok l => sl.skipLoop desc k l.forwardNode

/-- The second loop of `ForEachByScore`, `i` counting the members visited so far. -/
def SSFreeSkiplist.byScoreLoop {σ : Type} (sl : SSFreeSkiplist S)
    (min max : SSFreeRankInterval S) (limit : Int) (desc : Bool)
    (consumer : σ → store S → Except Err (σ × Bool)) :
    Nat → Int → Option Nat → σ → Except Err σ
  | 0, _, _, _ => .error .outOfFuel
  | fuel + 1, i, p, s =>
    if i < limit ∨ limit < 0 then
      match p with
      | none => .ok s
      | some a =>
        match consumer s (sl.mem a).tostore with
        | .error e => .error e
        | .ok (s', cont) =>
          if !cont then .ok s'
          else
            let next : Except Err (Option Nat) :=
              if desc then .ok (sl.mem a).backwardNode
              else
                match sl.getLevel (some a) 0 with
                | .error e => .error e
                | .ok l => .ok l.forwardNode
            match next with
            | .error e => .error e
            | .ok none => .ok s'
            | .ok (some b) =>
              if !min.less (sl.mem b).KeyRank || !max.greater (sl.mem b).KeyRank then .ok s'
              else sl.byScoreLoop min max limit desc consumer fuel (i + 1) (some b) s'
    else .ok s

/-- The method `ForEachByScore`; the result is the final state of the visitor. -/
def SortedSet.ForEachByScore {σ : Type} (sortedSet : SortedSet S)
    (min max : SSFreeRankInterval S) (offset limit : Int) (desc : Bool)
    (consumer : σ → store S → Except Err (σ × Bool)) (init : σ) : Except Err σ :=
  let sl := sortedSet.SSFreeSkiplist
  match (if desc then sl.getLastInScoreRange min max
      else sl.getFirstInScoreRange min max) with
  | .error e => .error e
  | .ok p =>
    match sl.skipLoop desc offset.toNat p with
    | .error e => .error e
    | .ok p1 => sl.byScoreLoop min max limit desc consumer sl.next 0 p1 init

/-- The method `RangeByScore`. -/
def SortedSet.RangeByScore (sortedSet : SortedSet S) (min max : SSFreeRankInterval S)
    (offset limit : Int) (desc : Bool) : Except Err (List (store S)) :=
  if limit = 0 ∨ offset < 0 then .ok []
  else
    sortedSet.ForEachByScore min max offset limit desc
      (fun (slice : List (store S)) element => .ok (slice ++ [element], true)) []

/-- The loop `for _, element := range removed { delete(dict, element.Key) }`. -/
def dictDeleteAll (d : List (GoString × store S)) (removed : List (store S)) :
    List (GoString × store S) :=
  removed.foldl (fun d element => dictDelete d element.Key) d

/-- The method `RemoveByScore`. -/
def SortedSet.RemoveByScore (sortedSet : SortedSet S) (min max : SSFreeRankInterval S) :
    Except Err (SortedSet S × Int) :=
  match sortedSet.SSFreeSkiplist.RemoveRangeByScore min max 0 with
  | .error e => .error e
  | .ok (sl, removed) =>
    .ok ({ dict := dictDeleteAll sortedSet.dict removed, SSFreeSkiplist := sl },
      (removed.length : Int))

/-- The method `PopMin`; the result `nil` is the empty list. -/
def SortedSet.PopMin (sortedSet : SortedSet S) (count : Int) :
    Except Err (SortedSet S × List (store S)) :=
  match sortedSet.SSFreeSkiplist.getFirstInScoreRange
      NegativeInfinityExtremum PositiveInfinityExtremum with
  | .error e => .error e
  | .ok none => .ok (sortedSet, [])
  | .ok (some first) =>
    match sortedSet.SSFreeSkiplist.RemoveRangeByScore
        { limit := 0, Value := (sortedSet.SSFreeSkiplist.mem first).KeyRank,
          isOpenInterval := false }
        PositiveInfinityExtremum count with
    | .error e => .error e
    | .ok (sl, removed) =>
      .ok ({ dict := dictDeleteAll sortedSet.dict removed, SSFreeSkiplist := sl }, removed)

/-- The method `RemoveByRank`. -/
def SortedSet.RemoveByRank (sortedSet : SortedSet S) (start stop : Int) :
    Except Err (SortedSet S × Int) :=
  match sortedSet.SSFreeSkiplist.RemoveRangeByRank (start + 1) (stop + 1) with
  | .error e => .error e
  | .ok (sl, removed) =>
    .ok ({ dict := dictDeleteAll sortedSet.dict removed, SSFreeSkiplist := sl },
      (removed.length : Int))

end Model

/-! ### Observations of a heap, and the shape of a well-formed skip list -/

section Shape

variable {S : Type}

/-- The strict total order `(score, key)` on members. -/
def storeLT [LinearOrder S] (a b : store S) : Prop :=
  a.KeyRank < b.KeyRank ∨ (a.KeyRank = b.KeyRank ∧ a.Key < b.Key)

instance [LinearOrder S] (a b : store S) : Decidable (storeLT a b) := by
  unfold storeLT; infer_instance

/-- The order `(score, key)`, not strict. -/
def storeLE [LinearOrder S] (a b : store S) : Prop := storeLT a b ∨ a = b

instance [LinearOrder S] (a b : store S) : Decidable (storeLE a b) := by
  unfold storeLE; infer_instance

/-- What the code can observe of a skip list: for every address the number of levels, the
forward pointer and span of each level, the member, the backward pointer; and the fields
of the list itself. -/
structure Obs (S : Type) where
  hgt : Nat → Nat
  fwd : Nat → Nat → Option Nat
  spn : Nat → Nat → Int
  st : Nat → store S
  bwd : Nat → Option Nat
  next : Nat
  header : Nat
  tail : Option Nat
  length : Int
  level : Nat

/-- The observations of a skip list. -/
def SSFreeSkiplist.obs (sl : SSFreeSkiplist S) : Obs S where
  hgt := fun x => (sl.mem x).level.length
  fwd := fun x i => ((sl.mem x).level[i]?).bind Level.forwardNode
  spn := fun x i => (((sl.mem x).level[i]?).map Level.span).getD 0
  st := fun x => (sl.mem x).tostore
  bwd := fun x => (sl.mem x).backwardNode
  next := sl.next
  header := sl.header
  tail := sl.tail
  length := sl.length
  level := sl.level

/-- The first node of `l` with more than `i` levels. -/
def nxt (h : Nat → Nat) (i : Nat) : List Nat → Option Nat
  | [] => none
  | y :: l => if i < h y then some y else nxt h i l

/-- The number of steps to the first node of `l` with more than `i` levels, or to the end
of `l` when there is none. -/
def dst (h : Nat → Nat) (i : Nat) : List Nat → Int
  | [] => 0
  | y :: l => if i < h y then 1 else dst h i l + 1

/-- Every level of every node of the list points to the next node that reaches the level,
with the exact span (spans are kept for the levels below the level of the list). -/
def Links (o : Obs S) : List Nat → Prop
  | [] => True
  | x :: suf =>
    (∀ i, i < o.hgt x →
      o.fwd x i = nxt o.hgt i suf ∧ (i < o.level → o.spn x i = dst o.hgt i suf)) ∧
    Links o suf

/-- Every node of the list points back to its predecessor, the first one to `prev`. -/
def Backs (o : Obs S) : Option Nat → List Nat → Prop
  | _, [] => True
  | prev, x :: l => o.bwd x = prev ∧ Backs o (some x) l

/-- The skip list is well formed and its members are, in order, the nodes `ts`; members
with the same score and key may follow one another (`insert` does not look for them). -/
structure Inv [LinearOrder S] (o : Obs S) (ts : List Nat) : Prop where
  header_lt : o.header < o.next
  mem_lt : ∀ x ∈ ts, x < o.next
  len_lt : ts.length < o.next
  header_nmem : o.header ∉ ts
  nodup : ts.Nodup
  hgt_header : o.hgt o.header = maxLevel
  level_pos : 1 ≤ o.level
  level_le : o.level ≤ maxLevel
  hgt_pos : ∀ x ∈ ts, 1 ≤ o.hgt x
  hgt_le : ∀ x ∈ ts, o.hgt x ≤ o.level
  links : Links o (o.header :: ts)
  sorted : ts.Pairwise (fun a b => storeLE (o.st a) (o.st b))
  backs : Backs o none ts
  tail_eq : o.tail = ts.getLast?
  length_eq : o.length = ts.length
  header_key : (o.st o.header).Key = []

/-- The observations after `x.level[i].forwardNode = v`. -/
def Obs.setFwd (o : Obs S) (x i : Nat) (v : Option Nat) : Obs S :=
  { o with fwd := fun y j => if y = x ∧ j = i then v else o.fwd y j }

/-- The observations after `x.level[i].span = v`. -/
def Obs.setSpn (o : Obs S) (x i : Nat) (v : Int) : Obs S :=
  { o with spn := fun y j => if y = x ∧ j = i then v else o.spn y j }

/-- The observations after `x.backwardNode = v`. -/
def Obs.setBwd (o : Obs S) (x : Nat) (v : Option Nat) : Obs S :=
  { o with bwd := fun y => if y = x then v else o.bwd y }

/-- The observations after `makeNode level keyRank key`. -/
def Obs.alloc (o : Obs S) (level : Nat) (keyRank : S) (key : GoString) : Obs S :=
  { o with
    hgt := fun y => if y = o.next then level else o.hgt y
    fwd := fun y j => if y = o.next then none else o.fwd y j
    spn := fun y j => if y = o.next then 0 else o.spn y j
    st := fun y => if y = o.next then { Key := key, KeyRank := keyRank } else o.st y
    bwd := fun y => if y = o.next then none else o.bwd y
    next := o.next + 1 }

/-- The loop condition `cond` has the value `b` at every node of the list, the first node
being `q` base-level steps from the header, the next one `q + 1`, and so on. -/
def CondOn (mem : Nat → node S) (cond : Int → node S → Bool) (b : Bool) :
    Int → List Nat → Prop
  | _, [] => True
  | q, y :: l => cond q (mem y) = b ∧ CondOn mem cond b (q + 1) l

/-- In the list `l`, the node `v` is the last one with more than `j` levels, and `r` nodes
stand before it. -/
def IsPred (o : Obs S) (l : List Nat) (j : Nat) (v : Nat) (r : Int) : Prop :=
  ∃ L1 L2, l = L1 ++ v :: L2 ∧ r = L1.length ∧ j < o.hgt v ∧ ∀ z ∈ L2, o.hgt z ≤ j

/-- The observations after `insert` has linked a node of `lvl` levels for `(key, score)`
behind the nodes `update`, which have `rank` nodes before them, into a list whose level
already is at least `lvl`. -/
def Obs.inserted (o : Obs S) (update : Nat → Option Nat) (rank : Nat → Int) (lvl : Nat)
    (key : GoString) (score : S) : Obs S where
  hgt := fun y => if y = o.next then lvl else o.hgt y
  fwd := fun y j =>
    if y = o.next then (if j < lvl then (update j).bind (fun v => o.fwd v j) else none)
    else if j < lvl ∧ update j = some y then some o.next
    else o.fwd y j
  spn := fun y j =>
    if y = o.next then
      (if j < lvl then ((update j).map (fun v => o.spn v j)).getD 0 - (rank 0 - rank j) else 0)
    else if update j = some y then
      (if j < lvl then (rank 0 - rank j) + 1
       else if j < o.level then o.spn y j + 1 else o.spn y j)
    else o.spn y j
  st := fun y => if y = o.next then { Key := key, KeyRank := score } else o.st y
  bwd := fun y =>
    if y = o.next then (if update 0 = some o.header then none else update 0)
    else if (update 0).bind (fun v => o.fwd v 0) = some y then some o.next
    else o.bwd y
  next := o.next + 1
  header := o.header
  tail := if (update 0).bind (fun v => o.fwd v 0) = none then some o.next else o.tail
  length := o.length + 1
  level := o.level

/-- The observations after the extension loop of `insert` has run over the levels from the
level of the list up to `lvl`, and the level of the list has been raised. -/
def Obs.extended (o : Obs S) (lvl : Nat) : Obs S :=
  { o with
    spn := fun y j => if y = o.header ∧ o.level ≤ j ∧ j < lvl then o.length else o.spn y j
    level := if o.level < lvl then lvl else o.level }

/-- The observations after the linking loop of `insert` has run over the levels below
`k`, for the new node `n`. -/
def Obs.linked (o : Obs S) (update : Nat → Option Nat) (rank : Nat → Int) (n k : Nat) :
    Obs S :=
  { o with
    fwd := fun y j =>
      if j < k then
        (if y = n then (update j).bind (fun v => o.fwd v j)
         else if update j = some y then some n else o.fwd y j)
      else o.fwd y j
    spn := fun y j =>
      if j < k then
        (if y = n then ((update j).map (fun v => o.spn v j)).getD 0 - (rank 0 - rank j)
         else if update j = some y then (rank 0 - rank j) + 1 else o.spn y j)
      else o.spn y j }

/-- The observations after the loop of `insert` over the levels from `lo` to `hi` that the
new node does not reach. -/
def Obs.bumped (o : Obs S) (update : Nat → Option Nat) (lo hi : Nat) : Obs S :=
  { o with
    spn := fun y j =>
      if lo ≤ j ∧ j < hi ∧ update j = some y then o.spn y j + 1 else o.spn y j }

/-- The observations after the first loop of `removeNode` has run over the levels below
`k`, for the node `t`. -/
def Obs.unlinked (o : Obs S) (update : Nat → Option Nat) (t k : Nat) : Obs S :=
  { o with
    fwd := fun y j =>
      if j < k ∧ update j = some y ∧ o.fwd y j = some t then o.fwd t j else o.fwd y j
    spn := fun y j =>
      if j < k ∧ update j = some y then
        (if o.fwd y j = some t then o.spn y j + (o.spn t j - 1) else o.spn y j - 1)
      else o.spn y j }

/-- The level left by the loop of `removeNode` that drops the empty top levels, after at
most `k` iterations from level `l`; `f` gives the forward pointers of the header. -/
def shrinkLevel (f : Nat → Option Nat) : Nat → Nat → Nat
  | 0, l => l
  | k + 1, l => if 1 < l ∧ f (l - 1) = none then shrinkLevel f k (l - 1) else l

/-- The observations after `removeNode` has unlinked the node `t` behind the nodes
`update`. -/
def Obs.removed (o : Obs S) (update : Nat → Option Nat) (t : Nat) : Obs S :=
  { o.unlinked update t o.level with
    bwd := fun y => if o.fwd t 0 = some y then o.bwd t else o.bwd y
    tail := if o.fwd t 0 = none then o.bwd t else o.tail
    length := o.length - 1
    level := shrinkLevel ((o.unlinked update t o.level).fwd o.header) o.level o.level }

/-- The first test of `hasInRange`: the two `Value` fields alone say the range is empty. -/
def valuesRejected [LinearOrder S] (min max : SSFreeRankInterval S) : Prop :=
  min.Value > max.Value ∨
    (min.Value = max.Value ∧ (min.isOpenInterval = true ∨ max.isOpenInterval = true))

instance [LinearOrder S] (min max : SSFreeRankInterval S) : Decidable (valuesRejected min max) := by
  unfold valuesRejected; infer_instance

end Shape

/-! ### The sorted set as a whole -/

section Whole

variable {S : Type} [LinearOrder S] [Zero S]

/-- Following the level-0 forward links from the pointer `p` to the end, collecting the
members met. -/
def SSFreeSkiplist.walk (sl : SSFreeSkiplist S) : Nat → Option Nat → Except Err (List (store S))
  | 0, _ => .error .outOfFuel
  | _ + 1, none => .ok []
  | fuel + 1, some a =>
    match sl.getLevel (some a) 0 with
    | .error e => .error e
    | .ok l =>
      match sl.walk fuel l.forwardNode with
      | .error e => .error e
      | .ok r => .ok ((sl.mem a).tostore :: r)

/-- The members met by following the level-0 forward links from the header. -/
def SSFreeSkiplist.members (sl : SSFreeSkiplist S) : Except Err (List (store S)) :=
  match sl.getLevel (some sl.header) 0 with
  | .error e => .error e
  | .ok hl => sl.walk sl.next hl.forwardNode

/-- The sorted sets that `Make` and the mutating methods produce. -/
inductive Reachable : SortedSet S → Prop
  | make : Reachable Make
  | add {s s' : SortedSet S} {r : Nat} {key : GoString} {keyrank : S} {b : Bool} :
      Reachable s → s.Add r key keyrank = .ok (s', b) → Reachable s'
  | remove {s s' : SortedSet S} {key : GoString} {b : Bool} :
      Reachable s → s.Remove key = .ok (s', b) → Reachable s'
  | removeByScore {s s' : SortedSet S} {min max : SSFreeRankInterval S} {n : Int} :
      Reachable s → s.RemoveByScore min max = .ok (s', n) → Reachable s'
  | removeByRank {s s' : SortedSet S} {start stop : Int} {n : Int} :
      Reachable s → s.RemoveByRank start stop = .ok (s', n) → Reachable s'
  | popMin {s s' : SortedSet S} {count : Int} {removed : List (store S)} :
      Reachable s → s.PopMin count = .ok (s', removed) → Reachable s'

/-- The hash index and the skip list hold the same members: the nodes `ts` of the list, in
order, carry the entries of `dict`, one node per key. -/
structure SetInv (s : SortedSet S) (ts : List Nat) : Prop where
  inv : Inv s.SSFreeSkiplist.obs ts
  keys : (s.dict.map Prod.fst).Nodup
  keyed : ∀ e ∈ s.dict, e.2.Key = e.1
  perm : (s.dict.map Prod.snd).Perm (ts.map s.SSFreeSkiplist.obs.st)

/-- What a visiting loop computes on the members `l`: the visitor is called on each member
in turn, until it returns `false` or panics. -/
def visit {σ : Type} (consumer : σ → store S → Except Err (σ × Bool)) :
    List (store S) → σ → Except Err σ
  | [], s => .ok s
  | e :: l, s =>
    match consumer s e with
    | .error err => .error err
    | .ok (s', cont) => if !cont then .ok s' else visit consumer l s'

/-- The skip lists that `makeSSFreeSkiplist` and the calls of `insert`, `remove`,
`RemoveRangeByScore` and `RemoveRangeByRank` that return produce. -/
inductive ReachableList : SSFreeSkiplist S → Prop
  | make : ReachableList makeSSFreeSkiplist
  | insert {sl sl' : SSFreeSkiplist S} {r : Nat} {key : GoString} {keyrank : S} {n : Nat} :
      ReachableList sl → sl.insert r key keyrank = .ok (sl', n) → ReachableList sl'
  | remove {sl sl' : SSFreeSkiplist S} {key : GoString} {keyrank : S} {b : Bool} :
      ReachableList sl → sl.remove key keyrank = .ok (sl', b) → ReachableList sl'
  | removeRangeByScore {sl sl' : SSFreeSkiplist S} {min max : SSFreeRankInterval S}
      {limit : Int} {removed : List (store S)} :
      ReachableList sl → sl.RemoveRangeByScore min max limit = .ok (sl', removed) →
      ReachableList sl'
  | removeRangeByRank {sl sl' : SSFreeSkiplist S} {start stop : Int}
      {removed : List (store S)} :
      ReachableList sl → sl.RemoveRangeByRank start stop = .ok (sl', removed) →
      ReachableList sl'

/-- The node reached from the node `x` by `n` steps along the level-0 forward links, if
there are that many. -/
def SSFreeSkiplist.forwardBy (sl : SSFreeSkiplist S) : Nat → Nat → Option Nat
  | 0, x => some x
  | n + 1, x =>
    match sl.getLevel (some x) 0 with
    | .error _ => none
    | .ok l =>
      match l.forwardNode with
      | none => none
      | some y => sl.forwardBy n y

/-- The nodes of `C` follow one another in the direction of a traversal: each has the next
one as its level-0 forward node (`desc = false`) or as its backward node (`desc = true`),
and the last one has none. -/
def Steps (sl : SSFreeSkiplist S) (desc : Bool) : List Nat → Prop
  | [] => True
  | a :: l =>
    (desc = false → 0 < sl.obs.hgt a) ∧
      (if desc then sl.obs.bwd a else sl.obs.fwd a 0) = l.head? ∧ Steps sl desc l

/-- The members a visiting loop with a limit reaches from the first node of `C`: the first
node unconditionally, then the following ones as long as `p` holds, `limit` of them at most
when `limit` is not negative. -/
def reached (p : Nat → Bool) (limit : Int) (C : List Nat) : List Nat :=
  if limit < 0 then C.take 1 ++ C.tail.takeWhile p
  else (C.take 1 ++ C.tail.takeWhile p).take limit.toNat

/-- The nodes `ForEachByScore` can walk over from its start node, in the order of the walk,
in a list whose members are the nodes `ts`: from the first node that satisfies `min` to the
end, or from the last node that satisfies `max` back to the beginning; no node when
`hasInRange` rejects the range or the start node fails the other bound. -/
def scoreChain (sl : SSFreeSkiplist S) (ts : List Nat) (min max : SSFreeRankInterval S)
    (desc : Bool) : List Nat :=
  if valuesRejected min max then []
  else if desc then
    if ((ts.takeWhile (fun y => max.greater (sl.obs.st y).KeyRank)).getLast?.filter
        (fun u => min.less (sl.obs.st u).KeyRank)).isSome then
      (ts.takeWhile (fun y => max.greater (sl.obs.st y).KeyRank)).reverse
    else []
  else
    if ((ts.dropWhile (fun y => !min.less (sl.obs.st y).KeyRank)).head?.filter
        (fun f => max.greater (sl.obs.st f).KeyRank)).isSome then
      ts.dropWhile (fun y => !min.less (sl.obs.st y).KeyRank)
    else []

/-- The score `v` satisfies the finite lower bound `lv` (exclusive if `lo`) and the finite
upper bound `uv` (exclusive if `uo`). -/
def withinBounds (lv : S) (lo : Bool) (uv : S) (uo : Bool) (v : S) : Bool :=
  decide ((if lo then lv < v else lv ≤ v) ∧ (if uo then v < uv else v ≤ uv))

/-- The members of the set in ascending `(score, key)` order, read off the hash index. -/
def SortedSet.ascending (s : SortedSet S) : List (store S) :=
  (s.dict.map Prod.snd).insertionSort storeLE

end Whole


/-! ### The sets of the examples -/

section Examples

/-- The key `"a"`. -/
def keyA : GoString := [97]

/-- The key `"b"`. -/
def keyB : GoString := [98]

/-- The key `"c"`. -/
def keyC : GoString := [99]

/-- The key `"z"`. -/
def keyZ : GoString := [122]

/-- The set a call returned, the fresh set if the call panicked. -/
def orMake {α : Type} : Except Err (SortedSet Int × α) → SortedSet Int
  | .ok (s, _) => s
  | .error _ => Make

/-- The set after `Add("a", 1.0)` on a fresh set; the level drawn is 1. -/
def setA : SortedSet Int := orMake ((Make : SortedSet Int).Add 40000 keyA 1)

/-- The set after `Add("a", 1.0)`, `Add("b", 2.0)`; the levels drawn are 1 and 2. -/
def setAB : SortedSet Int := orMake (setA.Add 20000 keyB 2)

/-- The set after `Add("a", 1.0)`, `Add("b", 2.0)`, `Add("c", 1.0)`; the levels drawn are
1, 2 and 4. -/
def setABC : SortedSet Int := orMake (setAB.Add 5000 keyC 1)

/-- The set after `Add("", 1.0)`, `Add("z", 2.0)`; the levels drawn are 1 and 2. -/
def setEZ : SortedSet Int :=
  orMake ((orMake ((Make : SortedSet Int).Add 40000 [] 1)).Add 20000 keyZ 2)

/-- A visitor that counts the members it is shown. -/
def countVisitor (n : Nat) (_ : store Int) : Except Err (Nat × Bool) := .ok (n + 1, true)

/-- The list a call returned, the fresh list if the call panicked. -/
def orList {α : Type} : Except Err (SSFreeSkiplist Int × α) → SSFreeSkiplist Int
  | .ok (sl, _) => sl
  | .error _ => makeSSFreeSkiplist

/-- The list after `insert("a", 1.0)` on a fresh list; the level drawn is 1. -/
def listA : SSFreeSkiplist Int :=
  orList ((makeSSFreeSkiplist : SSFreeSkiplist Int).insert 40000 keyA 1)

/-- The list after `insert("a", 1.0)`, `insert("b", 2.0)`; the levels drawn are 1 and 2. -/
def listAB : SSFreeSkiplist Int := orList (listA.insert 20000 keyB 2)

/-- The list after `insert("a", 1.0)`, `insert("b", 2.0)`, `insert("c", 1.0)`; the levels
drawn are 1, 2 and 4, and the nodes have the addresses 1, 2 and 3 (the header has 0). -/
def listABC : SSFreeSkiplist Int := orList (listAB.insert 5000 keyC 1)

/-- The list after `insert("a", 1.0)`, `insert("a", 2.0)`, the levels drawn being 2 and 1:
`insert` does not look for the key, so the chain holds two nodes of the key `"a"`. -/
def listAA : SSFreeSkiplist Int :=
  orList ((orList ((makeSSFreeSkiplist : SSFreeSkiplist Int).insert 20000 keyA 1)).insert
    40000 keyA 2)

end Examples

/-! ## Proofs -/

section HeapLemmas

variable {S : Type}

@[simp] theorem ok_bind {α β : Type} (a : α) (f : α → Except Err β) :
    (Except.ok a >>= f) = f a := rfl

@[simp] theorem error_bind {α β : Type} (e : Err) (f : α → Except Err β) :
    (Except.error e >>= f) = Except.error e := rfl

@[simp] theorem pure_eq_ok {α : Type} (a : α) : (pure a : Except Err α) = Except.ok a := rfl

@[simp] theorem throw_eq_error {α : Type} (e : Err) :
    (throw e : Except Err α) = Except.error e := rfl

theorem getLevel_eq (sl : SSFreeSkiplist S) (x i : Nat) (h : i < sl.obs.hgt x) :
    sl.getLevel (some x) i = .ok ⟨sl.obs.fwd x i, sl.obs.spn x i⟩ := by
  have h' : i < (sl.mem x).level.length := h
  simp [SSFreeSkiplist.getLevel, SSFreeSkiplist.obs, List.getElem?_eq_getElem h']

theorem setLevel_obs (sl : SSFreeSkiplist S) (x i : Nat) (l : Level) (h : i < sl.obs.hgt x) :
    ∃ sl', sl.setLevel (some x) i l = .ok sl' ∧
      sl'.obs = (sl.obs.setFwd x i l.forwardNode).setSpn x i l.span := by
  have h' : i < (sl.mem x).level.length := h
  refine ⟨_, by simp [SSFreeSkiplist.setLevel, h']; rfl, ?_⟩
  simp only [SSFreeSkiplist.obs, Obs.setFwd, Obs.setSpn]
  congr 1
  · funext y
    by_cases hy : y = x
    · subst hy; simp
    · simp [Function.update_noteq hy]
  · funext y j
    by_cases hy : y = x
    · subst hy
      by_cases hj : j = i
      · subst hj; simp [h']
      · simp [hj, List.getElem?_set_ne (Ne.symm hj)]
    · simp [Function.update_noteq hy, hy]
  · funext y j
    by_cases hy : y = x
    · subst hy
      by_cases hj : j = i
      · subst hj; simp [h']
      · simp [hj, List.getElem?_set_ne (Ne.symm hj)]
    · simp [Function.update_noteq hy, hy]
  · funext y
    by_cases hy : y = x
    · subst hy; simp
    · simp [Function.update_noteq hy]
  · funext y
    by_cases hy : y = x
    · subst hy; simp
    · simp [Function.update_noteq hy]

theorem setForward_obs (sl : SSFreeSkiplist S) (x i : Nat) (v : Option Nat)
    (h : i < sl.obs.hgt x) :
    ∃ sl', sl.setForward (some x) i v = .ok sl' ∧ sl'.obs = sl.obs.setFwd x i v := by
  obtain ⟨sl', h1, h2⟩ := setLevel_obs sl x i ⟨v, sl.obs.spn x i⟩ h
  refine ⟨sl', by simp [SSFreeSkiplist.setForward, getLevel_eq sl x i h, h1], ?_⟩
  rw [h2]
  simp only [Obs.setFwd, Obs.setSpn]
  congr 1
  funext y j
  by_cases hy : y = x ∧ j = i
  · simp [hy]
  · simp [hy]

theorem setSpan_obs (sl : SSFreeSkiplist S) (x i : Nat) (v : Int)
    (h : i < sl.obs.hgt x) :
    ∃ sl', sl.setSpan (some x) i v = .ok sl' ∧ sl'.obs = sl.obs.setSpn x i v := by
  obtain ⟨sl', h1, h2⟩ := setLevel_obs sl x i ⟨sl.obs.fwd x i, v⟩ h
  refine ⟨sl', by simp [SSFreeSkiplist.setSpan, getLevel_eq sl x i h, h1], ?_⟩
  rw [h2]
  simp only [Obs.setFwd, Obs.setSpn]
  congr 1
  funext y j
  by_cases hy : y = x ∧ j = i
  · simp [hy]
  · simp [hy]

theorem setBackward_obs (sl : SSFreeSkiplist S) (x : Nat) (v : Option Nat) :
    ∃ sl', sl.setBackward (some x) v = .ok sl' ∧ sl'.obs = sl.obs.setBwd x v := by
  refine ⟨_, rfl, ?_⟩
  simp only [SSFreeSkiplist.obs, Obs.setBwd]
  congr 1
  · funext y
    by_cases hy : y = x
    · subst hy; simp
    · simp [Function.update_noteq hy]
  · funext y j
    by_cases hy : y = x
    · subst hy; simp
    · simp [Function.update_noteq hy]
  · funext y j
    by_cases hy : y = x
    · subst hy; simp
    · simp [Function.update_noteq hy]
  · funext y
    by_cases hy : y = x
    · subst hy; simp
    · simp [Function.update_noteq hy]
  · funext y
    by_cases hy : y = x
    · subst hy; simp
    · simp [Function.update_noteq hy, hy]

theorem makeNode_obs [Zero S] (sl : SSFreeSkiplist S) (level : Nat) (keyRank : S)
    (key : GoString) :
    (makeNode sl level keyRank key).2 = sl.obs.next ∧
      (makeNode sl level keyRank key).1.obs = sl.obs.alloc level keyRank key := by
  refine ⟨rfl, ?_⟩
  simp only [SSFreeSkiplist.obs, Obs.alloc, makeNode]
  congr 1
  · funext y
    by_cases hy : y = sl.next
    · subst hy; simp
    · simp [Function.update_noteq hy, hy]
  · funext y j
    by_cases hy : y = sl.next
    · subst hy
      by_cases hj : j < level
      · simp [List.getElem?_replicate, hj]
      · simp [List.getElem?_replicate, hj]
    · simp [Function.update_noteq hy, hy]
  · funext y j
    by_cases hy : y = sl.next
    · subst hy
      by_cases hj : j < level
      · simp [List.getElem?_replicate, hj]
      · simp [List.getElem?_replicate, hj]
    · simp [Function.update_noteq hy, hy]
  · funext y
    by_cases hy : y = sl.next
    · subst hy; simp
    · simp [Function.update_noteq hy, hy]
  · funext y
    by_cases hy : y = sl.next
    · subst hy; simp
    · simp [Function.update_noteq hy, hy]

theorem mem_st (sl : SSFreeSkiplist S) (x : Nat) : (sl.mem x).tostore = sl.obs.st x := rfl

theorem mem_bwd (sl : SSFreeSkiplist S) (x : Nat) : (sl.mem x).backwardNode = sl.obs.bwd x := rfl

end HeapLemmas

section Traversal

variable {S : Type}

@[simp] theorem nxt_nil (h : Nat → Nat) (i : Nat) : nxt h i [] = none := rfl

@[simp] theorem dst_nil (h : Nat → Nat) (i : Nat) : dst h i [] = 0 := rfl

theorem nxt_cons (h : Nat → Nat) (i y : Nat) (l : List Nat) :
    nxt h i (y :: l) = if i < h y then some y else nxt h i l := rfl

theorem dst_cons (h : Nat → Nat) (i y : Nat) (l : List Nat) :
    dst h i (y :: l) = if i < h y then 1 else dst h i l + 1 := rfl

theorem nxt_low (h : Nat → Nat) (i : Nat) (L R : List Nat) (hL : ∀ z ∈ L, h z ≤ i) :
    nxt h i (L ++ R) = nxt h i R := by
  induction L with
  | nil => rfl
  | cons a L ih =>
    have ha : ¬ i < h a := Nat.not_lt.mpr (hL a (List.mem_cons_self _ _))
    rw [List.cons_append, nxt_cons, if_neg ha]
    exact ih (fun z hz => hL z (List.mem_cons_of_mem _ hz))

theorem dst_low (h : Nat → Nat) (i : Nat) (L R : List Nat) (hL : ∀ z ∈ L, h z ≤ i) :
    dst h i (L ++ R) = L.length + dst h i R := by
  induction L with
  | nil => simp
  | cons a L ih =>
    have ha : ¬ i < h a := Nat.not_lt.mpr (hL a (List.mem_cons_self _ _))
    rw [List.cons_append, dst_cons, if_neg ha, List.length_cons,
      ih (fun z hz => hL z (List.mem_cons_of_mem _ hz))]
    push_cast; ring

theorem Links_cons (o : Obs S) (x : Nat) (suf : List Nat) :
    Links o (x :: suf) ↔
      (∀ i, i < o.hgt x →
        o.fwd x i = nxt o.hgt i suf ∧ (i < o.level → o.spn x i = dst o.hgt i suf)) ∧
      Links o suf := Iff.rfl

theorem CondOn_cons (mem : Nat → node S) (cond : Int → node S → Bool) (b : Bool)
    (q : Int) (y : Nat) (l : List Nat) :
    CondOn mem cond b q (y :: l) ↔ cond q (mem y) = b ∧ CondOn mem cond b (q + 1) l := Iff.rfl

theorem Links_suffix (o : Obs S) (L R : List Nat) (h : Links o (L ++ R)) : Links o R := by
  induction L with
  | nil => exact h
  | cons a L ih => exact ih h.2

theorem CondOn_append (mem : Nat → node S) (cond : Int → node S → Bool) (b : Bool)
    (L R : List Nat) (q : Int) :
    CondOn mem cond b q (L ++ R) ↔ CondOn mem cond b q L ∧ CondOn mem cond b (q + L.length) R := by
  induction L generalizing q with
  | nil => simp [CondOn]
  | cons a L ih =>
    rw [List.cons_append, CondOn_cons, CondOn_cons, ih, List.length_cons]
    have e : q + 1 + (L.length : Int) = q + ((L.length + 1 : Nat) : Int) := by push_cast; ring
    rw [e]
    tauto

theorem CondOn_const (mem : Nat → node S) (c : node S → Bool) (b : Bool) (l : List Nat)
    (q : Int) (h : ∀ y ∈ l, c (mem y) = b) : CondOn mem (fun _ f => c f) b q l := by
  induction l generalizing q with
  | nil => trivial
  | cons a l ih =>
    rw [CondOn_cons]
    exact ⟨h a (List.mem_cons_self _ _), ih (q + 1) (fun y hy => h y (List.mem_cons_of_mem _ hy))⟩

theorem CondOn_nxt (mem : Nat → node S) (cond : Int → node S → Bool) (b : Bool)
    (h : Nat → Nat) (i : Nat) (R : List Nat) (q : Int) (hc : CondOn mem cond b (q + 1) R) :
    ∀ y ∈ nxt h i R, cond (q + dst h i R) (mem y) = b := by
  induction R generalizing q with
  | nil => intro y hy; simp at hy
  | cons a R ih =>
    intro y hy
    rw [CondOn_cons] at hc
    by_cases ha : i < h a
    · simp only [nxt_cons, ha, if_true, Option.mem_def, Option.some.injEq] at hy
      subst hy
      simpa [dst_cons, ha] using hc.1
    · simp only [nxt_cons, ha, if_false] at hy
      have := ih (q + 1) hc.2 y hy
      simp only [dst_cons, ha, if_false]
      have e : q + (dst h i R + 1) = q + 1 + dst h i R := by ring
      rw [e]; exact this

theorem scan_spec (sl : SSFreeSkiplist S) (i : Nat) (cond : Int → node S → Bool)
    (hi : i < sl.obs.level) (R : List Nat) :
    ∀ (M : List Nat) (x : Nat) (acc d : Int) (fuel : Nat),
      i < sl.obs.hgt x →
      sl.obs.fwd x i = nxt sl.obs.hgt i (M ++ R) →
      sl.obs.spn x i = d + dst sl.obs.hgt i (M ++ R) →
      Links sl.obs (M ++ R) →
      M.length < fuel →
      CondOn sl.mem cond true (acc + d + 1) M →
      (∀ y ∈ nxt sl.obs.hgt i R,
        cond (acc + d + M.length + dst sl.obs.hgt i R) (sl.mem y) = false) →
      ∃ u r, sl.scan i cond fuel x acc = .ok (u, r) ∧
        ((u = x ∧ r = acc ∧ ∀ z ∈ M, sl.obs.hgt z ≤ i) ∨
          (∃ M1 M2, M = M1 ++ u :: M2 ∧ i < sl.obs.hgt u ∧
            (∀ z ∈ M2, sl.obs.hgt z ≤ i) ∧ r = acc + d + M1.length + 1)) := by
  intro M
  induction M with
  | nil =>
    intro x acc d fuel hx hf hs _ hfuel _ hR
    obtain ⟨f, rfl⟩ : ∃ f, fuel = f + 1 := ⟨fuel - 1, by simp at hfuel; omega⟩
    simp only [List.nil_append] at hf hs
    refine ⟨x, acc, ?_, Or.inl ⟨rfl, rfl, by simp⟩⟩
    simp only [SSFreeSkiplist.scan, getLevel_eq sl x i hx]
    cases hn : nxt sl.obs.hgt i R with
    | none => simp [hf, hn]
    | some y =>
      have := hR y (by simp [hn])
      simp only [List.length_nil, Nat.cast_zero, add_zero] at this
      have e : acc + sl.obs.spn x i = acc + d + dst sl.obs.hgt i R := by rw [hs]; ring
      simp [hf, hn, e, this]
  | cons m M ih =>
    intro x acc d fuel hx hf hs hl hfuel hM hR
    rw [List.cons_append, Links_cons] at hl
    rw [CondOn_cons] at hM
    rw [List.cons_append] at hf hs
    by_cases hm : i < sl.obs.hgt m
    · obtain ⟨f, rfl⟩ : ∃ f, fuel = f + 1 := ⟨fuel - 1, by simp at hfuel; omega⟩
      have hf' : sl.obs.fwd x i = some m := by simpa [nxt_cons, hm] using hf
      have hs' : sl.obs.spn x i = d + 1 := by simpa [dst_cons, hm] using hs
      have hl1 := hl.1 i hm
      obtain ⟨u, r, hu, hcase⟩ := ih m (acc + d + 1) 0 f hm hl1.1
        (by rw [hl1.2 hi]; ring) hl.2 (by simp at hfuel; omega)
        (by simpa using hM.2)
        (by
          intro y hy
          have := hR y hy
          simp only [List.length_cons] at this
          have e : acc + d + 1 + 0 + (M.length : Int) + dst sl.obs.hgt i R
              = acc + d + ((M.length + 1 : Nat) : Int) + dst sl.obs.hgt i R := by
            push_cast; ring
          rw [e]; exact this)
      refine ⟨u, r, ?_, Or.inr ?_⟩
      · simp only [SSFreeSkiplist.scan, getLevel_eq sl x i hx, hf', hs']
        have e : acc + (d + 1) = acc + d + 1 := by ring
        simp only [e, hM.1, if_true]
        exact hu
      · rcases hcase with ⟨rfl, rfl, hlow⟩ | ⟨M1, M2, rfl, h1, h2, h3⟩
        · exact ⟨[], M, rfl, hm, hlow, by simp⟩
        · refine ⟨m :: M1, M2, rfl, h1, h2, ?_⟩
          rw [h3]; simp only [List.length_cons]; push_cast; ring
    · have hf' : sl.obs.fwd x i = nxt sl.obs.hgt i (M ++ R) := by simpa [nxt_cons, hm] using hf
      have hs' : sl.obs.spn x i = (d + 1) + dst sl.obs.hgt i (M ++ R) := by
        rw [hs]; simp only [dst_cons, hm, if_false]; ring
      obtain ⟨u, r, hu, hcase⟩ := ih x acc (d + 1) fuel hx hf' hs' hl.2
        (by simp at hfuel; omega)
        (by
          have := hM.2
          have e : acc + (d + 1) + 1 = acc + d + 1 + 1 := by ring
          rw [e]; exact this)
        (by
          intro y hy
          have := hR y hy
          simp only [List.length_cons] at this
          have e : acc + (d + 1) + (M.length : Int) + dst sl.obs.hgt i R
              = acc + d + ((M.length + 1 : Nat) : Int) + dst sl.obs.hgt i R := by
            push_cast; ring
          rw [e]; exact this)
      refine ⟨u, r, hu, ?_⟩
      rcases hcase with ⟨rfl, rfl, hlow⟩ | ⟨M1, M2, rfl, h1, h2, h3⟩
      · left
        refine ⟨rfl, rfl, ?_⟩
        intro z hz
        rcases List.mem_cons.mp hz with rfl | hz
        · exact Nat.not_lt.mp hm
        · exact hlow z hz
      · right
        refine ⟨m :: M1, M2, rfl, h1, h2, ?_⟩
        rw [h3]; simp only [List.length_cons]; push_cast; ring

theorem descend_spec (sl : SSFreeSkiplist S) (cond : Int → node S → Bool) (R : List Nat) :
    ∀ (k x : Nat) (acc : Int) (P M : List Nat) (update : Nat → Option Nat) (rank : Nat → Int),
      k ≤ sl.obs.level → k ≤ sl.obs.hgt x →
      Links sl.obs (x :: (M ++ R)) →
      (∀ z ∈ M, sl.obs.hgt z ≤ k) →
      acc = P.length →
      CondOn sl.mem cond true (acc + 1) M →
      CondOn sl.mem cond false (acc + M.length + 1) R →
      M.length < sl.next →
      ∃ u r update' rank', sl.descend cond k x acc update rank = .ok (u, r, update', rank') ∧
        (∀ j, k ≤ j → update' j = update j ∧ rank' j = rank j) ∧
        (∀ j, j < k → ∃ v, update' j = some v ∧ IsPred sl.obs (P ++ x :: M) j v (rank' j)) ∧
        (∃ L1 L2, P ++ x :: M = L1 ++ u :: L2 ∧ r = L1.length ∧ ∀ z ∈ L2, sl.obs.hgt z ≤ 0) := by
  intro k
  induction k with
  | zero =>
    intro x acc P M update rank _ _ _ hM hacc _ _ _
    exact ⟨x, acc, update, rank, rfl, fun j _ => ⟨rfl, rfl⟩, fun j hj => absurd hj (by omega),
      P, M, rfl, hacc, hM⟩
  | succ k ih =>
    intro x acc P M update rank hk hx hl hM hacc hT hF hfuel
    rw [Links_cons] at hl
    have hl1 := hl.1 k (by omega)
    obtain ⟨u1, r1, hscan, hcase⟩ := scan_spec sl k cond (by omega) R M x acc 0 sl.next
      (by omega) hl1.1 (by rw [hl1.2 (by omega)]; ring) hl.2 hfuel (by simpa using hT)
      (by
        have := CondOn_nxt sl.mem cond false sl.obs.hgt k R (acc + M.length) hF
        simpa using this)
    rcases hcase with ⟨rfl, rfl, hlow⟩ | ⟨M1, M2, rfl, h1, h2, h3⟩
    · obtain ⟨u, r, update', rank', hd, hfr, hpred, hfin⟩ :=
        ih u1 r1 P M (Function.update update k (some u1)) (Function.update rank k r1)
          (by omega) (by omega) (by rw [Links_cons]; exact hl) hlow hacc hT hF hfuel
      refine ⟨u, r, update', rank', ?_, ?_, ?_, hfin⟩
      · simp only [SSFreeSkiplist.descend, hscan]; exact hd
      · intro j hj
        have := hfr j (by omega)
        rw [Function.update_noteq (by omega), Function.update_noteq (by omega)] at this
        exact this
      · intro j hj
        by_cases hjk : j < k
        · exact hpred j hjk
        · have hjk' : j = k := by omega
          subst hjk'
          have := hfr j (le_refl _)
          rw [Function.update_same, Function.update_same] at this
          exact ⟨u1, this.1, P, M, rfl, by rw [this.2]; exact hacc, by omega, hlow⟩
    · have hassoc : (P ++ x :: M1) ++ u1 :: M2 = P ++ x :: (M1 ++ u1 :: M2) := by simp
      have hT' := (CondOn_append sl.mem cond true M1 (u1 :: M2) (acc + 1)).mp hT
      obtain ⟨u, r, update', rank', hd, hfr, hpred, hfin⟩ :=
        ih u1 r1 (P ++ x :: M1) M2 (Function.update update k (some u1))
          (Function.update rank k r1) (by omega) (by omega)
          (by
            have := Links_suffix sl.obs M1 (u1 :: M2 ++ R) (by simpa using hl.2)
            simpa using this)
          (fun z hz => h2 z hz)
          (by rw [h3, hacc]; simp; ring)
          (by
            have := hT'.2
            rw [CondOn_cons] at this
            have e : r1 + 1 = acc + 1 + (M1.length : Int) + 1 := by rw [h3]; ring
            rw [e]; exact this.2)
          (by
            have e : r1 + (M2.length : Int) + 1
                = acc + ((M1 ++ u1 :: M2).length : Int) + 1 := by
              rw [h3]; simp; ring
            rw [e]; exact hF)
          (by simp at hfuel; omega)
      rw [hassoc] at hpred hfin
      refine ⟨u, r, update', rank', ?_, ?_, ?_, hfin⟩
      · simp only [SSFreeSkiplist.descend, hscan]; exact hd
      · intro j hj
        have := hfr j (by omega)
        rw [Function.update_noteq (by omega), Function.update_noteq (by omega)] at this
        exact this
      · intro j hj
        by_cases hjk : j < k
        · exact hpred j hjk
        · have hjk' : j = k := by omega
          subst hjk'
          have := hfr j (le_refl _)
          rw [Function.update_same, Function.update_same] at this
          refine ⟨u1, this.1, P ++ x :: M1, M2, by simp, ?_, h1, h2⟩
          rw [this.2, h3, hacc]; simp; ring

end Traversal

section ShapeLemmas

variable {S : Type}

theorem nxt_append (h : Nat → Nat) (i : Nat) (L R : List Nat) :
    nxt h i (L ++ R) = (nxt h i L).orElse (fun _ => nxt h i R) := by
  induction L with
  | nil => simp
  | cons a L ih =>
    rw [List.cons_append, nxt_cons, nxt_cons]
    by_cases ha : i < h a
    · simp [ha]
    · simp [ha, ih]

theorem dst_append (h : Nat → Nat) (i : Nat) (L R : List Nat) :
    dst h i (L ++ R) = if (nxt h i L).isSome then dst h i L else L.length + dst h i R := by
  induction L with
  | nil => simp
  | cons a L ih =>
    rw [List.cons_append, dst_cons, dst_cons, nxt_cons]
    by_cases ha : i < h a
    · simp [ha]
    · simp only [ha, if_false, ih, List.length_cons]
      split
      · rfl
      · push_cast; ring

theorem nxt_eq_none (h : Nat → Nat) (i : Nat) (L : List Nat) :
    nxt h i L = none ↔ ∀ z ∈ L, h z ≤ i := by
  induction L with
  | nil => simp
  | cons a L ih =>
    rw [nxt_cons]
    by_cases ha : i < h a
    · simp [ha]
    · simp [ha, ih, Nat.not_lt.mp ha]

theorem nxt_congr (h h' : Nat → Nat) (i : Nat) (L : List Nat) (hL : ∀ z ∈ L, h' z = h z) :
    nxt h' i L = nxt h i L := by
  induction L with
  | nil => rfl
  | cons a L ih =>
    rw [nxt_cons, nxt_cons, hL a (List.mem_cons_self _ _),
      ih (fun z hz => hL z (List.mem_cons_of_mem _ hz))]

theorem dst_congr (h h' : Nat → Nat) (i : Nat) (L : List Nat) (hL : ∀ z ∈ L, h' z = h z) :
    dst h' i L = dst h i L := by
  induction L with
  | nil => rfl
  | cons a L ih =>
    rw [dst_cons, dst_cons, hL a (List.mem_cons_self _ _),
      ih (fun z hz => hL z (List.mem_cons_of_mem _ hz))]

theorem nxt_mem (h : Nat → Nat) (i : Nat) (L : List Nat) (y : Nat) (hy : nxt h i L = some y) :
    y ∈ L ∧ i < h y := by
  induction L with
  | nil => simp at hy
  | cons a L ih =>
    rw [nxt_cons] at hy
    by_cases ha : i < h a
    · simp only [ha, if_true, Option.some.injEq] at hy
      subst hy; exact ⟨List.mem_cons_self _ _, ha⟩
    · simp only [ha, if_false] at hy
      exact ⟨List.mem_cons_of_mem _ (ih hy).1, (ih hy).2⟩

theorem nxt_zero (h : Nat → Nat) (L : List Nat) (hL : ∀ z ∈ L, 1 ≤ h z) :
    nxt h 0 L = L.head? := by
  cases L with
  | nil => rfl
  | cons a L =>
    have := hL a (List.mem_cons_self _ _)
    simp [nxt_cons]; omega

theorem Links_at (o : Obs S) (L1 L2 : List Nat) (v : Nat) (h : Links o (L1 ++ v :: L2)) :
    ∀ i, i < o.hgt v →
      o.fwd v i = nxt o.hgt i L2 ∧ (i < o.level → o.spn v i = dst o.hgt i L2) :=
  ((Links_cons o v L2).mp (Links_suffix o L1 (v :: L2) h)).1

theorem pred_unique (h : Nat → Nat) (i : Nat) (P Q L1 L2 : List Nat) (x v : Nat)
    (e : P ++ x :: Q = L1 ++ v :: L2) (hx : i < h x) (hv : i < h v)
    (hQ : ∀ z ∈ Q, h z ≤ i) (hL : ∀ z ∈ L2, h z ≤ i) : P = L1 ∧ x = v ∧ Q = L2 := by
  rcases List.append_eq_append_iff.mp e with ⟨a, rfl, ha⟩ | ⟨c, rfl, hc⟩
  · cases a with
    | nil =>
      simp only [List.nil_append, List.cons.injEq] at ha
      exact ⟨by simp, ha.1, ha.2⟩
    | cons a0 a =>
      simp only [List.cons_append, List.cons.injEq] at ha
      have : v ∈ Q := by rw [ha.2]; simp
      have := hQ v this
      omega
  · cases c with
    | nil =>
      simp only [List.nil_append, List.cons.injEq] at hc
      exact ⟨by simp, hc.1.symm, hc.2.symm⟩
    | cons c0 c =>
      simp only [List.cons_append, List.cons.injEq] at hc
      have : x ∈ L2 := by rw [hc.2]; simp
      have := hL x this
      omega

theorem Links_frame (o o' : Obs S) (l : List Nat)
    (hh : ∀ y ∈ l, o'.hgt y = o.hgt y)
    (hf : ∀ y ∈ l, ∀ i, i < o.hgt y → o'.fwd y i = o.fwd y i)
    (hs : ∀ y ∈ l, ∀ i, i < o.hgt y → i < o'.level → i < o.level ∧ o'.spn y i = o.spn y i)
    (h : Links o l) : Links o' l := by
  induction l with
  | nil => trivial
  | cons a l ih =>
    rw [Links_cons] at h ⊢
    have ha := List.mem_cons_self a l
    have hl : ∀ z ∈ l, o'.hgt z = o.hgt z := fun z hz => hh z (List.mem_cons_of_mem _ hz)
    refine ⟨?_, ih hl (fun y hy => hf y (List.mem_cons_of_mem _ hy))
      (fun y hy => hs y (List.mem_cons_of_mem _ hy)) h.2⟩
    intro i hi
    rw [hh a ha] at hi
    rw [nxt_congr o.hgt o'.hgt i l hl, dst_congr o.hgt o'.hgt i l hl, hf a ha i hi]
    refine ⟨(h.1 i hi).1, fun hi' => ?_⟩
    have := hs a ha i hi hi'
    rw [this.2]
    exact (h.1 i hi).2 this.1

theorem pred_rank (o : Obs S) (A : List Nat) (x : Nat) (update : Nat → Option Nat)
    (rank : Nat → Int) (hpos : ∀ z ∈ A, 1 ≤ o.hgt z)
    (h0 : ∃ v, update 0 = some v ∧ IsPred o (x :: A) 0 v (rank 0)) :
    rank 0 = A.length ∧ update 0 = (x :: A).getLast? := by
  obtain ⟨v, hv, L1, L2, e, hr, _, hlow⟩ := h0
  have hL2 : L2 = [] := by
    cases L2 with
    | nil => rfl
    | cons b L2 =>
      have h1 := hlow b (List.mem_cons_self _ _)
      have hbA : b ∈ A := by
        cases L1 with
        | nil =>
          simp only [List.nil_append, List.cons.injEq] at e
          rw [e.2]; simp
        | cons c L1 =>
          simp only [List.cons_append, List.cons.injEq] at e
          rw [e.2]; simp
      have := hpos b hbA
      omega
  subst hL2
  have hlen : (x :: A).length = (L1 ++ [v]).length := by rw [e]
  simp only [List.length_cons, List.length_append, List.length_nil] at hlen
  refine ⟨by rw [hr]; congr 1; omega, ?_⟩
  rw [hv, e]; simp

theorem Links_inserted (o : Obs S) (A B : List Nat) (update : Nat → Option Nat)
    (rank : Nat → Int) (lvl : Nat) (key : GoString) (score : S)
    (hinv : Links o (o.header :: (A ++ B)))
    (hnodup : ((o.header :: A) ++ B).Nodup)
    (hlt : ∀ x ∈ (o.header :: A) ++ B, x < o.next)
    (hpos : ∀ x ∈ A ++ B, 1 ≤ o.hgt x)
    (hlev : 1 ≤ o.level)
    (hlvl : lvl ≤ o.level)
    (hP : ∀ j, j < o.level → ∃ v, update j = some v ∧ IsPred o (o.header :: A) j v (rank j))
    (hU : ∀ j, o.level ≤ j → update j = none) :
    Links (o.inserted update rank lvl key score) (o.header :: (A ++ o.next :: B)) := by
  have hnB : ∀ y ∈ B, y ≠ o.next := fun y hy => by
    have := hlt y (List.mem_append_right _ hy); omega
  have hnA : ∀ y ∈ o.header :: A, y ≠ o.next := fun y hy => by
    have := hlt y (List.mem_append_left _ hy); omega
  have hupd : ∀ j v, update j = some v → v ∈ o.header :: A := by
    intro j v hv
    by_cases hj : j < o.level
    · obtain ⟨w, hw, L1, L2, e, _⟩ := hP j hj
      rw [hw] at hv; cases hv
      rw [e]; simp
    · rw [hU j (by omega)] at hv; cases hv
  have hdisj := (List.nodup_append.mp hnodup).2.2
  have hupdB : ∀ j y, y ∈ B → update j ≠ some y := fun j y hy hv =>
    hdisj (hupd j y hv) hy
  have hr0 := (pred_rank o A o.header update rank
    (fun z hz => hpos z (List.mem_append_left _ hz)) (hP 0 (by omega))).1
  have hhB : ∀ y ∈ B, (o.inserted update rank lvl key score).hgt y = o.hgt y :=
    fun y hy => by simp [Obs.inserted, hnB y hy]
  have hhA : ∀ y ∈ o.header :: A, (o.inserted update rank lvl key score).hgt y = o.hgt y :=
    fun y hy => by simp [Obs.inserted, hnA y hy]
  have hhn : (o.inserted update rank lvl key score).hgt o.next = lvl := by
    simp [Obs.inserted]
  -- the nodes behind the new one are untouched
  have hB : Links (o.inserted update rank lvl key score) B := by
    refine Links_frame o _ B hhB ?_ ?_ (Links_suffix o (o.header :: A) B (by simpa using hinv))
    · intro y hy i _
      simp [Obs.inserted, hnB y hy, hupdB i y hy]
    · intro y hy i _ hi
      exact ⟨hi, by simp [Obs.inserted, hnB y hy, hupdB i y hy]⟩
  -- the new node
  have hN : Links (o.inserted update rank lvl key score) (o.next :: B) := by
    rw [Links_cons]
    refine ⟨?_, hB⟩
    intro i hi
    rw [hhn] at hi
    obtain ⟨v, hv, L1, L2, e, hr, hvh, hlow⟩ := hP i (by omega)
    have hat := Links_at o L1 (L2 ++ B) v (by
      have : L1 ++ v :: (L2 ++ B) = o.header :: (A ++ B) := by
        rw [← List.cons_append, ← List.append_assoc, ← List.cons_append, e]
      rw [this]; exact hinv) i hvh
    rw [nxt_low o.hgt i L2 B hlow, dst_low o.hgt i L2 B hlow] at hat
    rw [nxt_congr o.hgt _ i B hhB, dst_congr o.hgt _ i B hhB]
    have hlen : (o.header :: A).length = (L1 ++ v :: L2).length := by rw [e]
    simp only [List.length_cons, List.length_append] at hlen
    refine ⟨by simp [Obs.inserted, hi, hv, hat.1], fun hi' => ?_⟩
    have h2 := hat.2 hi'
    simp only [Obs.inserted, hi, hv, if_true, Option.map_some', Option.getD_some, h2, hr0, hr]
    have : (A.length : Int) = L1.length + L2.length := by omega
    rw [this]; ring
  -- the nodes before the new one
  have key : ∀ Q P, o.header :: A = P ++ Q →
      Links (o.inserted update rank lvl key score) (Q ++ o.next :: B) := by
    intro Q
    induction Q with
    | nil => intro _ _; exact hN
    | cons x Q ih =>
      intro P e
      rw [List.cons_append, Links_cons]
      refine ⟨?_, ih (P ++ [x]) (by rw [e]; simp)⟩
      have hxm : x ∈ o.header :: A := by rw [e]; simp
      have hQm : ∀ z ∈ Q, z ∈ o.header :: A := fun z hz => by rw [e]; simp [hz]
      have hhQ : ∀ z ∈ Q, (o.inserted update rank lvl key score).hgt z = o.hgt z :=
        fun z hz => hhA z (hQm z hz)
      intro i hi
      rw [hhA x hxm] at hi
      have hat := Links_at o P (Q ++ B) x (by
        have : P ++ x :: (Q ++ B) = o.header :: (A ++ B) := by
          rw [← List.cons_append, ← List.append_assoc, ← List.cons_append, ← e]
        rw [this]; exact hinv) i hi
      have hxn : x ≠ o.next := hnA x hxm
      rw [nxt_append, dst_append, nxt_congr o.hgt _ i Q hhQ, dst_congr o.hgt _ i Q hhQ,
        nxt_cons, dst_cons, hhn, nxt_congr o.hgt _ i B hhB, dst_congr o.hgt _ i B hhB]
      rw [nxt_append, dst_append] at hat
      cases hq : nxt o.hgt i Q with
      | some z =>
        -- a later node before the new one reaches level i: x is not the predecessor
        have hne : update i ≠ some x := by
          intro hux
          by_cases hj : i < o.level
          · obtain ⟨w, hw, L1, L2, e2, _, hwh, hlow⟩ := hP i hj
            rw [hw] at hux; cases hux
            have := pred_unique o.hgt i P Q L1 L2 x x (by rw [← e, e2]) hi hi
            have hz := nxt_mem o.hgt i Q z hq
            have hu := (List.append_eq_append_iff.mp (e.symm.trans e2))
            have hQl : ∀ z ∈ Q, o.hgt z ≤ i → True := fun _ _ _ => trivial
            -- Q contains a node above level i, so Q is not the low tail L2
            rcases hu with ⟨a, rfl, ha⟩ | ⟨c, rfl, hc⟩
            · cases a with
              | nil =>
                simp only [List.nil_append, List.cons.injEq] at ha
                have := hlow z (by rw [← ha.2]; exact hz.1)
                omega
              | cons a0 a =>
                simp only [List.cons_append, List.cons.injEq] at ha
                have hnd : (o.header :: A).Nodup := (List.nodup_append.mp hnodup).1
                rw [e, ha.2] at hnd
                have := (List.nodup_append.mp hnd).2.1
                simp at this
            · cases c with
              | nil =>
                simp only [List.nil_append, List.cons.injEq] at hc
                have := hlow z (by rw [hc.2]; exact hz.1)
                omega
              | cons c0 c =>
                simp only [List.cons_append, List.cons.injEq] at hc
                have hnd : (o.header :: A).Nodup := (List.nodup_append.mp hnodup).1
                rw [e2, hc.2] at hnd
                have := (List.nodup_append.mp hnd).2.1
                simp at this
          · rw [hU i (by omega)] at hux; cases hux
        rw [hq] at hat
        simp only [Option.orElse, Option.isSome_some, if_true] at hat ⊢
        refine ⟨by simp [Obs.inserted, hxn, hne, hat.1], fun hi' => ?_⟩
        simp only [Obs.inserted, hxn, hne, if_false]
        exact hat.2 hi'
      | none =>
        have hQlow := (nxt_eq_none o.hgt i Q).mp hq
        rw [hq] at hat
        simp only [Option.orElse, Option.isSome_none, Bool.false_eq_true, if_false] at hat ⊢
        by_cases hj : i < o.level
        · obtain ⟨w, hw, L1, L2, e2, hr, hwh, hlow⟩ := hP i hj
          obtain ⟨hPL, hxw, hQL⟩ := pred_unique o.hgt i P Q L1 L2 x w (by rw [← e, e2]) hi hwh
            hQlow hlow
          subst hxw
          have hlen : (o.header :: A).length = (P ++ x :: Q).length := by rw [e]
          simp only [List.length_cons, List.length_append] at hlen
          by_cases hil : i < lvl
          · refine ⟨by simp [Obs.inserted, hxn, hil, hw], fun _ => ?_⟩
            simp only [Obs.inserted, hxn, hil, hw, if_true, if_false, hr0, hr, ← hPL]
            have : (A.length : Int) = P.length + Q.length := by omega
            rw [this]; ring
          · refine ⟨by simp [Obs.inserted, hxn, hil, hat.1], fun _ => ?_⟩
            simp only [Obs.inserted, hxn, hil, hw, if_true, if_false, hj, hat.2 hj]
            ring
        · have hil : ¬ i < lvl := by omega
          have hne : update i ≠ some x := by rw [hU i (by omega)]; simp
          exact ⟨by simp [Obs.inserted, hxn, hil, hat.1], fun hi' => absurd hi' hj⟩
  have := key (o.header :: A) [] rfl
  simpa using this

theorem Backs_cons (o : Obs S) (prev : Option Nat) (x : Nat) (l : List Nat) :
    Backs o prev (x :: l) ↔ o.bwd x = prev ∧ Backs o (some x) l := Iff.rfl

theorem Backs_frame (o o' : Obs S) (l : List Nat) (prev : Option Nat)
    (hb : ∀ y ∈ l, o'.bwd y = o.bwd y) (h : Backs o prev l) : Backs o' prev l := by
  induction l generalizing prev with
  | nil => trivial
  | cons a l ih =>
    rw [Backs_cons] at h ⊢
    exact ⟨by rw [hb a (List.mem_cons_self _ _)]; exact h.1,
      ih (some a) (fun y hy => hb y (List.mem_cons_of_mem _ hy)) h.2⟩

theorem Backs_suffix (o : Obs S) (L R : List Nat) (prev : Option Nat)
    (h : Backs o prev (L ++ R)) : Backs o (prev.toList ++ L).getLast? R := by
  induction L generalizing prev with
  | nil => cases prev <;> simpa using h
  | cons a L ih =>
    rw [List.cons_append, Backs_cons] at h
    have := ih (some a) h.2
    cases prev with
    | none => simpa using this
    | some p => simpa [List.getLast?_cons_cons] using this

theorem Backs_insert (o o' : Obs S) (n : Nat) (B : List Nat) :
    ∀ (A : List Nat) (prev : Option Nat), Backs o prev (A ++ B) →
      (∀ y ∈ A, o'.bwd y = o.bwd y) →
      o'.bwd n = (prev.toList ++ A).getLast? →
      (∀ b ∈ B.head?, o'.bwd b = some n) →
      (∀ y ∈ B.tail, o'.bwd y = o.bwd y) →
      Backs o' prev (A ++ n :: B) := by
  intro A
  induction A with
  | nil =>
    intro prev h _ hn hb ht
    rw [List.nil_append, Backs_cons]
    refine ⟨by rw [hn]; cases prev <;> simp, ?_⟩
    cases B with
    | nil => trivial
    | cons b B =>
      rw [List.nil_append, Backs_cons] at h
      rw [Backs_cons]
      exact ⟨hb b (by simp), Backs_frame o o' B (some b) (by simpa using ht) h.2⟩
  | cons a A ih =>
    intro prev h hA hn hb ht
    rw [List.cons_append, Backs_cons] at h ⊢
    refine ⟨by rw [hA a (List.mem_cons_self _ _)]; exact h.1, ?_⟩
    refine ih (some a) h.2 (fun y hy => hA y (List.mem_cons_of_mem _ hy)) ?_ hb ht
    rw [hn]
    cases prev with
    | none => simp
    | some p => simp [List.getLast?_cons_cons]

theorem Inv_inserted [LinearOrder S] (o : Obs S) (A B : List Nat)
    (update : Nat → Option Nat) (rank : Nat → Int) (lvl : Nat) (key : GoString) (score : S)
    (hinv : Inv o (A ++ B)) (hlvl1 : 1 ≤ lvl) (hlvl : lvl ≤ o.level)
    (hP : ∀ j, j < o.level → ∃ v, update j = some v ∧ IsPred o (o.header :: A) j v (rank j))
    (hU : ∀ j, o.level ≤ j → update j = none)
    (hA : ∀ a ∈ A, storeLT (o.st a) ⟨key, score⟩)
    (hB : ∀ b ∈ B, storeLE ⟨key, score⟩ (o.st b)) :
    Inv (o.inserted update rank lvl key score) (A ++ o.next :: B) := by
  have hnd : ((o.header :: A) ++ B).Nodup := by
    rw [List.cons_append]
    exact List.nodup_cons.mpr ⟨hinv.header_nmem, hinv.nodup⟩
  have hlt : ∀ x ∈ (o.header :: A) ++ B, x < o.next := by
    intro x hx
    rw [List.cons_append] at hx
    rcases List.mem_cons.mp hx with rfl | hx
    · exact hinv.header_lt
    · exact hinv.mem_lt x hx
  have hne : ∀ x ∈ A ++ B, x ≠ o.next := fun x hx => by
    have := hinv.mem_lt x hx; omega
  have hneA : ∀ x ∈ A, x ≠ o.next := fun x hx => hne x (List.mem_append_left _ hx)
  have hneB : ∀ x ∈ B, x ≠ o.next := fun x hx => hne x (List.mem_append_right _ hx)
  have hmem : ∀ x, x ∈ A ++ o.next :: B ↔ x = o.next ∨ x ∈ A ++ B := by
    intro x; simp only [List.mem_append, List.mem_cons]; tauto
  have h0 := pred_rank o A o.header update rank
    (fun z hz => hinv.hgt_pos z (List.mem_append_left _ hz)) (hP 0 (by have := hinv.level_pos; omega))
  have hf0 : (update 0).bind (fun v => o.fwd v 0) = B.head? := by
    obtain ⟨v, hv, L1, L2, e, _, hvh, hlow⟩ := hP 0 (by have := hinv.level_pos; omega)
    have hL2 : L2 = [] := by
      have := h0.2
      rw [hv, e] at this
      cases L2 with
      | nil => rfl
      | cons b L2 =>
        have hb := hlow b (List.mem_cons_self _ _)
        have hbm : b ∈ A := by
          cases L1 with
          | nil =>
            simp only [List.nil_append, List.cons.injEq] at e
            rw [e.2]; simp
          | cons c L1 =>
            simp only [List.cons_append, List.cons.injEq] at e
            rw [e.2]; simp
        have := hinv.hgt_pos b (List.mem_append_left _ hbm)
        omega
    subst hL2
    have hat := Links_at o L1 B v (by
      have : L1 ++ v :: B = o.header :: (A ++ B) := by
        rw [← List.cons_append, e]; simp
      rw [this]; exact hinv.links) 0 hvh
    rw [hv]
    show o.fwd v 0 = B.head?
    rw [hat.1]
    exact nxt_zero o.hgt B (fun z hz => hinv.hgt_pos z (List.mem_append_right _ hz))
  refine
    { header_lt := by simp only [Obs.inserted]; have := hinv.header_lt; omega
      mem_lt := ?_
      len_lt := ?_
      header_nmem := ?_
      nodup := ?_
      hgt_header := ?_
      level_pos := hinv.level_pos
      level_le := hinv.level_le
      hgt_pos := ?_
      hgt_le := ?_
      links := Links_inserted o A B update rank lvl key score hinv.links hnd hlt hinv.hgt_pos
        hinv.level_pos hlvl hP hU
      sorted := ?_
      backs := ?_
      tail_eq := ?_
      length_eq := ?_
      header_key := by
        simp only [Obs.inserted]
        rw [if_neg (ne_of_lt hinv.header_lt)]
        exact hinv.header_key }
  · intro x hx
    rcases (hmem x).mp hx with rfl | hx
    · simp [Obs.inserted]
    · have := hinv.mem_lt x hx
      simp only [Obs.inserted]; omega
  · have := hinv.len_lt
    simp only [Obs.inserted, List.length_append, List.length_cons] at this ⊢
    omega
  · intro hx
    rcases (hmem _).mp hx with h | h
    · have := hinv.header_lt
      simp only [Obs.inserted] at h; omega
    · exact hinv.header_nmem h
  · have hnd2 := List.nodup_append.mp hinv.nodup
    refine List.nodup_append.mpr ⟨hnd2.1, List.nodup_cons.mpr ⟨fun h => hneB _ h rfl, hnd2.2.1⟩, ?_⟩
    intro x hxA hxB
    rcases List.mem_cons.mp hxB with rfl | hxB
    · exact hneA _ hxA rfl
    · exact hnd2.2.2 hxA hxB
  · have : o.header ≠ o.next := by have := hinv.header_lt; omega
    simp only [Obs.inserted, this, if_false]
    exact hinv.hgt_header
  · intro x hx
    rcases (hmem x).mp hx with rfl | hx
    · simpa [Obs.inserted] using hlvl1
    · simp only [Obs.inserted, hne x hx, if_false]; exact hinv.hgt_pos x hx
  · intro x hx
    rcases (hmem x).mp hx with rfl | hx
    · simpa [Obs.inserted] using hlvl
    · simp only [Obs.inserted, hne x hx, if_false]; exact hinv.hgt_le x hx
  · have hs := List.pairwise_append.mp hinv.sorted
    refine List.pairwise_append.mpr ⟨?_, List.pairwise_cons.mpr ⟨?_, ?_⟩, ?_⟩
    · refine hs.1.imp_of_mem ?_
      intro a b ha hb hab
      simpa [Obs.inserted, hneA a ha, hneA b hb] using hab
    · intro b hb
      simpa [Obs.inserted, hneB b hb] using hB b hb
    · refine hs.2.1.imp_of_mem ?_
      intro a b ha hb hab
      simpa [Obs.inserted, hneB a ha, hneB b hb] using hab
    · intro a ha b hb
      rcases List.mem_cons.mp hb with rfl | hb
      · simpa [Obs.inserted, hneA a ha] using
          (Or.inl (hA a ha) : storeLE (o.st a) ⟨key, score⟩)
      · simpa [Obs.inserted, hneA a ha, hneB b hb] using hs.2.2 a ha b hb
  · have hnd2 := List.nodup_append.mp hinv.nodup
    refine Backs_insert o _ o.next B A none hinv.backs ?_ ?_ ?_ ?_
    · intro y hy
      have : B.head? ≠ some y := by
        intro h
        exact hnd2.2.2 hy (List.mem_of_mem_head? h)
      simp [Obs.inserted, hneA y hy, hf0, this]
    · simp only [Obs.inserted, if_true, h0.2, Option.toList, List.nil_append]
      cases A with
      | nil => simp
      | cons a A =>
        have : (a :: A).getLast? ≠ some o.header := by
          intro h
          exact hinv.header_nmem (List.mem_append_left _ (List.mem_of_mem_getLast? h))
        simp only [List.getLast?_cons_cons]
        simp [this]
    · intro b hb
      have hbm : b ∈ B := List.mem_of_mem_head? hb
      simp only [Option.mem_def] at hb
      simp [Obs.inserted, hneB b hbm, hf0, hb]
    · intro y hy
      have hym : y ∈ B := List.mem_of_mem_tail hy
      have : B.head? ≠ some y := by
        intro h
        cases B with
        | nil => simp at h
        | cons b B =>
          simp only [List.head?_cons, Option.some.injEq] at h
          subst h
          simp only [List.tail_cons] at hy
          exact (List.nodup_cons.mp hnd2.2.1).1 hy
      simp [Obs.inserted, hneB y hym, hf0, this]
  · simp only [Obs.inserted, hf0, hinv.tail_eq]
    cases B with
    | nil => simp
    | cons b B => simp [List.getLast?_append]
  · simp only [Obs.inserted, hinv.length_eq, List.length_append, List.length_cons]
    push_cast; ring

end ShapeLemmas

section InsertExec

variable {S : Type}

theorem forRange_ind {σ : Type} (body : Nat → σ → Except Err σ) (I : Nat → σ → Prop) :
    ∀ (n lo : Nat) (s : σ), I lo s →
      (∀ i s, lo ≤ i → i < lo + n → I i s → ∃ s', body i s = .ok s' ∧ I (i + 1) s') →
      ∃ s', forRange body lo n s = .ok s' ∧ I (lo + n) s' := by
  intro n
  induction n with
  | zero => intro lo s h0 _; exact ⟨s, rfl, h0⟩
  | succ n ih =>
    intro lo s h0 hstep
    obtain ⟨s1, h1, hI1⟩ := hstep lo s (le_refl _) (by omega) h0
    obtain ⟨s2, h2, hI2⟩ := ih (lo + 1) s1 hI1
      (fun i s hlo hhi hI => hstep i s (by omega) (by omega) hI)
    refine ⟨s2, ?_, ?_⟩
    · simp only [forRange, h1]; exact h2
    · have : lo + (n + 1) = lo + 1 + n := by omega
      rw [this]; exact hI2

theorem insertLink_loop (sl : SSFreeSkiplist S) (update : Nat → Option Nat) (rank : Nat → Int)
    (n lvl : Nat)
    (hu : ∀ j, j < lvl → ∃ v, update j = some v ∧ v ≠ n ∧ j < sl.obs.hgt v)
    (hn : ∀ j, j < lvl → j < sl.obs.hgt n) :
    ∃ sl', forRange (insertLink update rank n) 0 lvl sl = .ok sl' ∧
      sl'.obs = sl.obs.linked update rank n lvl := by
  have := forRange_ind (insertLink update rank n)
    (fun k (s : SSFreeSkiplist S) => s.obs = sl.obs.linked update rank n k) lvl 0 sl
    (by
      simp only [Obs.linked]
      rfl)
    (by
      intro k s _ hk hI
      simp only [zero_add] at hk
      obtain ⟨v, hv, hvn, hvh⟩ := hu k hk
      have hI' : ∀ y, s.obs.hgt y = sl.obs.hgt y := by intro y; rw [hI]; rfl
      have hg1 : s.getLevel (update k) k = .ok ⟨sl.obs.fwd v k, sl.obs.spn v k⟩ := by
        rw [hv, getLevel_eq s v k (by rw [hI' v]; exact hvh), hI]
        simp [Obs.linked]
      obtain ⟨s1, e1, o1⟩ := setForward_obs s n k (sl.obs.fwd v k) (by rw [hI' n]; exact hn k hk)
      obtain ⟨s2, e2, o2⟩ := setForward_obs s1 v k (some n) (by rw [o1]; show k < s.obs.hgt v; rw [hI' v]; exact hvh)
      have hg2 : s2.getLevel (update k) k = .ok ⟨some n, sl.obs.spn v k⟩ := by
        rw [hv, getLevel_eq s2 v k (by rw [o2, o1]; show k < s.obs.hgt v; rw [hI' v]; exact hvh), o2, o1, hI]
        simp [Obs.linked, Obs.setFwd]
      obtain ⟨s3, e3, o3⟩ := setSpan_obs s2 n k (sl.obs.spn v k - (rank 0 - rank k))
        (by rw [o2, o1]; show k < s.obs.hgt n; rw [hI' n]; exact hn k hk)
      obtain ⟨s4, e4, o4⟩ := setSpan_obs s3 v k ((rank 0 - rank k) + 1)
        (by rw [o3, o2, o1]; show k < s.obs.hgt v; rw [hI' v]; exact hvh)
      refine ⟨s4, ?_, ?_⟩
      · rw [← hv] at e2 e4
        simp only [insertLink, hg1, ok_bind, e1, e2, hg2, e3]
        exact e4
      · show s4.obs = sl.obs.linked update rank n (k + 1)
        rw [o4, o3, o2, o1, hI]
        simp only [Obs.linked, Obs.setFwd, Obs.setSpn]
        congr 1
        · funext y j
          by_cases hjk : j = k
          · subst hjk
            by_cases hyn : y = n
            · subst hyn; simp [hv, hvn.symm]
            · by_cases hyv : y = v
              · subst hyv; simp [hv, hvn]
              · have : ¬ (v = y) := fun h => hyv h.symm
                simp [hv, hyn, hyv, this]
          · have h1 : ¬ (y = v ∧ j = k) := fun h => hjk h.2
            have h2 : ¬ (y = n ∧ j = k) := fun h => hjk h.2
            by_cases hlt : j < k
            · have : j < k + 1 := by omega
              simp [h1, h2, hlt, this]
            · have : ¬ j < k + 1 := by omega
              simp [h1, h2, hlt, this]
        · funext y j
          by_cases hjk : j = k
          · subst hjk
            by_cases hyn : y = n
            · subst hyn; simp [hv, hvn.symm]
            · by_cases hyv : y = v
              · subst hyv; simp [hv, hvn]
              · have : ¬ (v = y) := fun h => hyv h.symm
                simp [hv, hyn, hyv, this]
          · have h1 : ¬ (y = v ∧ j = k) := fun h => hjk h.2
            have h2 : ¬ (y = n ∧ j = k) := fun h => hjk h.2
            by_cases hlt : j < k
            · have : j < k + 1 := by omega
              simp [h1, h2, hlt, this]
            · have : ¬ j < k + 1 := by omega
              simp [h1, h2, hlt, this])
  simpa using this

theorem insertBump_loop (sl : SSFreeSkiplist S) (update : Nat → Option Nat) (lo n : Nat)
    (hu : ∀ j, lo ≤ j → j < lo + n → ∃ v, update j = some v ∧ j < sl.obs.hgt v) :
    ∃ sl', forRange (insertBump update) lo n sl = .ok sl' ∧
      sl'.obs = sl.obs.bumped update lo (lo + n) := by
  refine forRange_ind (insertBump update)
    (fun k (s : SSFreeSkiplist S) => s.obs = sl.obs.bumped update lo k) n lo sl ?_ ?_
  · simp only [Obs.bumped]
    have : ∀ (y j : Nat), ¬ (lo ≤ j ∧ j < lo ∧ update j = some y) := fun y j h => by omega
    simp only [this, if_false]
  · intro k s hlo hhi hI
    obtain ⟨v, hv, hvh⟩ := hu k hlo hhi
    have hh : s.obs.hgt v = sl.obs.hgt v := by rw [hI]; rfl
    have hg : s.getLevel (update k) k = .ok ⟨sl.obs.fwd v k, sl.obs.spn v k⟩ := by
      rw [hv, getLevel_eq s v k (by rw [hh]; exact hvh), hI]
      simp [Obs.bumped]
    obtain ⟨s1, e1, o1⟩ := setSpan_obs s v k (sl.obs.spn v k + 1) (by rw [hh]; exact hvh)
    refine ⟨s1, ?_, ?_⟩
    · rw [← hv] at e1
      simp only [insertBump, hg, ok_bind]
      exact e1
    · show s1.obs = sl.obs.bumped update lo (k + 1)
      rw [o1, hI]
      simp only [Obs.bumped, Obs.setSpn]
      congr 1
      funext y j
      by_cases hjk : j = k
      · subst hjk
        by_cases hyv : y = v
        · subst hyv; simp [hv, hlo]
        · have : ¬ (v = y) := fun h => hyv h.symm
          simp [hv, hyv, this]
      · have h1 : ¬ (y = v ∧ j = k) := fun h => hjk h.2
        by_cases hlt : j < k
        · have : j < k + 1 := by omega
          simp [h1, hlt, this]
        · have : ¬ j < k + 1 := by omega
          simp [h1, hlt, this]

theorem insertExtend_loop (sl : SSFreeSkiplist S) (update : Nat → Option Nat)
    (rank : Nat → Int) (lvl : Nat) (hl : sl.obs.level < lvl)
    (hh : lvl ≤ sl.obs.hgt sl.obs.header) :
    ∃ st, forRange insertExtend sl.level (lvl - sl.level) (sl, update, rank) = .ok st ∧
      ({ st.1 with level := lvl } : SSFreeSkiplist S).obs = sl.obs.extended lvl ∧
      (∀ j, st.2.1 j = if sl.obs.level ≤ j ∧ j < lvl then some sl.obs.header else update j) ∧
      (∀ j, st.2.2 j = if sl.obs.level ≤ j ∧ j < lvl then 0 else rank j) := by
  have := forRange_ind (insertExtend (S := S))
    (fun k st =>
      st.1.obs = { sl.obs with
        spn := fun y j =>
          if y = sl.obs.header ∧ sl.obs.level ≤ j ∧ j < k then sl.obs.length
          else sl.obs.spn y j } ∧
      (∀ j, st.2.1 j = if sl.obs.level ≤ j ∧ j < k then some sl.obs.header else update j) ∧
      (∀ j, st.2.2 j = if sl.obs.level ≤ j ∧ j < k then 0 else rank j))
    (lvl - sl.level) sl.level (sl, update, rank)
    (by
      have h1 : ∀ (y j : Nat), ¬ (y = sl.obs.header ∧ sl.obs.level ≤ j ∧ j < sl.level) :=
        fun y j h => by have : sl.obs.level = sl.level := rfl; omega
      have h2 : ∀ (j : Nat), ¬ (sl.obs.level ≤ j ∧ j < sl.level) :=
        fun j h => by have : sl.obs.level = sl.level := rfl; omega
      refine ⟨?_, fun j => ?_, fun j => ?_⟩
      · simp only [h1, if_false]
      · simp only [h2, if_false]
      · simp only [h2, if_false])
    (by
      intro k st hlo hhi ⟨hI, hIu, hIr⟩
      have hlev : sl.obs.level = sl.level := rfl
      have hkh : k < st.1.obs.hgt sl.obs.header := by
        rw [hI]; show k < sl.obs.hgt sl.obs.header; omega
      have hhd : st.1.header = sl.obs.header := by
        show st.1.obs.header = _; rw [hI]
      have hlen : st.1.length = sl.obs.length := by
        show st.1.obs.length = _; rw [hI]
      obtain ⟨s1, e1, o1⟩ := setSpan_obs st.1 sl.obs.header k sl.obs.length hkh
      refine ⟨(s1, Function.update st.2.1 k (some sl.obs.header), Function.update st.2.2 k 0),
        ?_, ?_, ?_, ?_⟩
      · simp only [insertExtend, Function.update_same, hhd, hlen, e1, ok_bind, pure_eq_ok]
      · show s1.obs = _
        rw [o1, hI]
        simp only [Obs.setSpn]
        congr 1
        funext y j
        by_cases hjk : j = k
        · subst hjk
          by_cases hy : y = sl.obs.header
          · have : sl.obs.level ≤ j := by omega
            simp [hy, this]
          · simp [hy]
        · have h1 : ¬ (y = sl.obs.header ∧ j = k) := fun h => hjk h.2
          by_cases hlt : j < k
          · have : j < k + 1 := by omega
            simp [h1, hlt, this]
          · have : ¬ j < k + 1 := by omega
            simp [h1, hlt, this]
      · intro j
        by_cases hjk : j = k
        · subst hjk
          have : sl.obs.level ≤ j := by omega
          simp [this]
        · show Function.update st.2.1 k (some sl.obs.header) j = _
          rw [Function.update_noteq hjk, hIu j]
          by_cases hlt : j < k
          · have : j < k + 1 := by omega
            simp [hlt, this]
          · have : ¬ j < k + 1 := by omega
            simp [hlt, this]
      · intro j
        by_cases hjk : j = k
        · subst hjk
          have : sl.obs.level ≤ j := by omega
          simp [this]
        · show Function.update st.2.2 k 0 j = _
          rw [Function.update_noteq hjk, hIr j]
          by_cases hlt : j < k
          · have : j < k + 1 := by omega
            simp [hlt, this]
          · have : ¬ j < k + 1 := by omega
            simp [hlt, this])
  obtain ⟨st, h1, hI, hIu, hIr⟩ := this
  have hlev : sl.obs.level = sl.level := rfl
  have e : sl.level + (lvl - sl.level) = lvl := by omega
  rw [e] at hI hIu hIr
  refine ⟨st, h1, ?_, hIu, hIr⟩
  have : ({ st.1 with level := lvl } : SSFreeSkiplist S).obs = { st.1.obs with level := lvl } := rfl
  rw [this, hI]
  simp only [Obs.extended, hl, if_true]

theorem Inv_extended [LinearOrder S] (o : Obs S) (ts : List Nat) (lvl : Nat)
    (hinv : Inv o ts) (hl : lvl ≤ maxLevel) : Inv (o.extended lvl) ts := by
  have hlevel : o.level ≤ (o.extended lvl).level := by
    simp only [Obs.extended]; split <;> omega
  refine
    { header_lt := hinv.header_lt
      mem_lt := hinv.mem_lt
      len_lt := hinv.len_lt
      header_nmem := hinv.header_nmem
      nodup := hinv.nodup
      hgt_header := hinv.hgt_header
      level_pos := le_trans hinv.level_pos hlevel
      level_le := by
        have := hinv.level_le
        simp only [Obs.extended]; split <;> omega
      hgt_pos := hinv.hgt_pos
      hgt_le := fun x hx => le_trans (hinv.hgt_le x hx) hlevel
      links := ?_
      sorted := hinv.sorted
      backs := Backs_frame o _ ts none (fun _ _ => rfl) hinv.backs
      tail_eq := hinv.tail_eq
      length_eq := hinv.length_eq
      header_key := hinv.header_key }
  have hl0 := hinv.links
  rw [Links_cons] at hl0 ⊢
  refine ⟨?_, Links_frame o _ ts (fun _ _ => rfl) (fun _ _ _ _ => rfl) ?_ hl0.2⟩
  · intro i hi
    refine ⟨(hl0.1 i hi).1, fun hi' => ?_⟩
    by_cases hlt : i < o.level
    · have : ¬ (o.level ≤ i ∧ i < lvl) := by omega
      simp only [Obs.extended, this, and_false, if_false]
      exact (hl0.1 i hi).2 hlt
    · have h1 : o.level ≤ i := by omega
      have h2 : i < lvl := by
        simp only [Obs.extended] at hi'
        split at hi' <;> omega
      have hlow : ∀ z ∈ ts, o.hgt z ≤ i := fun z hz => le_trans (hinv.hgt_le z hz) h1
      have := dst_low o.hgt i ts [] hlow
      simp only [List.append_nil, dst_nil, add_zero] at this
      simp only [Obs.extended, h1, h2, and_self, if_true]
      show o.length = dst o.hgt i ts
      rw [this, hinv.length_eq]
  · intro y hy i hi hi'
    have hne : y ≠ o.header := fun h => hinv.header_nmem (h ▸ hy)
    have := hinv.hgt_le y hy
    exact ⟨by omega, by simp [Obs.extended, hne]⟩

end InsertExec

section Order

variable {S : Type} [LinearOrder S]

theorem storeLT_trans {a b c : store S} (h1 : storeLT a b) (h2 : storeLT b c) : storeLT a c := by
  unfold storeLT at *
  rcases h1 with h1 | ⟨h1, h1'⟩ <;> rcases h2 with h2 | ⟨h2, h2'⟩
  · exact Or.inl (lt_trans h1 h2)
  · exact Or.inl (h2 ▸ h1)
  · exact Or.inl (h1 ▸ h2)
  · exact Or.inr ⟨h1.trans h2, lt_trans h1' h2'⟩

theorem storeLT_irrefl (a : store S) : ¬ storeLT a a := by
  unfold storeLT
  rintro (h | ⟨_, h⟩)
  · exact lt_irrefl _ h
  · exact lt_irrefl _ h

theorem storeLT_total (a b : store S) : storeLT a b ∨ a = b ∨ storeLT b a := by
  unfold storeLT
  rcases lt_trichotomy a.KeyRank b.KeyRank with h | h | h
  · exact Or.inl (Or.inl h)
  · rcases lt_trichotomy a.Key b.Key with h' | h' | h'
    · exact Or.inl (Or.inr ⟨h, h'⟩)
    · right; left
      cases a; cases b; simp_all
    · exact Or.inr (Or.inr (Or.inr ⟨h.symm, h'⟩))
  · exact Or.inr (Or.inr (Or.inl h))

theorem storeLT_asymm {a b : store S} (h1 : storeLT a b) (h2 : storeLT b a) : False :=
  storeLT_irrefl a (storeLT_trans h1 h2)

theorem storeLE_trans_lt {a b c : store S} (h1 : storeLE a b) (h2 : storeLT b c) :
    storeLT a c := by
  rcases h1 with h1 | rfl
  · exact storeLT_trans h1 h2
  · exact h2

theorem storeLT_trans_le {a b c : store S} (h1 : storeLT a b) (h2 : storeLE b c) :
    storeLT a c := by
  rcases h2 with h2 | rfl
  · exact storeLT_trans h1 h2
  · exact h1

theorem storeLE_of_not_lt {a b : store S} (h : ¬ storeLT b a) : storeLE a b := by
  rcases storeLT_total a b with h1 | h1 | h1
  · exact Or.inl h1
  · exact Or.inr h1
  · exact absurd h1 h

theorem storeLE_le {a b : store S} (h : storeLE a b) : a.KeyRank ≤ b.KeyRank := by
  rcases h with h | rfl
  · rcases h with h | h
    · exact le_of_lt h
    · exact le_of_eq h.1
  · exact le_refl _

theorem before_iff (key : GoString) (score : S) (f : node S) :
    before key score f = true ↔ storeLT f.tostore ⟨key, score⟩ := by
  simp [before, storeLT]

theorem split_mono {α : Type} (R : α → α → Prop) (p : α → Bool)
    (hmono : ∀ a b, R a b → p b = true → p a = true) :
    ∀ l : List α, l.Pairwise R →
      ∃ A B, l = A ++ B ∧ (∀ a ∈ A, p a = true) ∧ (∀ b ∈ B, p b = false) := by
  intro l
  induction l with
  | nil => intro _; exact ⟨[], [], rfl, by simp, by simp⟩
  | cons x l ih =>
    intro h
    rw [List.pairwise_cons] at h
    by_cases hx : p x = true
    · obtain ⟨A, B, e, hA, hB⟩ := ih h.2
      refine ⟨x :: A, B, by rw [e]; rfl, ?_, hB⟩
      intro a ha
      rcases List.mem_cons.mp ha with rfl | ha
      · exact hx
      · exact hA a ha
    · refine ⟨[], x :: l, rfl, by simp, ?_⟩
      intro b hb
      rcases List.mem_cons.mp hb with rfl | hb
      · simpa using hx
      · by_contra hpb
        exact hx (hmono x b (h.1 b hb) (by simpa using hpb))

end Order

section InsertSpec

variable {S : Type} [LinearOrder S] [Zero S]

theorem randomLevel_pos (r : Nat) : 1 ≤ randomLevel r := by
  simp only [randomLevel]; omega

omit [LinearOrder S] [Zero S] in
theorem inserted_eq_some (o : Obs S) (update : Nat → Option Nat) (rank : Nat → Int) (lvl : Nat)
    (key : GoString) (score : S) (f : Nat)
    (h1 : ∀ j v, update j = some v → v ≠ o.next)
    (hf : (update 0).bind (fun v => o.fwd v 0) = some f) (h2 : f ≠ o.next) :
    { ((((o.alloc lvl score key).linked update rank o.next lvl).bumped update lvl o.level).setBwd
          o.next (if update 0 = some o.header then none else update 0)).setBwd f (some o.next)
        with length := o.length + 1 } = o.inserted update rank lvl key score := by
  simp only [Obs.inserted, Obs.alloc, Obs.linked, Obs.bumped, Obs.setBwd, hf]
  congr 1
  · funext y j
    by_cases hy : y = o.next
    · subst hy
      by_cases hj : j < lvl
      · cases hu : update j with
        | none => simp [hj]
        | some v => simp [hj, h1 j v hu]
      · simp [hj]
    · by_cases hj : j < lvl
      · by_cases hu : update j = some y
        · simp [hy, hj, hu]
        · simp [hy, hj, hu]
      · simp [hy, hj]
  · funext y j
    by_cases hy : y = o.next
    · subst hy
      have hu' : update j ≠ some o.next := fun h => h1 j _ h rfl
      by_cases hj : j < lvl
      · cases hu : update j with
        | none => simp [hj]
        | some v => simp [hj, h1 j v hu]
      · simp [hj, hu']
    · by_cases hu : update j = some y
      · by_cases hj : j < lvl
        · simp [hy, hj, hu]
        · by_cases hj2 : j < o.level
          · have : lvl ≤ j := by omega
            simp [hy, hj, hu, hj2, this]
          · simp [hy, hj, hu, hj2]
      · by_cases hj : j < lvl
        · simp [hy, hj, hu]
        · simp [hy, hj, hu]
  · funext y
    by_cases hy : y = o.next
    · subst hy
      have : ¬ (o.next = f) := fun h => h2 h.symm
      simp [this]
    · by_cases hyf : y = f
      · subst hyf; simp [hy]
      · have : ¬ (f = y) := fun h => hyf h.symm
        simp [hy, hyf, this]

omit [LinearOrder S] [Zero S] in
theorem inserted_eq_none (o : Obs S) (update : Nat → Option Nat) (rank : Nat → Int) (lvl : Nat)
    (key : GoString) (score : S)
    (h1 : ∀ j v, update j = some v → v ≠ o.next)
    (hf : (update 0).bind (fun v => o.fwd v 0) = none) :
    { (((o.alloc lvl score key).linked update rank o.next lvl).bumped update lvl o.level).setBwd
          o.next (if update 0 = some o.header then none else update 0)
        with tail := some o.next, length := o.length + 1 } =
      o.inserted update rank lvl key score := by
  simp only [Obs.inserted, Obs.alloc, Obs.linked, Obs.bumped, Obs.setBwd, hf]
  congr 1
  · funext y j
    by_cases hy : y = o.next
    · subst hy
      by_cases hj : j < lvl
      · cases hu : update j with
        | none => simp [hj]
        | some v => simp [hj, h1 j v hu]
      · simp [hj]
    · by_cases hj : j < lvl
      · by_cases hu : update j = some y
        · simp [hy, hj, hu]
        · simp [hy, hj, hu]
      · simp [hy, hj]
  · funext y j
    by_cases hy : y = o.next
    · subst hy
      have hu' : update j ≠ some o.next := fun h => h1 j _ h rfl
      by_cases hj : j < lvl
      · cases hu : update j with
        | none => simp [hj]
        | some v => simp [hj, h1 j v hu]
      · simp [hj, hu']
    · by_cases hu : update j = some y
      · by_cases hj : j < lvl
        · simp [hy, hj, hu]
        · by_cases hj2 : j < o.level
          · have : lvl ≤ j := by omega
            simp [hy, hj, hu, hj2, this]
          · simp [hy, hj, hu, hj2]
      · by_cases hj : j < lvl
        · simp [hy, hj, hu]
        · simp [hy, hj, hu]
  · funext y
    by_cases hy : y = o.next
    · subst hy; simp
    · simp [hy]


omit [LinearOrder S] [Zero S] in
theorem insertGrow_spec (sl : SSFreeSkiplist S) (update : Nat → Option Nat) (rank : Nat → Int)
    (lvl : Nat) (hh : sl.obs.hgt sl.obs.header = maxLevel) (hl : lvl ≤ maxLevel) :
    ∃ slB u' r', insertGrow sl update rank lvl = .ok (slB, u', r') ∧
      slB.obs = sl.obs.extended lvl ∧
      (∀ j, u' j = if sl.obs.level ≤ j ∧ j < lvl then some sl.obs.header else update j) ∧
      (∀ j, r' j = if sl.obs.level ≤ j ∧ j < lvl then 0 else rank j) := by
  by_cases h : sl.level < lvl
  · obtain ⟨st, h1, h2, h3, h4⟩ := insertExtend_loop sl update rank lvl h (by rw [hh]; exact hl)
    refine ⟨{ st.1 with level := lvl }, st.2.1, st.2.2, ?_, h2, h3, h4⟩
    have : ¬ maxLevel < lvl := by omega
    simp only [insertGrow, h, this, if_true, if_false, h1]
  · have hlev : sl.obs.level = sl.level := rfl
    refine ⟨sl, update, rank, by simp only [insertGrow, h, if_false], ?_, ?_, ?_⟩
    · simp only [Obs.extended]
      have h1 : ∀ (y j : Nat), ¬ (y = sl.obs.header ∧ sl.obs.level ≤ j ∧ j < lvl) :=
        fun y j hc => by omega
      have h2 : ¬ sl.obs.level < lvl := by omega
      simp only [h1, h2, if_false]
    · intro j
      have : ¬ (sl.obs.level ≤ j ∧ j < lvl) := by omega
      simp only [this, if_false]
    · intro j
      have : ¬ (sl.obs.level ≤ j ∧ j < lvl) := by omega
      simp only [this, if_false]

omit [LinearOrder S] [Zero S] in
theorem insertFinish_spec (sl : SSFreeSkiplist S) (update : Nat → Option Nat) (n : Nat)
    (hn : 0 < sl.obs.hgt n) :
    ∃ sl', insertFinish sl update n = .ok (sl', n) ∧
      sl'.obs =
        (match sl.obs.fwd n 0 with
         | some f =>
           { (sl.obs.setBwd n (if update 0 = some sl.obs.header then none else update 0)).setBwd
                f (some n) with length := sl.obs.length + 1 }
         | none =>
           { sl.obs.setBwd n (if update 0 = some sl.obs.header then none else update 0) with
             tail := some n, length := sl.obs.length + 1 }) := by
  obtain ⟨s1, e1, o1⟩ := setBackward_obs sl n
    (if update 0 = some sl.obs.header then none else update 0)
  have e1' : sl.setBackward (some n) (if update 0 = some sl.header then none else update 0)
      = .ok s1 := e1
  have hg : s1.getLevel (some n) 0 = .ok ⟨sl.obs.fwd n 0, sl.obs.spn n 0⟩ := by
    rw [getLevel_eq s1 n 0 (by rw [o1]; exact hn), o1]; rfl
  cases hf : sl.obs.fwd n 0 with
  | none =>
    refine ⟨{ s1 with tail := some n, length := s1.length + 1 }, ?_, ?_⟩
    · simp only [insertFinish, e1', hg, hf]
    · show ({ s1.obs with tail := some n, length := s1.obs.length + 1 } : Obs S) = _
      rw [o1]; rfl
  | some f =>
    obtain ⟨s2, e2, o2⟩ := setBackward_obs s1 f (some n)
    refine ⟨{ s2 with length := s2.length + 1 }, ?_, ?_⟩
    · simp only [insertFinish, e1', hg, hf, e2]
    · show ({ s2.obs with length := s2.obs.length + 1 } : Obs S) = _
      rw [o2, o1]; rfl

theorem insert_spec (sl : SSFreeSkiplist S) (ts : List Nat) (r : Nat) (key : GoString)
    (score : S) (hinv : Inv sl.obs ts) (hr : randomLevel r ≤ maxLevel) :
    ∃ sl' A B, ts = A ++ B ∧ sl.insert r key score = .ok (sl', sl.next) ∧
      Inv sl'.obs (A ++ sl.next :: B) ∧
      (∀ a ∈ A, storeLT (sl.obs.st a) ⟨key, score⟩) ∧
      (∀ b ∈ B, storeLE ⟨key, score⟩ (sl.obs.st b)) ∧
      (∀ y, sl'.obs.st y = if y = sl.next then ⟨key, score⟩ else sl.obs.st y) := by
  -- the nodes before and after the insertion point
  obtain ⟨A, B, hts, hA, hB⟩ := split_mono
    (fun a b => storeLE (sl.obs.st a) (sl.obs.st b))
    (fun y => before key score (sl.mem y))
    (by
      intro a b hab hb
      rw [before_iff] at hb ⊢
      exact storeLE_trans_lt hab hb)
    ts hinv.sorted
  subst hts
  have hA' : ∀ a ∈ A, storeLT (sl.obs.st a) ⟨key, score⟩ :=
    fun a ha => (before_iff key score (sl.mem a)).mp (hA a ha)
  have hB' : ∀ b ∈ B, storeLE ⟨key, score⟩ (sl.obs.st b) := by
    intro b hb
    have h1 : ¬ storeLT (sl.obs.st b) ⟨key, score⟩ := by
      intro h
      have := (before_iff key score (sl.mem b)).mpr h
      rw [hB b hb] at this; cases this
    exact storeLE_of_not_lt h1
  have hlev : sl.obs.level = sl.level := rfl
  have hnext : sl.obs.next = sl.next := rfl
  -- the descent
  obtain ⟨u, r0, update, rank, hd, hfr, hpred, _⟩ := descend_spec sl
    (fun _ f => before key score f) B sl.level sl.header 0 [] A (fun _ => none) (fun _ => 0)
    (le_refl _) (by have := hinv.hgt_header; have := hinv.level_le; show sl.obs.level ≤ sl.obs.hgt sl.obs.header; omega)
    hinv.links
    (fun z hz => hinv.hgt_le z (List.mem_append_left _ hz)) (by simp)
    (CondOn_const sl.mem _ true A _ hA) (CondOn_const sl.mem _ false B _ hB)
    (by have := hinv.len_lt; simp only [List.length_append] at this; show A.length < sl.obs.next; omega)
  simp only [List.nil_append] at hpred
  -- the extension
  obtain ⟨slB, u', r', hg, hoB, hu', hr'⟩ :=
    insertGrow_spec sl update rank (randomLevel r) hinv.hgt_header hr
  have hinvB : Inv slB.obs (A ++ B) := by rw [hoB]; exact Inv_extended sl.obs _ _ hinv hr
  have hBlev : slB.obs.level = if sl.obs.level < randomLevel r then randomLevel r
      else sl.obs.level := by rw [hoB]; rfl
  have hBhgt : slB.obs.hgt = sl.obs.hgt := by rw [hoB]; rfl
  have hBhd : slB.obs.header = sl.obs.header := by rw [hoB]; rfl
  have hBnext : slB.obs.next = sl.next := by rw [hoB]; rfl
  have hBst : slB.obs.st = sl.obs.st := by rw [hoB]; rfl
  have hlvl : randomLevel r ≤ slB.obs.level := by rw [hBlev]; split <;> omega
  have hPB : ∀ j, j < slB.obs.level →
      ∃ v, u' j = some v ∧ IsPred slB.obs (slB.obs.header :: A) j v (r' j) := by
    intro j hj
    rw [hBhd]
    by_cases hjl : j < sl.obs.level
    · obtain ⟨v, hv, L1, L2, e, h1, h2, h3⟩ := hpred j hjl
      have hc : ¬ (sl.obs.level ≤ j ∧ j < randomLevel r) := by omega
      refine ⟨v, by rw [hu' j, if_neg hc]; exact hv, L1, L2, e, ?_, ?_, ?_⟩
      · rw [hr' j, if_neg hc]; exact h1
      · rw [hBhgt]; exact h2
      · rw [hBhgt]; exact h3
    · have hc : sl.obs.level ≤ j ∧ j < randomLevel r := by
        rw [hBlev] at hj; split at hj <;> omega
      refine ⟨sl.obs.header, by rw [hu' j, if_pos hc], [], A, rfl, ?_, ?_, ?_⟩
      · rw [hr' j, if_pos hc]; rfl
      · rw [hBhgt, hinv.hgt_header]; omega
      · intro z hz
        rw [hBhgt]
        have := hinv.hgt_le z (List.mem_append_left _ hz)
        omega
  have hUB : ∀ j, slB.obs.level ≤ j → u' j = none := by
    intro j hj
    have h1 : sl.obs.level ≤ j := by rw [hBlev] at hj; split at hj <;> omega
    have hc : ¬ (sl.obs.level ≤ j ∧ j < randomLevel r) := by
      rw [hBlev] at hj; split at hj <;> omega
    rw [hu' j, if_neg hc]
    exact (hfr j h1).1
  have hfinal := Inv_inserted slB.obs A B u' r' (randomLevel r) key score hinvB
    (randomLevel_pos r) hlvl hPB hUB (by rw [hBst]; exact hA') (by rw [hBst]; exact hB')
  -- the new node and the loops
  have hune : ∀ j v, u' j = some v → v ≠ slB.obs.next := by
    intro j v hv
    by_cases hj : j < slB.obs.level
    · obtain ⟨w, hw, L1, L2, e, _⟩ := hPB j hj
      rw [hw] at hv; cases hv
      have hm : v ∈ slB.obs.header :: A := by rw [e]; simp
      rcases List.mem_cons.mp hm with rfl | hm
      · have := hinvB.header_lt; omega
      · have := hinvB.mem_lt v (List.mem_append_left _ hm); omega
    · rw [hUB j (by omega)] at hv; cases hv
  obtain ⟨hmk2, hmk1⟩ := makeNode_obs slB (randomLevel r) score key
  obtain ⟨sl3, e3, o3⟩ := insertLink_loop (makeNode slB (randomLevel r) score key).1 u' r'
    (makeNode slB (randomLevel r) score key).2 (randomLevel r)
    (by
      intro j hj
      obtain ⟨v, hv, L1, L2, e, _, h2, _⟩ := hPB j (by omega)
      have hne := hune j v hv
      refine ⟨v, hv, by rw [hmk2]; exact hne, ?_⟩
      rw [hmk1]
      simp only [Obs.alloc, hne, if_false]
      exact h2)
    (by
      intro j hj
      rw [hmk1, hmk2]
      simpa [Obs.alloc] using hj)
  have h3lev : sl3.level = slB.obs.level := by
    show sl3.obs.level = _; rw [o3, hmk1]; rfl
  obtain ⟨sl4, e4, o4⟩ := insertBump_loop sl3 u' (randomLevel r) (sl3.level - randomLevel r)
    (by
      intro j hj1 hj2
      obtain ⟨v, hv, L1, L2, e, _, h2, _⟩ := hPB j (by omega)
      have hne := hune j v hv
      refine ⟨v, hv, ?_⟩
      rw [o3, hmk1]
      simp only [Obs.linked, Obs.alloc, hne, if_false]
      exact h2)
  have e4' : randomLevel r + (sl3.level - randomLevel r) = slB.obs.level := by omega
  rw [e4', o3, hmk1, hmk2] at o4
  obtain ⟨sl', e5, o5⟩ := insertFinish_spec sl4 u' slB.obs.next
    (by rw [o4]; simp [Obs.bumped, Obs.linked, Obs.alloc]; exact randomLevel_pos r)
  have hf0 : sl4.obs.fwd slB.obs.next 0 = (u' 0).bind (fun v => slB.obs.fwd v 0) := by
    rw [o4]
    have h0 : 0 < randomLevel r := randomLevel_pos r
    simp only [Obs.bumped, Obs.linked, Obs.alloc, h0, if_true]
    cases hu0 : u' 0 with
    | none => rfl
    | some v => simp [hune 0 v hu0]
  have hfne : ∀ f, (u' 0).bind (fun v => slB.obs.fwd v 0) = some f → f ≠ slB.obs.next := by
    intro f hf
    have h0 : 0 < slB.obs.level := by have := hinvB.level_pos; omega
    obtain ⟨v, hv, L1, L2, e, _, h2, _⟩ := hPB 0 h0
    rw [hv] at hf
    replace hf : slB.obs.fwd v 0 = some f := hf
    have hat := Links_at slB.obs L1 (L2 ++ B) v (by
      have : L1 ++ v :: (L2 ++ B) = slB.obs.header :: (A ++ B) := by
        rw [← List.cons_append, ← List.append_assoc, ← List.cons_append, e]
      rw [this]; exact hinvB.links) 0 h2
    rw [hf] at hat
    have hm := (nxt_mem slB.obs.hgt 0 _ f hat.1.symm).1
    have hfm : f ∈ slB.obs.header :: (A ++ B) := by
      have : f ∈ L1 ++ v :: (L2 ++ B) := by simp [List.mem_append.mp hm]
      have e2 : L1 ++ v :: (L2 ++ B) = slB.obs.header :: (A ++ B) := by
        rw [← List.cons_append, ← List.append_assoc, ← List.cons_append, e]
      rw [e2] at this; exact this
    rcases List.mem_cons.mp hfm with rfl | h
    · have := hinvB.header_lt; omega
    · have := hinvB.mem_lt f h; omega
  have hobs : sl'.obs = slB.obs.inserted u' r' (randomLevel r) key score := by
    rw [o5, hf0]
    cases hf : (u' 0).bind (fun v => slB.obs.fwd v 0) with
    | none =>
      simp only []
      rw [o4]
      exact inserted_eq_none slB.obs u' r' (randomLevel r) key score hune hf
    | some f =>
      simp only []
      rw [o4]
      exact inserted_eq_some slB.obs u' r' (randomLevel r) key score f hune hf (hfne f hf)
  refine ⟨sl', A, B, rfl, ?_, ?_, hA', hB', ?_⟩
  · have hnl : ¬ maxLevel < sl.level := by have := hinv.level_le; omega
    rw [hmk2] at e3
    simp only [SSFreeSkiplist.insert, hnl, if_false, hd, hg, hmk2, e3, e4]
    rw [← hBnext]
    exact e5
  · rw [hobs, ← hBnext]; exact hfinal
  · intro y
    rw [hobs]
    simp only [Obs.inserted, hBst, hBnext]


end InsertSpec
section RemoveShape

variable {S : Type}

theorem shrinkLevel_le (f : Nat → Option Nat) (k l : Nat) : shrinkLevel f k l ≤ l := by
  induction k generalizing l with
  | zero => exact le_refl _
  | succ k ih =>
    simp only [shrinkLevel]
    split
    · exact le_trans (ih (l - 1)) (Nat.sub_le _ _)
    · exact le_refl _

theorem shrinkLevel_pos (f : Nat → Option Nat) (k l : Nat) (h : 1 ≤ l) :
    1 ≤ shrinkLevel f k l := by
  induction k generalizing l with
  | zero => exact h
  | succ k ih =>
    simp only [shrinkLevel]
    split
    · exact ih (l - 1) (by omega)
    · exact h

theorem shrinkLevel_hgt (h : Nat → Nat) (f : Nat → Option Nat) (ts : List Nat)
    (k l : Nat) (hf : ∀ i, i < l → f i = nxt h i ts) (hl : ∀ z ∈ ts, h z ≤ l) :
    ∀ z ∈ ts, h z ≤ shrinkLevel f k l := by
  induction k generalizing l with
  | zero => exact hl
  | succ k ih =>
    simp only [shrinkLevel]
    split
    · rename_i hc
      refine ih (l - 1) (fun i hi => hf i (by omega)) ?_
      have := (nxt_eq_none h (l - 1) ts).mp (by rw [← hf (l - 1) (by omega)]; exact hc.2)
      intro z hz
      exact this z hz
    · exact hl

theorem split_unique (P Q L1 L2 : List Nat) (x : Nat) (hnd : (P ++ x :: Q).Nodup)
    (e : P ++ x :: Q = L1 ++ x :: L2) : P = L1 ∧ Q = L2 := by
  rcases List.append_eq_append_iff.mp e with ⟨a, rfl, ha⟩ | ⟨c, rfl, hc⟩
  · cases a with
    | nil =>
      simp only [List.nil_append, List.cons.injEq] at ha
      exact ⟨by simp, ha.2⟩
    | cons a0 a =>
      simp only [List.cons_append, List.cons.injEq] at ha
      have hx : x ∈ Q := by rw [ha.2]; simp
      have := (List.nodup_cons.mp (List.nodup_append.mp hnd).2.1).1
      exact absurd hx this
  · cases c with
    | nil =>
      simp only [List.nil_append, List.cons.injEq] at hc
      exact ⟨by simp, hc.2.symm⟩
    | cons c0 c =>
      simp only [List.cons_append, List.cons.injEq] at hc
      rw [e] at hnd
      have hx : x ∈ L2 := by rw [hc.2]; simp
      have := (List.nodup_cons.mp (List.nodup_append.mp hnd).2.1).1
      exact absurd hx this

theorem Links_removed (o : Obs S) (A B : List Nat) (t : Nat) (update : Nat → Option Nat)
    (hinv : Links o (o.header :: (A ++ t :: B)))
    (hnodup : ((o.header :: A) ++ t :: B).Nodup)
    (hle : ∀ x ∈ A ++ t :: B, o.hgt x ≤ o.level)
    (hP : ∀ j, j < o.level → ∃ v r, update j = some v ∧ IsPred o (o.header :: A) j v r) :
    Links (o.removed update t) (o.header :: (A ++ B)) := by
  have hnd := List.nodup_append.mp hnodup
  have htB : t ∉ B := (List.nodup_cons.mp hnd.2.1).1
  have htA : t ∉ o.header :: A := fun h => hnd.2.2 h (List.mem_cons_self _ _)
  have hupd : ∀ j v, j < o.level → update j = some v → v ∈ o.header :: A := by
    intro j v hj hv
    obtain ⟨w, r, hw, L1, L2, e, _⟩ := hP j hj
    rw [hw] at hv; cases hv
    rw [e]; simp
  have hupdB : ∀ j y, j < o.level → y ∈ B → update j ≠ some y := fun j y hj hy hv =>
    hnd.2.2 (hupd j y hj hv) (List.mem_cons_of_mem _ hy)
  have hlev : (o.removed update t).level ≤ o.level := shrinkLevel_le _ _ _
  have htl : Links o (t :: B) :=
    Links_suffix o (o.header :: A) (t :: B) (by simpa using hinv)
  rw [Links_cons] at htl
  have hB : Links (o.removed update t) B := by
    refine Links_frame o _ B (fun _ _ => rfl) ?_ ?_ htl.2
    · intro y hy i _
      by_cases hi : i < o.level
      · simp [Obs.removed, Obs.unlinked, hupdB i y hi hy]
      · simp [Obs.removed, Obs.unlinked, hi]
    · intro y hy i _ hi
      have hi' : i < o.level := by omega
      exact ⟨hi', by simp [Obs.removed, Obs.unlinked, hupdB i y hi' hy]⟩
  have key : ∀ Q P, o.header :: A = P ++ Q → Links (o.removed update t) (Q ++ B) := by
    intro Q
    induction Q with
    | nil => intro _ _; exact hB
    | cons x Q ih =>
      intro P e
      rw [List.cons_append, Links_cons]
      refine ⟨?_, ih (P ++ [x]) (by rw [e]; simp)⟩
      have hxm : x ∈ o.header :: A := by rw [e]; simp
      have hQm : ∀ z ∈ Q, z ∈ o.header :: A := fun z hz => by rw [e]; simp [hz]
      intro i hi
      have hi0 : i < o.hgt x := hi
      have hat := Links_at o P (Q ++ t :: B) x (by
        have : P ++ x :: (Q ++ t :: B) = o.header :: (A ++ t :: B) := by
          rw [← List.cons_append, ← List.append_assoc, ← List.cons_append, ← e]
        rw [this]; exact hinv) i hi0
      show (o.removed update t).fwd x i = nxt o.hgt i (Q ++ B) ∧
        (i < (o.removed update t).level → (o.removed update t).spn x i = dst o.hgt i (Q ++ B))
      rw [nxt_append, dst_append] at hat ⊢
      rw [nxt_cons, dst_cons] at hat
      cases hq : nxt o.hgt i Q with
      | some z =>
        have hz := nxt_mem o.hgt i Q z hq
        have hzt : z ≠ t := fun h => htA (h ▸ hQm z hz.1)
        rw [hq] at hat
        simp only [Option.orElse, Option.isSome_some, if_true] at hat ⊢
        have hfx : o.fwd x i ≠ some t := by rw [hat.1]; simpa using hzt
        refine ⟨by simp [Obs.removed, Obs.unlinked, hat.1, hzt], fun hi' => ?_⟩
        have hil : i < o.level := by omega
        have hne : update i ≠ some x := by
          intro hux
          obtain ⟨w, r, hw, L1, L2, e2, _, hwh, hlow⟩ := hP i hil
          rw [hw] at hux; cases hux
          have := split_unique P Q L1 L2 x (by rw [← e]; exact hnd.1) (by rw [← e, e2])
          have := hlow z (by rw [← this.2]; exact hz.1)
          omega
        simp only [Obs.removed, Obs.unlinked, hne, and_false, false_and, if_false]
        exact hat.2 hil
      | none =>
        have hQlow := (nxt_eq_none o.hgt i Q).mp hq
        rw [hq] at hat
        simp only [Option.orElse, Option.isSome_none, Bool.false_eq_true, if_false] at hat ⊢
        have htat := htl.1
        by_cases hil : i < o.level
        · obtain ⟨w, r, hw, L1, L2, e2, _, hwh, hlow⟩ := hP i hil
          obtain ⟨_, hxw, _⟩ := pred_unique o.hgt i P Q L1 L2 x w (by rw [← e, e2]) hi0 hwh
            hQlow hlow
          subst hxw
          by_cases hit : i < o.hgt t
          · simp only [hit, if_true] at hat
            have h2 := htat i hit
            refine ⟨by simp [Obs.removed, Obs.unlinked, hil, hw, hat.1, h2.1], fun _ => ?_⟩
            simp only [Obs.removed, Obs.unlinked, hil, hw, hat.1, true_and, and_self, if_true,
              hat.2 hil, h2.2 hil]
            ring
          · simp only [hit, if_false] at hat
            have hfx : o.fwd x i ≠ some t := by
              intro h
              rw [hat.1] at h
              exact htB (nxt_mem o.hgt i B t h).1
            refine ⟨by simp only [Obs.removed, Obs.unlinked, hfx, and_false, if_false]; exact hat.1,
              fun _ => ?_⟩
            simp only [Obs.removed, Obs.unlinked, hil, hw, hfx, true_and, and_self, if_true,
              if_false, hat.2 hil]
            ring
        · have hit : ¬ i < o.hgt t := by
            have := hle t (by simp); omega
          simp only [hit, if_false] at hat
          refine ⟨by simp [Obs.removed, Obs.unlinked, hil, hat.1], fun hi' => ?_⟩
          omega
  have := key (o.header :: A) [] rfl
  simpa using this

theorem Backs_remove (o o' : Obs S) (t : Nat) (B : List Nat) :
    ∀ (A : List Nat) (prev : Option Nat), Backs o prev (A ++ t :: B) →
      (∀ y ∈ A, o'.bwd y = o.bwd y) →
      (∀ b ∈ B.head?, o'.bwd b = o.bwd t) →
      (∀ y ∈ B.tail, o'.bwd y = o.bwd y) →
      Backs o' prev (A ++ B) := by
  intro A
  induction A with
  | nil =>
    intro prev h _ hb ht
    rw [List.nil_append, Backs_cons] at h
    cases B with
    | nil => trivial
    | cons b B =>
      rw [Backs_cons] at h
      rw [List.nil_append, Backs_cons]
      exact ⟨by rw [hb b (by simp)]; exact h.1,
        Backs_frame o o' B (some b) (by simpa using ht) h.2.2⟩
  | cons a A ih =>
    intro prev h hA hb ht
    rw [List.cons_append, Backs_cons] at h ⊢
    exact ⟨by rw [hA a (List.mem_cons_self _ _)]; exact h.1,
      ih (some a) h.2 (fun y hy => hA y (List.mem_cons_of_mem _ hy)) hb ht⟩

theorem Inv_removed [LinearOrder S] (o : Obs S) (A B : List Nat) (t : Nat)
    (update : Nat → Option Nat) (hinv : Inv o (A ++ t :: B))
    (hP : ∀ j, j < o.level → ∃ v r, update j = some v ∧ IsPred o (o.header :: A) j v r) :
    Inv (o.removed update t) (A ++ B) := by
  have hnodup : ((o.header :: A) ++ t :: B).Nodup := by
    rw [List.cons_append]
    exact List.nodup_cons.mpr ⟨hinv.header_nmem, hinv.nodup⟩
  have hsub : ∀ x, x ∈ A ++ B → x ∈ A ++ t :: B := by
    intro x hx
    simp only [List.mem_append, List.mem_cons] at hx ⊢
    tauto
  have hnd := List.nodup_append.mp hinv.nodup
  have hlinks := Links_removed o A B t update hinv.links hnodup hinv.hgt_le hP
  have htl : Links o (t :: B) :=
    Links_suffix o (o.header :: A) (t :: B) (by simpa using hinv.links)
  rw [Links_cons] at htl
  have ht0 : o.fwd t 0 = B.head? := by
    have h1 := hinv.hgt_pos t (by simp)
    rw [(htl.1 0 (by omega)).1]
    exact nxt_zero o.hgt B (fun z hz => hinv.hgt_pos z (by simp [hz]))
  have hbt : o.bwd t = A.getLast? := by
    have := Backs_suffix o A (t :: B) none hinv.backs
    rw [Backs_cons] at this
    simpa using this.1
  refine
    { header_lt := hinv.header_lt
      mem_lt := fun x hx => hinv.mem_lt x (hsub x hx)
      len_lt := by
        have := hinv.len_lt
        simp only [List.length_append, List.length_cons] at this ⊢
        show A.length + B.length < o.next
        omega
      header_nmem := fun h => hinv.header_nmem (hsub _ h)
      nodup := List.nodup_append.mpr ⟨hnd.1, (List.nodup_cons.mp hnd.2.1).2,
        fun x hA hB => hnd.2.2 hA (List.mem_cons_of_mem _ hB)⟩
      hgt_header := hinv.hgt_header
      level_pos := shrinkLevel_pos _ _ _ hinv.level_pos
      level_le := le_trans (shrinkLevel_le _ _ _) hinv.level_le
      hgt_pos := fun x hx => hinv.hgt_pos x (hsub x hx)
      hgt_le := ?_
      links := hlinks
      sorted := ?_
      backs := ?_
      tail_eq := ?_
      length_eq := ?_
      header_key := hinv.header_key }
  · refine shrinkLevel_hgt o.hgt _ (A ++ B) o.level o.level ?_
      (fun z hz => hinv.hgt_le z (hsub z hz))
    intro i hi
    rw [Links_cons] at hlinks
    exact (hlinks.1 i (by
      show i < o.hgt o.header
      rw [hinv.hgt_header]; have := hinv.level_le; omega)).1
  · have hs := List.pairwise_append.mp hinv.sorted
    exact List.pairwise_append.mpr ⟨hs.1, (List.pairwise_cons.mp hs.2.1).2,
      fun a ha b hb => hs.2.2 a ha b (List.mem_cons_of_mem _ hb)⟩
  · refine Backs_remove o _ t B A none hinv.backs ?_ ?_ ?_
    · intro y hy
      have : B.head? ≠ some y := fun h =>
        hnd.2.2 hy (List.mem_cons_of_mem _ (List.mem_of_mem_head? h))
      simp [Obs.removed, ht0, this]
    · intro b hb
      simp only [Option.mem_def] at hb
      simp [Obs.removed, ht0, hb]
    · intro y hy
      have : B.head? ≠ some y := by
        intro h
        cases B with
        | nil => simp at h
        | cons b B =>
          simp only [List.head?_cons, Option.some.injEq] at h
          subst h
          simp only [List.tail_cons] at hy
          exact (List.nodup_cons.mp (List.nodup_cons.mp hnd.2.1).2).1 hy
      simp [Obs.removed, ht0, this]
  · simp only [Obs.removed, ht0, hinv.tail_eq, hbt]
    cases B with
    | nil => simp
    | cons b B => simp [List.getLast?_append]
  · simp only [Obs.removed, hinv.length_eq, List.length_append, List.length_cons]
    push_cast; ring

end RemoveShape
section RemoveExec

variable {S : Type}

theorem removeNodeLevel_loop (sl : SSFreeSkiplist S) (update : Nat → Option Nat) (t lvl : Nat)
    (hu : ∀ j, j < lvl → ∃ v, update j = some v ∧ v ≠ t ∧ j < sl.obs.hgt v ∧
      (sl.obs.fwd v j = some t → j < sl.obs.hgt t)) :
    ∃ sl', forRange (removeNodeLevel t update) 0 lvl sl = .ok sl' ∧
      sl'.obs = sl.obs.unlinked update t lvl := by
  have := forRange_ind (removeNodeLevel t update)
    (fun k (s : SSFreeSkiplist S) => s.obs = sl.obs.unlinked update t k) lvl 0 sl
    (by simp only [Obs.unlinked]; rfl)
    (by
      intro k s _ hk hI
      simp only [zero_add] at hk
      obtain ⟨v, hv, hvt, hvh, hth⟩ := hu k hk
      have hh : ∀ y, s.obs.hgt y = sl.obs.hgt y := by intro y; rw [hI]; rfl
      have hg1 : s.getLevel (update k) k = .ok ⟨sl.obs.fwd v k, sl.obs.spn v k⟩ := by
        rw [hv, getLevel_eq s v k (by rw [hh v]; exact hvh), hI]
        simp [Obs.unlinked]
      by_cases hf : sl.obs.fwd v k = some t
      · have htk := hth hf
        have hg2 : s.getLevel (some t) k = .ok ⟨sl.obs.fwd t k, sl.obs.spn t k⟩ := by
          rw [getLevel_eq s t k (by rw [hh t]; exact htk), hI]
          simp [Obs.unlinked]
        obtain ⟨s1, e1, o1⟩ := setSpan_obs s v k (sl.obs.spn v k + (sl.obs.spn t k - 1))
          (by rw [hh v]; exact hvh)
        have hg3 : s1.getLevel (some t) k = .ok ⟨sl.obs.fwd t k, sl.obs.spn t k⟩ := by
          rw [getLevel_eq s1 t k (by rw [o1]; show k < s.obs.hgt t; rw [hh t]; exact htk), o1, hI]
          have : ¬ (t = v) := fun h => hvt h.symm
          simp [Obs.unlinked, Obs.setSpn, this]
        obtain ⟨s2, e2, o2⟩ := setForward_obs s1 v k (sl.obs.fwd t k)
          (by rw [o1]; show k < s.obs.hgt v; rw [hh v]; exact hvh)
        refine ⟨s2, ?_, ?_⟩
        · rw [← hv] at e1 e2
          simp only [removeNodeLevel, hg1, hf, if_true, hg2, e1, hg3]
          exact e2
        · show s2.obs = sl.obs.unlinked update t (k + 1)
          rw [o2, o1, hI]
          simp only [Obs.unlinked, Obs.setFwd, Obs.setSpn]
          congr 1
          · funext y j
            by_cases hjk : j = k
            · subst hjk
              by_cases hyv : y = v
              · subst hyv; simp [hv, hf]
              · have : ¬ (v = y) := fun h => hyv h.symm
                simp [hv, hyv, this]
            · have h1 : ¬ (y = v ∧ j = k) := fun h => hjk h.2
              by_cases hlt : j < k
              · have : j < k + 1 := by omega
                simp [h1, hlt, this]
              · have : ¬ j < k + 1 := by omega
                simp [h1, hlt, this]
          · funext y j
            by_cases hjk : j = k
            · subst hjk
              by_cases hyv : y = v
              · subst hyv; simp [hv, hf]
              · have : ¬ (v = y) := fun h => hyv h.symm
                simp [hv, hyv, this]
            · have h1 : ¬ (y = v ∧ j = k) := fun h => hjk h.2
              by_cases hlt : j < k
              · have : j < k + 1 := by omega
                simp [h1, hlt, this]
              · have : ¬ j < k + 1 := by omega
                simp [h1, hlt, this]
      · obtain ⟨s1, e1, o1⟩ := setSpan_obs s v k (sl.obs.spn v k - 1)
          (by rw [hh v]; exact hvh)
        refine ⟨s1, ?_, ?_⟩
        · rw [← hv] at e1
          simp only [removeNodeLevel, hg1, hf, if_false]
          exact e1
        · show s1.obs = sl.obs.unlinked update t (k + 1)
          rw [o1, hI]
          simp only [Obs.unlinked, Obs.setSpn]
          congr 1
          · funext y j
            by_cases hjk : j = k
            · subst hjk
              by_cases hyv : y = v
              · subst hyv; simp [hv, hf]
              · have : ¬ (v = y) := fun h => hyv h.symm
                simp [hv, this]
            · by_cases hlt : j < k
              · have : j < k + 1 := by omega
                simp [hlt, this]
              · have : ¬ j < k + 1 := by omega
                simp [hlt, this]
          · funext y j
            by_cases hjk : j = k
            · subst hjk
              by_cases hyv : y = v
              · subst hyv; simp [hv, hf]
              · have : ¬ (v = y) := fun h => hyv h.symm
                simp [hv, hyv, this]
            · have h1 : ¬ (y = v ∧ j = k) := fun h => hjk h.2
              by_cases hlt : j < k
              · have : j < k + 1 := by omega
                simp [h1, hlt, this]
              · have : ¬ j < k + 1 := by omega
                simp [h1, hlt, this])
  simpa using this

theorem shrink_spec (k : Nat) :
    ∀ sl : SSFreeSkiplist S, sl.obs.level ≤ sl.obs.hgt sl.obs.header →
      ∃ sl', sl.shrink k = .ok sl' ∧
        sl'.obs = { sl.obs with
          level := shrinkLevel (sl.obs.fwd sl.obs.header) k sl.obs.level } := by
  induction k with
  | zero => intro sl _; exact ⟨sl, rfl, rfl⟩
  | succ k ih =>
    intro sl h
    have hlev : sl.obs.level = sl.level := rfl
    have hhd : sl.obs.header = sl.header := rfl
    by_cases h1 : 1 < sl.level
    · have hg := getLevel_eq sl sl.header (sl.level - 1) (by rw [← hhd]; omega)
      by_cases hf : sl.obs.fwd sl.header (sl.level - 1) = none
      · obtain ⟨sl', e, o⟩ := ih { sl with level := sl.level - 1 }
          (by show sl.level - 1 ≤ sl.obs.hgt sl.obs.header; omega)
        refine ⟨sl', ?_, ?_⟩
        · simp only [SSFreeSkiplist.shrink, h1, if_true, hg, hf]
          exact e
        · rw [o]
          have : 1 < sl.obs.level ∧ sl.obs.fwd sl.obs.header (sl.obs.level - 1) = none :=
            ⟨h1, hf⟩
          simp only [shrinkLevel, this, and_self, if_true]
          rfl
      · refine ⟨sl, by simp only [SSFreeSkiplist.shrink, h1, if_true, hg, hf, if_false], ?_⟩
        have : ¬ (1 < sl.obs.level ∧ sl.obs.fwd sl.obs.header (sl.obs.level - 1) = none) :=
          fun hc => hf hc.2
        simp only [shrinkLevel, this, if_false]
    · refine ⟨sl, by simp only [SSFreeSkiplist.shrink, h1, if_false], ?_⟩
      have : ¬ (1 < sl.obs.level ∧ sl.obs.fwd sl.obs.header (sl.obs.level - 1) = none) :=
        fun hc => h1 hc.1
      simp only [shrinkLevel, this, if_false]

theorem removeNode_spec [LinearOrder S] (sl : SSFreeSkiplist S) (A B : List Nat) (t : Nat)
    (update : Nat → Option Nat) (hinv : Inv sl.obs (A ++ t :: B))
    (hP : ∀ j, j < sl.obs.level →
      ∃ v r, update j = some v ∧ IsPred sl.obs (sl.obs.header :: A) j v r) :
    ∃ sl', sl.removeNode t update = .ok sl' ∧ sl'.obs = sl.obs.removed update t ∧
      Inv sl'.obs (A ++ B) := by
  have hnd := List.nodup_append.mp hinv.nodup
  have htA : t ∉ sl.obs.header :: A := by
    intro h
    rcases List.mem_cons.mp h with h | h
    · exact hinv.header_nmem (h ▸ (by simp))
    · exact hnd.2.2 h (List.mem_cons_self _ _)
  have hupd : ∀ j v, j < sl.obs.level → update j = some v → v ≠ t ∧ j < sl.obs.hgt v := by
    intro j v hj hv
    obtain ⟨w, r, hw, L1, L2, e, _, h2, _⟩ := hP j hj
    rw [hw] at hv; cases hv
    exact ⟨fun h => htA (by rw [← h, e]; simp), h2⟩
  obtain ⟨sl1, e1, o1⟩ := removeNodeLevel_loop sl update t sl.level (by
    intro j hj
    obtain ⟨v, r, hv, L1, L2, e, _, h2, hlow⟩ := hP j hj
    refine ⟨v, hv, (hupd j v hj hv).1, h2, ?_⟩
    intro hf
    have hat := Links_at sl.obs L1 (L2 ++ t :: B) v (by
      have : L1 ++ v :: (L2 ++ t :: B) = sl.obs.header :: (A ++ t :: B) := by
        rw [← List.cons_append, ← List.append_assoc, ← List.cons_append, e]
      rw [this]; exact hinv.links) j h2
    rw [hf] at hat
    exact (nxt_mem sl.obs.hgt j _ t hat.1.symm).2)
  rw [show sl.level = sl.obs.level from rfl] at o1
  have ht0 : 0 < sl.obs.hgt t := hinv.hgt_pos t (by simp)
  have hft : sl1.obs.fwd t 0 = sl.obs.fwd t 0 := by
    rw [o1]
    have : update 0 ≠ some t := fun h =>
      (hupd 0 t (by have := hinv.level_pos; show 0 < sl.obs.level; omega) h).1 rfl
    simp [Obs.unlinked, this]
  have hg : sl1.getLevel (some t) 0 = .ok ⟨sl.obs.fwd t 0, sl1.obs.spn t 0⟩ := by
    rw [getLevel_eq sl1 t 0 (by rw [o1]; exact ht0), hft]
  have hbt : (sl1.mem t).backwardNode = sl.obs.bwd t := by
    show sl1.obs.bwd t = _; rw [o1]; rfl
  have hstep : ∃ sl2, (match sl.obs.fwd t 0 with
        | some f => sl1.setBackward (some f) (sl1.mem t).backwardNode
        | none => .ok { sl1 with tail := (sl1.mem t).backwardNode }) = .ok sl2 ∧
      sl2.obs = { sl.obs.unlinked update t sl.obs.level with
        bwd := fun y => if sl.obs.fwd t 0 = some y then sl.obs.bwd t else sl.obs.bwd y
        tail := if sl.obs.fwd t 0 = none then sl.obs.bwd t else sl.obs.tail } := by
    cases hf : sl.obs.fwd t 0 with
    | none =>
      refine ⟨{ sl1 with tail := (sl1.mem t).backwardNode }, rfl, ?_⟩
      show ({ sl1.obs with tail := (sl1.mem t).backwardNode } : Obs S) = _
      rw [o1, hbt]
      simp [Obs.unlinked]
    | some f =>
      obtain ⟨s2, e2, o2⟩ := setBackward_obs sl1 f (sl1.mem t).backwardNode
      refine ⟨s2, e2, ?_⟩
      rw [o2, o1, hbt]
      simp only [Obs.setBwd, Obs.unlinked]
      congr 1
      · funext y
        by_cases hy : y = f
        · subst hy; simp
        · have : ¬ (f = y) := fun h => hy h.symm
          simp [hy, this]
  obtain ⟨sl2, e2, o2⟩ := hstep
  have hl2 : sl2.level = sl.obs.level := by
    show sl2.obs.level = _; rw [o2]; rfl
  obtain ⟨sl3, e3, o3⟩ := shrink_spec sl2.level sl2 (by
    rw [o2]
    show sl.obs.level ≤ sl.obs.hgt sl.obs.header
    rw [hinv.hgt_header]; exact hinv.level_le)
  have hobs : ({ sl3 with length := sl3.length - 1 } : SSFreeSkiplist S).obs =
      sl.obs.removed update t := by
    show ({ sl3.obs with length := sl3.obs.length - 1 } : Obs S) = _
    rw [o3, hl2, o2]
    rfl
  refine ⟨{ sl3 with length := sl3.length - 1 }, ?_, hobs, ?_⟩
  · simp only [SSFreeSkiplist.removeNode, e1, hg, e2, e3]
  · rw [hobs]; exact Inv_removed sl.obs A B t update hinv hP

end RemoveExec
section RemoveSpec

variable {S : Type} [LinearOrder S] [Zero S]

omit [Zero S] in
theorem descend_top (sl : SSFreeSkiplist S) (cond : Int → node S → Bool) (A B : List Nat)
    (hinv : Inv sl.obs (A ++ B)) (hT : CondOn sl.mem cond true 1 A)
    (hF : CondOn sl.mem cond false (A.length + 1) B) :
    ∃ u r update rank,
      sl.descend cond sl.level sl.header 0 (fun _ => none) (fun _ => 0) =
        .ok (u, r, update, rank) ∧
      (∀ j, j < sl.obs.level →
        ∃ v, update j = some v ∧ IsPred sl.obs (sl.obs.header :: A) j v (rank j)) ∧
      (∀ j, sl.obs.level ≤ j → update j = none) ∧
      some u = (sl.obs.header :: A).getLast? ∧ r = A.length ∧
      sl.obs.fwd u 0 = B.head? ∧ 0 < sl.obs.hgt u := by
  obtain ⟨u, r, update, rank, hd, hfr, hpred, L1, L2, e, hr, hlow⟩ := descend_spec sl
    cond B sl.level sl.header 0 [] A (fun _ => none) (fun _ => 0)
    (le_refl _) (by have := hinv.hgt_header; have := hinv.level_le; show sl.obs.level ≤ sl.obs.hgt sl.obs.header; omega)
    hinv.links
    (fun z hz => hinv.hgt_le z (List.mem_append_left _ hz)) (by simp)
    (by simpa using hT) (by simpa using hF)
    (by have := hinv.len_lt; simp only [List.length_append] at this; show A.length < sl.obs.next; omega)
  simp only [List.nil_append] at hpred e
  replace e : sl.obs.header :: A = L1 ++ u :: L2 := e
  replace hpred : ∀ j, j < sl.obs.level →
      ∃ v, update j = some v ∧ IsPred sl.obs (sl.obs.header :: A) j v (rank j) := hpred
  replace hfr : ∀ j, sl.obs.level ≤ j → update j = none ∧ rank j = 0 := hfr
  have hL2 : L2 = [] := by
    cases L2 with
    | nil => rfl
    | cons b L2 =>
      have hb := hlow b (List.mem_cons_self _ _)
      have hbm : b ∈ A := by
        cases L1 with
        | nil =>
          simp only [List.nil_append, List.cons.injEq] at e
          rw [e.2]; simp
        | cons c L1 =>
          simp only [List.cons_append, List.cons.injEq] at e
          rw [e.2]; simp
      have := hinv.hgt_pos b (List.mem_append_left _ hbm)
      omega
  subst hL2
  have hu : 0 < sl.obs.hgt u := by
    have hm : u ∈ sl.obs.header :: A := by rw [e]; simp
    rcases List.mem_cons.mp hm with rfl | h
    · rw [hinv.hgt_header]; decide
    · exact hinv.hgt_pos u (List.mem_append_left _ h)
  have hat := Links_at sl.obs L1 B u (by
    have : L1 ++ u :: B = sl.obs.header :: (A ++ B) := by
      rw [← List.cons_append, e]; simp
    rw [this]; exact hinv.links) 0 hu
  have hlen : (sl.obs.header :: A).length = (L1 ++ [u]).length := by rw [e]
  simp only [List.length_cons, List.length_append, List.length_nil] at hlen
  refine ⟨u, r, update, rank, hd, hpred, fun j hj => (hfr j hj).1, by rw [e]; simp,
    by rw [hr]; congr 1; omega, ?_, hu⟩
  rw [hat.1]
  exact nxt_zero sl.obs.hgt B (fun z hz => hinv.hgt_pos z (List.mem_append_right _ hz))

omit [Zero S] in
theorem remove_spec (sl : SSFreeSkiplist S) (ts : List Nat) (key : GoString) (score : S)
    (hinv : Inv sl.obs ts) :
    (∃ sl' A t B, ts = A ++ t :: B ∧ sl.obs.st t = ⟨key, score⟩ ∧
        sl.remove key score = .ok (sl', true) ∧ Inv sl'.obs (A ++ B) ∧
        sl'.obs.st = sl.obs.st ∧ sl'.obs.next = sl.obs.next) ∨
      ((∀ x ∈ ts, sl.obs.st x ≠ ⟨key, score⟩) ∧ sl.remove key score = .ok (sl, false)) := by
  obtain ⟨A, B, hts, hA, hB⟩ := split_mono
    (fun a b => storeLE (sl.obs.st a) (sl.obs.st b))
    (fun y => before key score (sl.mem y))
    (by
      intro a b hab hb
      rw [before_iff] at hb ⊢
      exact storeLE_trans_lt hab hb)
    ts hinv.sorted
  subst hts
  have hA' : ∀ a ∈ A, storeLT (sl.obs.st a) ⟨key, score⟩ :=
    fun a ha => (before_iff key score (sl.mem a)).mp (hA a ha)
  have hB' : ∀ b ∈ B, ¬ storeLT (sl.obs.st b) ⟨key, score⟩ := by
    intro b hb h
    have := (before_iff key score (sl.mem b)).mpr h
    rw [hB b hb] at this; cases this
  obtain ⟨u, r, update, rank, hd, hpred, _, _, _, hf0, hu⟩ := descend_top sl
    (fun _ f => before key score f) A B hinv
    (CondOn_const sl.mem _ true A _ hA) (CondOn_const sl.mem _ false B _ hB)
  have hnl : ¬ maxLevel < sl.level := by have := hinv.level_le; show ¬ maxLevel < sl.obs.level; omega
  have hg := getLevel_eq sl u 0 hu
  have hs := List.pairwise_append.mp hinv.sorted
  cases B with
  | nil =>
    right
    refine ⟨?_, ?_⟩
    · intro x hx h
      rw [List.append_nil] at hx
      exact storeLT_irrefl _ (h ▸ hA' x hx)
    · simp only [SSFreeSkiplist.remove, hnl, if_false, hd, hg, hf0, List.head?_nil]
  | cons t B =>
    by_cases ht : sl.obs.st t = ⟨key, score⟩
    · left
      obtain ⟨sl', e, o, hinv'⟩ := removeNode_spec sl A B t update hinv
        (fun j hj => by obtain ⟨v, hv, hp⟩ := hpred j hj; exact ⟨v, rank j, hv, hp⟩)
      refine ⟨sl', A, t, B, rfl, ht, ?_, hinv', by rw [o]; rfl, by rw [o]; rfl⟩
      have h1 : (sl.mem t).KeyRank = score ∧ (sl.mem t).Key = key := by
        have : (⟨(sl.mem t).Key, (sl.mem t).KeyRank⟩ : store S) = ⟨key, score⟩ := ht
        rw [store.mk.injEq] at this
        exact ⟨this.2, this.1⟩
      simp only [SSFreeSkiplist.remove, hnl, if_false, hd, hg, hf0, List.head?_cons, h1.1, h1.2,
        and_self, if_true, e]
    · right
      refine ⟨?_, ?_⟩
      · intro x hx h
        rcases List.mem_append.mp hx with hx | hx
        · exact storeLT_irrefl _ (h ▸ hA' x hx)
        · rcases List.mem_cons.mp hx with rfl | hx
          · exact ht h
          · have h1 := (List.pairwise_cons.mp hs.2.1).1 x hx
            rw [h] at h1
            rcases storeLT_total (sl.obs.st t) ⟨key, score⟩ with h2 | h2 | h2
            · exact hB' t (by simp) h2
            · exact ht h2
            · exact storeLT_irrefl _ (storeLE_trans_lt h1 h2)
      · have h1 : ¬ (score = (sl.mem t).KeyRank ∧ (sl.mem t).Key = key) := by
          intro h
          apply ht
          show (⟨(sl.mem t).Key, (sl.mem t).KeyRank⟩ : store S) = _
          rw [h.2, ← h.1]
        simp only [SSFreeSkiplist.remove, hnl, if_false, hd, hg, hf0, List.head?_cons, h1,
          if_false]

end RemoveSpec
section RangeRemoval

variable {S : Type} [LinearOrder S]

theorem dropWhile_mono {α : Type} (R : α → α → Prop) (p : α → Bool)
    (hmono : ∀ a b, R a b → p b = true → p a = true) :
    ∀ l : List α, l.Pairwise R → ∀ b ∈ l.dropWhile p, p b = false := by
  intro l
  induction l with
  | nil => intro _ b hb; simp at hb
  | cons x l ih =>
    intro h b hb
    rw [List.pairwise_cons] at h
    by_cases hx : p x = true
    · rw [List.dropWhile_cons_of_pos hx] at hb
      exact ih h.2 b hb
    · rw [List.dropWhile_cons_of_neg hx] at hb
      rcases List.mem_cons.mp hb with rfl | hb
      · simpa using hx
      · by_contra hpb
        exact hx (hmono x b (h.1 b hb) (by simpa using hpb))

theorem removeNode_step (sl : SSFreeSkiplist S) (A B : List Nat) (t : Nat)
    (update : Nat → Option Nat) (hinv : Inv sl.obs (A ++ t :: B))
    (hP : ∀ j, j < sl.obs.level →
      ∃ v r, update j = some v ∧ IsPred sl.obs (sl.obs.header :: A) j v r) :
    sl.getLevel (some t) 0 = .ok ⟨B.head?, sl.obs.spn t 0⟩ ∧
    ∃ sl', sl.removeNode t update = .ok sl' ∧ Inv sl'.obs (A ++ B) ∧
      sl'.obs.st = sl.obs.st ∧ sl'.obs.next = sl.obs.next ∧
      (∀ j, j < sl'.obs.level →
        ∃ v r, update j = some v ∧ IsPred sl'.obs (sl'.obs.header :: A) j v r) := by
  have ht0 : 0 < sl.obs.hgt t := hinv.hgt_pos t (by simp)
  have htl : Links sl.obs (t :: B) :=
    Links_suffix sl.obs (sl.obs.header :: A) (t :: B) (by simpa using hinv.links)
  rw [Links_cons] at htl
  have hf : sl.obs.fwd t 0 = B.head? := by
    rw [(htl.1 0 ht0).1]
    exact nxt_zero sl.obs.hgt B (fun z hz => hinv.hgt_pos z (by simp [hz]))
  obtain ⟨sl', e, o, hinv'⟩ := removeNode_spec sl A B t update hinv hP
  refine ⟨by rw [getLevel_eq sl t 0 ht0, hf], sl', e, hinv', by rw [o]; rfl, by rw [o]; rfl, ?_⟩
  intro j hj
  have hle : sl'.obs.level ≤ sl.obs.level := by rw [o]; exact shrinkLevel_le _ _ _
  obtain ⟨v, r, hv, L1, L2, e1, e2, e3, e4⟩ := hP j (by omega)
  refine ⟨v, r, hv, L1, L2, ?_, e2, ?_, ?_⟩
  · rw [o]; exact e1
  · rw [o]; exact e3
  · rw [o]; exact e4

theorem removeByScoreLoop_spec (max : SSFreeRankInterval S) (limit : Int)
    (update : Nat → Option Nat) (A : List Nat) :
    ∀ (Bc : List Nat) (fuel : Nat) (sl : SSFreeSkiplist S) (removed : List (store S)),
      Inv sl.obs (A ++ Bc) →
      (∀ j, j < sl.obs.level →
        ∃ v r, update j = some v ∧ IsPred sl.obs (sl.obs.header :: A) j v r) →
      Bc.length < fuel →
      ∃ sl' C, C <+: Bc ∧
        C = (if 0 < limit ∧ (removed.length : Int) < limit then
              (Bc.takeWhile (fun y => max.greater (sl.obs.st y).KeyRank)).take
                (limit - removed.length).toNat
            else Bc.takeWhile (fun y => max.greater (sl.obs.st y).KeyRank)) ∧
        SSFreeSkiplist.removeByScoreLoop max limit update fuel sl Bc.head? removed =
          .ok (sl', removed ++ C.map sl.obs.st) ∧
        Inv sl'.obs (A ++ Bc.drop C.length) ∧
        sl'.obs.st = sl.obs.st ∧ sl'.obs.next = sl.obs.next := by
  intro Bc
  induction Bc with
  | nil =>
    intro fuel sl removed hinv _ hfuel
    obtain ⟨f, rfl⟩ : ∃ f, fuel = f + 1 := ⟨fuel - 1, by simp at hfuel; omega⟩
    refine ⟨sl, [], List.nil_prefix, by simp, ?_, by simpa using hinv, rfl, rfl⟩
    simp [SSFreeSkiplist.removeByScoreLoop]
  | cons t B ih =>
    intro fuel sl removed hinv hP hfuel
    obtain ⟨f, rfl⟩ : ∃ f, fuel = f + 1 := ⟨fuel - 1, by simp at hfuel; omega⟩
    by_cases hg : max.greater (sl.obs.st t).KeyRank = true
    · obtain ⟨hlv, sl1, e1, hinv1, hst1, hnx1, hP1⟩ := removeNode_step sl A B t update hinv hP
      have hg' : max.greater (sl.mem t).KeyRank = true := hg
      by_cases hlim : 0 < limit ∧ ((removed ++ [(sl.mem t).tostore]).length : Int) = limit
      · refine ⟨sl1, [t], by simp, ?_, ?_, by simpa using hinv1, hst1, hnx1⟩
        · have h1 : 0 < limit ∧ (removed.length : Int) < limit := by
            have := hlim.2
            simp only [List.length_append, List.length_singleton] at this
            omega
          have h2 : (limit - removed.length).toNat = 1 := by
            have := hlim.2
            simp only [List.length_append, List.length_singleton] at this
            omega
          rw [if_pos h1, List.takeWhile_cons_of_pos (p := fun y => max.greater (sl.obs.st y).KeyRank) (a := t) hg, h2]
          simp
        · simp only [SSFreeSkiplist.removeByScoreLoop, List.head?_cons, hg', Bool.not_true,
            Bool.false_eq_true, if_false, hlv, e1, hlim, and_self, if_true, List.map_cons,
            List.map_nil]
          rfl
      · obtain ⟨sl', C, hpre, hC, e2, hinv2, hst2, hnx2⟩ :=
          ih f sl1 (removed ++ [(sl.mem t).tostore]) hinv1 hP1 (by simp at hfuel; omega)
        refine ⟨sl', t :: C, ?_, ?_, ?_, by simpa using hinv2, by rw [hst2, hst1],
          by rw [hnx2, hnx1]⟩
        · exact List.prefix_cons_inj t |>.mpr hpre
        · rw [hC, hst1, List.takeWhile_cons_of_pos (p := fun y => max.greater (sl.obs.st y).KeyRank) (a := t) hg]
          simp only [List.length_append, List.length_singleton] at hlim ⊢
          by_cases h1 : 0 < limit ∧ (removed.length : Int) < limit
          · have h2 : 0 < limit ∧ ((removed.length + 1 : Nat) : Int) < limit := by
              push_cast at hlim ⊢; omega
            have h3 : (limit - removed.length).toNat
                = (limit - ((removed.length + 1 : Nat) : Int)).toNat + 1 := by
              push_cast at hlim ⊢; omega
            rw [if_pos h1, if_pos h2, h3, List.take_succ_cons]
          · have h2 : ¬ (0 < limit ∧ ((removed.length + 1 : Nat) : Int) < limit) := by
              push_cast; omega
            rw [if_neg h1, if_neg h2]
        · simp only [SSFreeSkiplist.removeByScoreLoop, List.head?_cons, hg', Bool.not_true,
            Bool.false_eq_true, if_false, hlv, e1, hlim, if_false]
          rw [e2, hst1]
          simp [mem_st]
    · have hg' : max.greater (sl.mem t).KeyRank = false := by
        simpa using hg
      refine ⟨sl, [], List.nil_prefix, ?_, ?_, by simpa using hinv, rfl, rfl⟩
      · rw [List.takeWhile_cons_of_neg (p := fun y => max.greater (sl.obs.st y).KeyRank) (a := t) hg]; simp
      · simp [SSFreeSkiplist.removeByScoreLoop, hg']

theorem RemoveRangeByScore_spec (sl : SSFreeSkiplist S) (ts : List Nat)
    (min max : SSFreeRankInterval S) (limit : Int) (hinv : Inv sl.obs ts)
    (hmono : ∀ a b : S, a ≤ b → min.less a = true → min.less b = true) :
    ∃ sl' C, C <+: ts.dropWhile (fun y => !min.less (sl.obs.st y).KeyRank) ∧
      C = (if 0 < limit then
            ((ts.dropWhile (fun y => !min.less (sl.obs.st y).KeyRank)).takeWhile
              (fun y => max.greater (sl.obs.st y).KeyRank)).take limit.toNat
          else (ts.dropWhile (fun y => !min.less (sl.obs.st y).KeyRank)).takeWhile
              (fun y => max.greater (sl.obs.st y).KeyRank)) ∧
      sl.RemoveRangeByScore min max limit = .ok (sl', C.map sl.obs.st) ∧
      Inv sl'.obs (ts.takeWhile (fun y => !min.less (sl.obs.st y).KeyRank) ++
        (ts.dropWhile (fun y => !min.less (sl.obs.st y).KeyRank)).drop C.length) ∧
      sl'.obs.st = sl.obs.st ∧ sl'.obs.next = sl.obs.next := by
  have hsplit := List.takeWhile_append_dropWhile
    (fun y => !min.less (sl.obs.st y).KeyRank) ts
  have hA : ∀ a ∈ ts.takeWhile (fun y => !min.less (sl.obs.st y).KeyRank),
      (!min.less (sl.mem a).KeyRank) = true :=
    fun a ha => List.mem_takeWhile_imp (p := fun y => !min.less (sl.obs.st y).KeyRank) ha
  have hB : ∀ b ∈ ts.dropWhile (fun y => !min.less (sl.obs.st y).KeyRank),
      (!min.less (sl.mem b).KeyRank) = false :=
    dropWhile_mono (fun a b => storeLE (sl.obs.st a) (sl.obs.st b))
      (fun y => !min.less (sl.obs.st y).KeyRank)
      (by
        intro a b hab hb
        have hle : (sl.obs.st a).KeyRank ≤ (sl.obs.st b).KeyRank := storeLE_le hab
        by_contra hc
        have hla : min.less (sl.obs.st a).KeyRank = true := by simpa using hc
        have := hmono _ _ hle hla
        simp [this] at hb)
      ts hinv.sorted
  rw [← hsplit] at hinv
  obtain ⟨u, r, update, rank, hd, hpred, _, _, _, hf0, hu⟩ := descend_top sl
    (fun _ f => !min.less f.KeyRank) _ _ hinv
    (CondOn_const sl.mem _ true _ _ hA) (CondOn_const sl.mem _ false _ _ hB)
  have hnl : ¬ maxLevel < sl.level := by
    have := hinv.level_le; show ¬ maxLevel < sl.obs.level; omega
  have hg := getLevel_eq sl u 0 hu
  obtain ⟨sl', C, hpre, hC, e, hinv', hst, hnx⟩ := removeByScoreLoop_spec max limit update
    (ts.takeWhile (fun y => !min.less (sl.obs.st y).KeyRank))
    (ts.dropWhile (fun y => !min.less (sl.obs.st y).KeyRank)) sl.next sl [] hinv
    (fun j hj => by obtain ⟨v, hv, hp⟩ := hpred j hj; exact ⟨v, rank j, hv, hp⟩)
    (by have := hinv.len_lt; simp only [List.length_append] at this; show _ < sl.obs.next; omega)
  refine ⟨sl', C, hpre, ?_, ?_, hinv', hst, hnx⟩
  · rw [hC]
    simp only [List.length_nil, Nat.cast_zero, sub_zero]
    by_cases h : 0 < limit
    · simp [h]
    · simp [h]
  · simp only [SSFreeSkiplist.RemoveRangeByScore, hnl, if_false, hd, hg, hf0]
    rw [e]; simp

omit [LinearOrder S] in
theorem CondOn_rank_true (mem : Nat → node S) (start : Int) (l : List Nat) (q : Int)
    (h : q + l.length ≤ start) : CondOn mem (fun q _ => decide (q < start)) true q l := by
  induction l generalizing q with
  | nil => trivial
  | cons a l ih =>
    rw [CondOn_cons]
    simp only [List.length_cons] at h
    push_cast at h
    exact ⟨by simp; omega, ih (q + 1) (by omega)⟩

omit [LinearOrder S] in
theorem CondOn_rank_false (mem : Nat → node S) (start : Int) (l : List Nat) (q : Int)
    (h : start ≤ q) : CondOn mem (fun q _ => decide (q < start)) false q l := by
  induction l generalizing q with
  | nil => trivial
  | cons a l ih =>
    rw [CondOn_cons]
    exact ⟨by simp; omega, ih (q + 1) (by omega)⟩

theorem removeByRankLoop_spec (stop : Int) (update : Nat → Option Nat) (A : List Nat) :
    ∀ (Bc : List Nat) (fuel : Nat) (sl : SSFreeSkiplist S) (i : Int)
      (removed : List (store S)),
      Inv sl.obs (A ++ Bc) →
      (∀ j, j < sl.obs.level →
        ∃ v r, update j = some v ∧ IsPred sl.obs (sl.obs.header :: A) j v r) →
      Bc.length < fuel →
      ∃ sl',
        SSFreeSkiplist.removeByRankLoop stop update fuel sl Bc.head? i removed =
          .ok (sl', removed ++ (Bc.take (stop - i).toNat).map sl.obs.st) ∧
        Inv sl'.obs (A ++ Bc.drop (stop - i).toNat) ∧
        sl'.obs.st = sl.obs.st ∧ sl'.obs.next = sl.obs.next := by
  intro Bc
  induction Bc with
  | nil =>
    intro fuel sl i removed hinv _ hfuel
    obtain ⟨f, rfl⟩ : ∃ f, fuel = f + 1 := ⟨fuel - 1, by simp at hfuel; omega⟩
    refine ⟨sl, ?_, by simpa using hinv, rfl, rfl⟩
    simp [SSFreeSkiplist.removeByRankLoop]
  | cons t B ih =>
    intro fuel sl i removed hinv hP hfuel
    obtain ⟨f, rfl⟩ : ∃ f, fuel = f + 1 := ⟨fuel - 1, by simp at hfuel; omega⟩
    by_cases hi : i < stop
    · obtain ⟨hlv, sl1, e1, hinv1, hst1, hnx1, hP1⟩ := removeNode_step sl A B t update hinv hP
      obtain ⟨sl', e2, hinv2, hst2, hnx2⟩ :=
        ih f sl1 (i + 1) (removed ++ [(sl.mem t).tostore]) hinv1 hP1 (by simp at hfuel; omega)
      have h3 : (stop - i).toNat = (stop - (i + 1)).toNat + 1 := by omega
      refine ⟨sl', ?_, ?_, by rw [hst2, hst1], by rw [hnx2, hnx1]⟩
      · simp only [SSFreeSkiplist.removeByRankLoop, List.head?_cons, hi, if_true, hlv, e1]
        rw [e2, hst1, h3]
        simp [mem_st]
      · rw [h3]; simpa using hinv2
    · have h3 : (stop - i).toNat = 0 := by omega
      refine ⟨sl, ?_, by rw [h3]; simpa using hinv, rfl, rfl⟩
      simp [SSFreeSkiplist.removeByRankLoop, hi, h3]

theorem RemoveRangeByRank_spec (sl : SSFreeSkiplist S) (ts : List Nat) (start stop : Int)
    (hinv : Inv sl.obs ts) :
    ∃ sl',
      sl.RemoveRangeByRank start stop =
        .ok (sl', (((ts.drop (start - 1).toNat).take
          (stop - ((ts.take (start - 1).toNat).length + 1)).toNat).map sl.obs.st)) ∧
      Inv sl'.obs (ts.take (start - 1).toNat ++
        (ts.drop (start - 1).toNat).drop
          (stop - ((ts.take (start - 1).toNat).length + 1)).toNat) ∧
      sl'.obs.st = sl.obs.st ∧ sl'.obs.next = sl.obs.next := by
  have hsplit := List.take_append_drop (start - 1).toNat ts
  rw [← hsplit] at hinv
  have hlen : (ts.take (start - 1).toNat).length ≤ (start - 1).toNat := by
    simp
  have hT : CondOn sl.mem (fun q _ => decide (q < start)) true 1
      (ts.take (start - 1).toNat) := by
    cases hA : ts.take (start - 1).toNat with
    | nil => trivial
    | cons a A =>
      rw [hA] at hlen
      refine CondOn_rank_true sl.mem start _ 1 ?_
      simp only [List.length_cons] at hlen ⊢
      push_cast
      omega
  have hF : CondOn sl.mem (fun q _ => decide (q < start)) false
      ((ts.take (start - 1).toNat).length + 1) (ts.drop (start - 1).toNat) := by
    cases hB : ts.drop (start - 1).toNat with
    | nil => trivial
    | cons b B =>
      rw [← hB]
      refine CondOn_rank_false sl.mem start _ _ ?_
      have h1 : (start - 1).toNat < ts.length := by
        by_contra hc
        rw [List.drop_eq_nil_of_le (by omega)] at hB
        cases hB
      have h2 : (ts.take (start - 1).toNat).length = (start - 1).toNat := by
        rw [List.length_take]; omega
      rw [h2]
      omega
  obtain ⟨u, r, update, rank, hd, hpred, _, _, hr, hf0, hu⟩ := descend_top sl
    (fun q _ => decide (q < start)) _ _ hinv hT hF
  have hnl : ¬ maxLevel < sl.level := by
    have := hinv.level_le; show ¬ maxLevel < sl.obs.level; omega
  have hg := getLevel_eq sl u 0 hu
  obtain ⟨sl', e, hinv', hst, hnx⟩ := removeByRankLoop_spec stop update
    (ts.take (start - 1).toNat) (ts.drop (start - 1).toNat) sl.next sl (r + 1) [] hinv
    (fun j hj => by obtain ⟨v, hv, hp⟩ := hpred j hj; exact ⟨v, rank j, hv, hp⟩)
    (by have := hinv.len_lt; simp only [List.length_append] at this; show _ < sl.obs.next; omega)
  rw [hr] at e hinv'
  refine ⟨sl', ?_, hinv', hst, hnx⟩
  simp only [SSFreeSkiplist.RemoveRangeByRank, hnl, if_false, hd, hg, hf0, hr]
  rw [e]; simp

end RangeRemoval

section ScoreRange

variable {S : Type} [LinearOrder S]

theorem less_mono (r : SSFreeRankInterval S) {a b : S} (h : a ≤ b)
    (ha : r.less a = true) : r.less b = true := by
  unfold SSFreeRankInterval.less at *
  split_ifs at ha ⊢ <;> simp_all
  · exact lt_of_lt_of_le ha h
  · exact le_trans ha h

theorem greater_anti (r : SSFreeRankInterval S) {a b : S} (h : a ≤ b)
    (hb : r.greater b = true) : r.greater a = true := by
  unfold SSFreeRankInterval.greater at *
  split_ifs at hb ⊢ <;> simp_all
  · exact lt_of_le_of_lt h hb
  · exact le_trans h hb

theorem storeLT_le {a b : store S} (h : storeLT a b) : a.KeyRank ≤ b.KeyRank := by
  rcases h with h | h
  · exact le_of_lt h
  · exact le_of_eq h.1

theorem header_fwd0 (o : Obs S) (ts : List Nat) (hinv : Inv o ts) :
    o.fwd o.header 0 = ts.head? := by
  have h := hinv.links
  rw [Links_cons] at h
  rw [(h.1 0 (by rw [hinv.hgt_header]; decide)).1]
  exact nxt_zero o.hgt ts hinv.hgt_pos

theorem hasInRange_spec (sl : SSFreeSkiplist S) (ts : List Nat)
    (min max : SSFreeRankInterval S) (hinv : Inv sl.obs ts) :
    ∃ b, sl.hasInRange min max = .ok b ∧
      (b = true ↔ ¬ valuesRejected min max ∧
        ∃ first last, ts.head? = some first ∧ ts.getLast? = some last ∧
          min.less (sl.obs.st last).KeyRank = true ∧
          max.greater (sl.obs.st first).KeyRank = true) := by
  have hh : 0 < sl.obs.hgt sl.obs.header := by rw [hinv.hgt_header]; decide
  have hg := getLevel_eq sl sl.obs.header 0 hh
  rw [header_fwd0 sl.obs ts hinv] at hg
  have htail : sl.tail = ts.getLast? := hinv.tail_eq
  by_cases hr : valuesRejected min max
  · refine ⟨false, ?_, by simp [hr]⟩
    have hr' := hr
    unfold valuesRejected at hr'
    simp only [SSFreeSkiplist.hasInRange, hr', if_true]
  · have hr' := hr
    unfold valuesRejected at hr'
    cases hl : ts.getLast? with
    | none =>
      refine ⟨false, ?_, by simp⟩
      simp only [SSFreeSkiplist.hasInRange, hr', if_false, htail, hl]
    | some last =>
      by_cases h1 : min.less (sl.obs.st last).KeyRank = true
      · have h1' : min.less (sl.mem last).KeyRank = true := by
          rw [mem_st]; exact h1
        cases hf : ts.head? with
        | none =>
          refine ⟨false, ?_, by simp⟩
          rw [hf] at hg
          have hhd : sl.header = sl.obs.header := rfl
          simp [SSFreeSkiplist.hasInRange, hr', htail, hl, h1', hhd, hg]
        | some first =>
          rw [hf] at hg
          have hhd : sl.header = sl.obs.header := rfl
          by_cases h2 : max.greater (sl.obs.st first).KeyRank = true
          · have h2' : max.greater (sl.mem first).KeyRank = true := by
              rw [mem_st]; exact h2
            refine ⟨true, ?_, by simp [hr, h1, h2]⟩
            simp [SSFreeSkiplist.hasInRange, hr', htail, hl, h1', hhd, hg, h2']
          · have h2' : max.greater (sl.mem first).KeyRank = false := by
              rw [mem_st]; simpa using h2
            refine ⟨false, ?_, by simp [h2]⟩
            simp [SSFreeSkiplist.hasInRange, hr', htail, hl, h1', hhd, hg, h2']
      · have h1' : min.less (sl.mem last).KeyRank = false := by
          rw [mem_st]; simpa using h1
        refine ⟨false, ?_, by simp [h1]⟩
        simp only [SSFreeSkiplist.hasInRange, hr', if_false, htail, hl, h1', if_true]

theorem sorted_head_le (o : Obs S) (ts : List Nat) (first x : Nat)
    (hs : ts.Pairwise (fun a b => storeLE (o.st a) (o.st b)))
    (hf : ts.head? = some first) (hx : x ∈ ts) : (o.st first).KeyRank ≤ (o.st x).KeyRank := by
  cases ts with
  | nil => simp at hf
  | cons a l =>
    simp only [List.head?_cons, Option.some.injEq] at hf
    subst hf
    rcases List.mem_cons.mp hx with rfl | hx
    · exact le_refl _
    · exact storeLE_le ((List.pairwise_cons.mp hs).1 x hx)

theorem sorted_le_last (o : Obs S) (ts : List Nat) (last x : Nat)
    (hs : ts.Pairwise (fun a b => storeLE (o.st a) (o.st b)))
    (hl : ts.getLast? = some last) (hx : x ∈ ts) : (o.st x).KeyRank ≤ (o.st last).KeyRank := by
  obtain ⟨init, rfl⟩ : ∃ init, ts = init ++ [last] := by
    have hne : ts ≠ [] := by intro h; rw [h] at hl; simp at hl
    refine ⟨ts.dropLast, ?_⟩
    have := List.dropLast_append_getLast hne
    rw [List.getLast?_eq_getLast _ hne] at hl
    simp only [Option.some.injEq] at hl
    rw [← hl]; exact this.symm
  rcases List.mem_append.mp hx with hx | hx
  · exact storeLE_le ((List.pairwise_append.mp hs).2.2 x hx last (by simp))
  · simp only [List.mem_singleton] at hx
    subst hx; exact le_refl _

theorem getFirstInScoreRange_spec (sl : SSFreeSkiplist S) (ts : List Nat)
    (min max : SSFreeRankInterval S) (hinv : Inv sl.obs ts) :
    sl.getFirstInScoreRange min max =
      .ok (if valuesRejected min max then none
        else ((ts.dropWhile (fun y => !min.less (sl.obs.st y).KeyRank)).head?).filter
          (fun f => max.greater (sl.obs.st f).KeyRank)) := by
  have hsplit := List.takeWhile_append_dropWhile
    (fun y => !min.less (sl.obs.st y).KeyRank) ts
  have hA : ∀ a ∈ ts.takeWhile (fun y => !min.less (sl.obs.st y).KeyRank),
      (!min.less (sl.mem a).KeyRank) = true :=
    fun a ha => List.mem_takeWhile_imp (p := fun y => !min.less (sl.obs.st y).KeyRank) ha
  have hB : ∀ b ∈ ts.dropWhile (fun y => !min.less (sl.obs.st y).KeyRank),
      (!min.less (sl.mem b).KeyRank) = false :=
    dropWhile_mono (fun a b => storeLE (sl.obs.st a) (sl.obs.st b))
      (fun y => !min.less (sl.obs.st y).KeyRank)
      (by
        intro a b hab hb
        by_contra hc
        have hla : min.less (sl.obs.st a).KeyRank = true := by simpa using hc
        have := less_mono min (storeLE_le hab) hla
        simp [this] at hb)
      ts hinv.sorted
  obtain ⟨b, hb, hbiff⟩ := hasInRange_spec sl ts min max hinv
  cases b with
  | false =>
    simp only [SSFreeSkiplist.getFirstInScoreRange, hb]
    by_cases hr : valuesRejected min max
    · simp [hr]
    · simp only [hr, if_false]
      cases hh : (ts.dropWhile (fun y => !min.less (sl.obs.st y).KeyRank)).head? with
      | none => rfl
      | some f =>
        have hfB := List.mem_of_mem_head? hh
        have hfts : f ∈ ts := by rw [← hsplit]; exact List.mem_append_right _ hfB
        have hlf : min.less (sl.obs.st f).KeyRank = true := by
          have := hB f hfB; simpa using this
        by_cases hg : max.greater (sl.obs.st f).KeyRank = true
        · exfalso
          have hne : ts ≠ [] := List.ne_nil_of_mem hfts
          obtain ⟨first, hfirst⟩ : ∃ first, ts.head? = some first := by
            cases ts with
            | nil => exact absurd rfl hne
            | cons a l => exact ⟨a, rfl⟩
          obtain ⟨last, hlast⟩ : ∃ last, ts.getLast? = some last :=
            ⟨_, List.getLast?_eq_getLast _ hne⟩
          have := hbiff.mpr ⟨hr, first, last, hfirst, hlast,
            less_mono min (sorted_le_last sl.obs ts last f hinv.sorted hlast hfts) hlf,
            greater_anti max (sorted_head_le sl.obs ts first f hinv.sorted hfirst hfts) hg⟩
          cases this
        · simp [Option.filter, hg]
  | true =>
    obtain ⟨hr, first, last, hfirst, hlast, hl1, hg1⟩ := hbiff.mp rfl
    have hinv' := hinv
    rw [← hsplit] at hinv'
    obtain ⟨u, r, update, rank, hd, _, _, _, _, hf0, hu⟩ := descend_top sl
      (fun _ f => !min.less f.KeyRank) _ _ hinv'
      (CondOn_const sl.mem _ true _ _ hA) (CondOn_const sl.mem _ false _ _ hB)
    have hg := getLevel_eq sl u 0 hu
    have hlastB : last ∈ ts.dropWhile (fun y => !min.less (sl.obs.st y).KeyRank) := by
      have hm : last ∈ ts := List.mem_of_mem_getLast? hlast
      rw [← hsplit] at hm
      rcases List.mem_append.mp hm with h | h
      · have := hA last h
        rw [mem_st, hl1] at this
        cases this
      · exact h
    obtain ⟨f, hf⟩ : ∃ f, (ts.dropWhile (fun y => !min.less (sl.obs.st y).KeyRank)).head?
        = some f := by
      cases hh : ts.dropWhile (fun y => !min.less (sl.obs.st y).KeyRank) with
      | nil => rw [hh] at hlastB; simp at hlastB
      | cons a l => exact ⟨a, rfl⟩
    simp only [SSFreeSkiplist.getFirstInScoreRange, hb, hd, hg, hf0, hf,
      SSFreeSkiplist.getNode, hr, if_false]
    by_cases hgf : max.greater (sl.obs.st f).KeyRank = true
    · have : max.greater (sl.mem f).KeyRank = true := hgf
      simp [this, Option.filter, hgf]
    · have : max.greater (sl.mem f).KeyRank = false := by
        rw [mem_st]; simpa using hgf
      simp [this, Option.filter, hgf]

theorem getLastInScoreRange_spec (sl : SSFreeSkiplist S) (ts : List Nat)
    (min max : SSFreeRankInterval S) (hinv : Inv sl.obs ts) :
    sl.getLastInScoreRange min max =
      .ok (if valuesRejected min max then none
        else ((ts.takeWhile (fun y => max.greater (sl.obs.st y).KeyRank)).getLast?).filter
          (fun u => min.less (sl.obs.st u).KeyRank)) := by
  have hsplit := List.takeWhile_append_dropWhile
    (fun y => max.greater (sl.obs.st y).KeyRank) ts
  have hA : ∀ a ∈ ts.takeWhile (fun y => max.greater (sl.obs.st y).KeyRank),
      max.greater (sl.mem a).KeyRank = true :=
    fun a ha => List.mem_takeWhile_imp (p := fun y => max.greater (sl.obs.st y).KeyRank) ha
  have hB : ∀ b ∈ ts.dropWhile (fun y => max.greater (sl.obs.st y).KeyRank),
      max.greater (sl.mem b).KeyRank = false :=
    dropWhile_mono (fun a b => storeLE (sl.obs.st a) (sl.obs.st b))
      (fun y => max.greater (sl.obs.st y).KeyRank)
      (fun a b hab hb => greater_anti max (storeLE_le hab) hb)
      ts hinv.sorted
  have hAts : ∀ a ∈ ts.takeWhile (fun y => max.greater (sl.obs.st y).KeyRank), a ∈ ts :=
    fun a ha => by rw [← hsplit]; exact List.mem_append_left _ ha
  obtain ⟨b, hb, hbiff⟩ := hasInRange_spec sl ts min max hinv
  cases b with
  | false =>
    simp only [SSFreeSkiplist.getLastInScoreRange, hb]
    by_cases hr : valuesRejected min max
    · simp [hr]
    · simp only [hr, if_false]
      cases hh : (ts.takeWhile (fun y => max.greater (sl.obs.st y).KeyRank)).getLast? with
      | none => rfl
      | some u =>
        have huA := List.mem_of_mem_getLast? hh
        have huts : u ∈ ts := hAts u huA
        have hgu : max.greater (sl.obs.st u).KeyRank = true := hA u huA
        by_cases hl : min.less (sl.obs.st u).KeyRank = true
        · exfalso
          have hne : ts ≠ [] := List.ne_nil_of_mem huts
          obtain ⟨first, hfirst⟩ : ∃ first, ts.head? = some first := by
            cases ts with
            | nil => exact absurd rfl hne
            | cons a l => exact ⟨a, rfl⟩
          obtain ⟨last, hlast⟩ : ∃ last, ts.getLast? = some last :=
            ⟨_, List.getLast?_eq_getLast _ hne⟩
          have := hbiff.mpr ⟨hr, first, last, hfirst, hlast,
            less_mono min (sorted_le_last sl.obs ts last u hinv.sorted hlast huts) hl,
            greater_anti max (sorted_head_le sl.obs ts first u hinv.sorted hfirst huts) hgu⟩
          cases this
        · simp [Option.filter, hl]
  | true =>
    obtain ⟨hr, first, last, hfirst, hlast, hl1, hg1⟩ := hbiff.mp rfl
    have hinv' := hinv
    rw [← hsplit] at hinv'
    obtain ⟨u, r, update, rank, hd, _, _, hulast, _, _, hu⟩ := descend_top sl
      (fun _ f => max.greater f.KeyRank) _ _ hinv'
      (CondOn_const sl.mem _ true _ _ hA) (CondOn_const sl.mem _ false _ _ hB)
    have hne : ts.takeWhile (fun y => max.greater (sl.obs.st y).KeyRank) ≠ [] := by
      cases ts with
      | nil => simp at hfirst
      | cons a l =>
        simp only [List.head?_cons, Option.some.injEq] at hfirst
        subst hfirst
        rw [List.takeWhile_cons_of_pos (p := fun y => max.greater (sl.obs.st y).KeyRank) hg1]
        simp
    have hu' : (ts.takeWhile (fun y => max.greater (sl.obs.st y).KeyRank)).getLast? = some u := by
      rw [hulast]
      cases hh : ts.takeWhile (fun y => max.greater (sl.obs.st y).KeyRank) with
      | nil => exact absurd hh hne
      | cons a l => simp [List.getLast?_cons_cons]
    simp only [SSFreeSkiplist.getLastInScoreRange, hb, hd, hu', hr, if_false]
    by_cases hl : min.less (sl.obs.st u).KeyRank = true
    · have : min.less (sl.mem u).KeyRank = true := hl
      simp [this, Option.filter, hl]
    · have : min.less (sl.mem u).KeyRank = false := by
        rw [mem_st]; simpa using hl
      simp [this, Option.filter, hl]


end ScoreRange

section Dict

variable {S : Type}

theorem dictGet_eq_none (d : List (GoString × store S)) (k : GoString) :
    dictGet d k = none ↔ k ∉ d.map Prod.fst := by
  induction d with
  | nil => simp [dictGet]
  | cons e d ih =>
    by_cases h : e.1 = k
    · simp [dictGet, h]
    · have : ¬ (k = e.1) := fun h' => h h'.symm
      simp [dictGet, h, ih, this]

theorem dictGet_eq_some (d : List (GoString × store S)) (k : GoString) (v : store S)
    (hnd : (d.map Prod.fst).Nodup) : dictGet d k = some v ↔ (k, v) ∈ d := by
  induction d with
  | nil => simp [dictGet]
  | cons e d ih =>
    rw [List.map_cons, List.nodup_cons] at hnd
    by_cases h : e.1 = k
    · simp only [dictGet, h, if_true, Option.some.injEq, List.mem_cons]
      constructor
      · intro hv; left; rw [← hv, ← h]
      · rintro (hv | hv)
        · rw [← hv]
        · exfalso
          apply hnd.1
          rw [h]
          exact List.mem_map.mpr ⟨(k, v), hv, rfl⟩
    · simp only [dictGet, h, if_false, List.mem_cons, ih hnd.2]
      constructor
      · intro hv; exact Or.inr hv
      · rintro (hv | hv)
        · exfalso; apply h; rw [← hv]
        · exact hv

theorem dictDelete_absent (d : List (GoString × store S)) (k : GoString)
    (h : k ∉ d.map Prod.fst) : dictDelete d k = d := by
  unfold dictDelete
  rw [List.filter_eq_self]
  intro e he
  have : e.1 ≠ k := fun hk => h (List.mem_map.mpr ⟨e, he, hk⟩)
  simpa using this

theorem dictDelete_keys (d : List (GoString × store S)) (k : GoString) :
    k ∉ (dictDelete d k).map Prod.fst := by
  unfold dictDelete
  intro h
  obtain ⟨e, he, hk⟩ := List.mem_map.mp h
  have := (List.mem_filter.mp he).2
  simp [hk] at this

theorem dictDelete_sublist (d : List (GoString × store S)) (k : GoString) :
    (dictDelete d k).Sublist d := List.filter_sublist _

theorem dictDelete_nodup (d : List (GoString × store S)) (k : GoString)
    (hnd : (d.map Prod.fst).Nodup) : ((dictDelete d k).map Prod.fst).Nodup :=
  hnd.sublist ((dictDelete_sublist d k).map _)

theorem dictDelete_perm (d : List (GoString × store S)) (k : GoString) (v : store S)
    (hnd : (d.map Prod.fst).Nodup) (h : (k, v) ∈ d) :
    d.Perm ((k, v) :: dictDelete d k) := by
  induction d with
  | nil => simp at h
  | cons e d ih =>
    rw [List.map_cons, List.nodup_cons] at hnd
    rcases List.mem_cons.mp h with h | h
    · subst h
      have : dictDelete ((k, v) :: d) k = d := by
        unfold dictDelete
        rw [List.filter_cons_of_neg (by simp)]
        exact dictDelete_absent d k hnd.1
      rw [this]
    · have hne : e.1 ≠ k := by
        intro hk
        apply hnd.1
        rw [hk]
        exact List.mem_map.mpr ⟨(k, v), h, rfl⟩
      have : dictDelete (e :: d) k = e :: dictDelete d k := by
        unfold dictDelete
        rw [List.filter_cons_of_pos (by simpa using hne)]
      rw [this]
      exact ((ih hnd.2 h).cons e).trans (List.Perm.swap _ _ _)

theorem dictGet_delete_ne (d : List (GoString × store S)) (k k' : GoString) (h : k' ≠ k) :
    dictGet (dictDelete d k) k' = dictGet d k' := by
  induction d with
  | nil => rfl
  | cons e d ih =>
    by_cases he : e.1 = k
    · have : dictDelete (e :: d) k = dictDelete d k := by
        unfold dictDelete
        rw [List.filter_cons_of_neg (by simp [he])]
      have hne : ¬ e.1 = k' := fun h' => h (h'.symm.trans he)
      rw [this, ih]
      simp [dictGet, hne]
    · have : dictDelete (e :: d) k = e :: dictDelete d k := by
        unfold dictDelete
        rw [List.filter_cons_of_pos (by simpa using he)]
      rw [this]
      simp only [dictGet, ih]

theorem dictGet_delete_self (d : List (GoString × store S)) (k : GoString) :
    dictGet (dictDelete d k) k = none :=
  (dictGet_eq_none _ _).mpr (dictDelete_keys d k)

theorem dictGet_set_self (d : List (GoString × store S)) (k : GoString) (v : store S) :
    dictGet (dictSet d k v) k = some v := by
  simp [dictSet, dictGet]

theorem dictGet_set_ne (d : List (GoString × store S)) (k k' : GoString) (v : store S)
    (h : k' ≠ k) : dictGet (dictSet d k v) k' = dictGet d k' := by
  have : ¬ k = k' := fun h' => h h'.symm
  simp only [dictSet, dictGet, this, if_false]
  exact dictGet_delete_ne d k k' h

end Dict

section Facade

variable {S : Type} [LinearOrder S] [Zero S]

omit [LinearOrder S] [Zero S] in
theorem keyed_mem (d : List (GoString × store S)) (hk : ∀ e ∈ d, e.2.Key = e.1)
    (v : store S) (hv : v ∈ d.map Prod.snd) : (v.Key, v) ∈ d := by
  obtain ⟨e, he, rfl⟩ := List.mem_map.mp hv
  have := hk e he
  rw [this]
  exact he

omit [LinearOrder S] [Zero S] in
theorem dictDeleteAll_spec (R : List (store S)) :
    ∀ (d : List (GoString × store S)) (T : List (store S)),
      (d.map Prod.fst).Nodup → (∀ e ∈ d, e.2.Key = e.1) →
      (d.map Prod.snd).Perm (R ++ T) →
      ((dictDeleteAll d R).map Prod.fst).Nodup ∧
      (∀ e ∈ dictDeleteAll d R, e.2.Key = e.1) ∧
      ((dictDeleteAll d R).map Prod.snd).Perm T ∧
      (∀ k, dictGet (dictDeleteAll d R) k =
        if k ∈ R.map (fun v => v.Key) then none else dictGet d k) := by
  induction R with
  | nil =>
    intro d T hnd hk hp
    exact ⟨hnd, hk, hp, fun k => by simp [dictDeleteAll]⟩
  | cons v R ih =>
    intro d T hnd hk hp
    have hv : (v.Key, v) ∈ d := keyed_mem d hk v (hp.symm.subset (by simp))
    have h1 := dictDelete_perm d v.Key v hnd hv
    have h2 : ((dictDelete d v.Key).map Prod.snd).Perm (R ++ T) := by
      have := (h1.map Prod.snd).symm.trans hp
      exact List.Perm.cons_inv this
    obtain ⟨a, b, c, e⟩ := ih (dictDelete d v.Key) T (dictDelete_nodup d _ hnd)
      (fun e he => hk e ((dictDelete_sublist d _).subset he)) h2
    refine ⟨a, b, c, ?_⟩
    intro k
    have : dictDeleteAll d (v :: R) = dictDeleteAll (dictDelete d v.Key) R := rfl
    rw [this, e k]
    by_cases hkv : k = v.Key
    · subst hkv
      simp [dictGet_delete_self]
    · simp [hkv, dictGet_delete_ne d v.Key k hkv]

omit [Zero S] in
theorem SetInv.fresh {s : SortedSet S} {ts : List Nat} (h : SetInv s ts) (key : GoString)
    (score : S) (hk : ∀ v, (key, v) ∈ s.dict → v.KeyRank ≠ score) :
    ∀ x ∈ ts, s.SSFreeSkiplist.obs.st x ≠ ⟨key, score⟩ := by
  intro x hx he
  have h1 : s.SSFreeSkiplist.obs.st x ∈ s.dict.map Prod.snd :=
    h.perm.symm.subset (List.mem_map.mpr ⟨x, hx, rfl⟩)
  have h2 := keyed_mem s.dict h.keyed _ h1
  rw [he] at h2
  exact hk _ h2 rfl

theorem SetInv_insert (d : List (GoString × store S)) (sl : SSFreeSkiplist S)
    (ts : List Nat) (r : Nat) (key : GoString) (score : S)
    (h : SetInv { dict := d, SSFreeSkiplist := sl } ts) (hr : randomLevel r ≤ maxLevel)
    (hk : key ∉ d.map Prod.fst) :
    ∃ sl' A B, ts = A ++ B ∧ sl.insert r key score = .ok (sl', sl.next) ∧
      SetInv { dict := (key, ⟨key, score⟩) :: d, SSFreeSkiplist := sl' }
        (A ++ sl.next :: B) ∧
      (∀ a ∈ A, storeLT (sl.obs.st a) ⟨key, score⟩) ∧
      (∀ b ∈ B, storeLE ⟨key, score⟩ (sl.obs.st b)) ∧
      (∀ y, sl'.obs.st y = if y = sl.next then ⟨key, score⟩ else sl.obs.st y) := by
  obtain ⟨sl', A, B, hts, hins, hinv, hA, hB, hst⟩ :=
    insert_spec sl ts r key score h.inv hr
  refine ⟨sl', A, B, hts, hins, ⟨hinv, ?_, ?_, ?_⟩, hA, hB, hst⟩
  · exact List.nodup_cons.mpr ⟨hk, h.keys⟩
  · intro e he
    rcases List.mem_cons.mp he with he | he
    · rw [he]
    · exact h.keyed e he
  · have hlt : ∀ y ∈ ts, sl'.obs.st y = sl.obs.st y := by
      intro y hy
      have : y ≠ sl.next := Nat.ne_of_lt (h.inv.mem_lt y hy)
      rw [hst, if_neg this]
    have hmap : ts.map sl'.obs.st = ts.map sl.obs.st := List.map_congr_left hlt
    have e1 : (A ++ sl.next :: B).map sl'.obs.st =
        A.map sl'.obs.st ++ (⟨key, score⟩ : store S) :: B.map sl'.obs.st := by
      rw [List.map_append, List.map_cons, hst sl.next, if_pos rfl]
    show (((key, (⟨key, score⟩ : store S)) :: d).map Prod.snd).Perm
      ((A ++ sl.next :: B).map sl'.obs.st)
    rw [e1, List.map_cons]
    refine List.Perm.trans ?_ List.perm_middle.symm
    refine List.Perm.cons _ ?_
    rw [← List.map_append, ← hts, hmap]
    exact h.perm

omit [Zero S] in
theorem SetInv_removed (d : List (GoString × store S)) (sl sl' : SSFreeSkiplist S)
    (ts C ts' : List Nat) (h : SetInv { dict := d, SSFreeSkiplist := sl } ts)
    (hperm : ts.Perm (C ++ ts')) (hinv : Inv sl'.obs ts') (hst : sl'.obs.st = sl.obs.st) :
    SetInv { dict := dictDeleteAll d (C.map sl.obs.st), SSFreeSkiplist := sl' } ts' := by
  have hp : (d.map Prod.snd).Perm (C.map sl.obs.st ++ ts'.map sl.obs.st) := by
    rw [← List.map_append]
    exact h.perm.trans (hperm.map _)
  obtain ⟨a, b, c, _⟩ := dictDeleteAll_spec (C.map sl.obs.st) d _ h.keys h.keyed hp
  refine ⟨hinv, a, b, ?_⟩
  show ((dictDeleteAll d (C.map sl.obs.st)).map Prod.snd).Perm (ts'.map sl'.obs.st)
  rw [hst]
  exact c

theorem makeSSFreeSkiplist_Inv : Inv (makeSSFreeSkiplist : SSFreeSkiplist S).obs [] := by
  refine ⟨?_, ?_, ?_, ?_, ?_, ?_, ?_, ?_, ?_, ?_, ⟨fun i hi => ?_, trivial⟩, ?_, ?_, ?_, ?_, rfl⟩
  case refine_11 =>
    have hi' : i < maxLevel := by
      simpa [makeSSFreeSkiplist, SSFreeSkiplist.obs, makeNode] using hi
    simp [makeSSFreeSkiplist, SSFreeSkiplist.obs, makeNode, List.getElem?_replicate, hi']
  all_goals first
    | (intro x hx; cases hx)
    | decide
    | simp [makeSSFreeSkiplist, SSFreeSkiplist.obs, makeNode, Backs, maxLevel]

theorem Make_SetInv : SetInv (Make : SortedSet S) [] :=
  ⟨makeSSFreeSkiplist_Inv, List.nodup_nil, fun _ he => (by cases he), List.Perm.refl _⟩

omit [Zero S] in
theorem insert_overflow (sl : SSFreeSkiplist S) (r : Nat) (key : GoString) (score : S)
    (hr : maxLevel < randomLevel r) : ∃ e, sl.insert r key score = .error e := by
  unfold SSFreeSkiplist.insert
  by_cases hl : maxLevel < sl.level
  · exact ⟨_, if_pos hl⟩
  · rw [if_neg hl]
    cases hd : sl.descend (fun _ f => before key score f) sl.level sl.header 0
        (fun _ => none) (fun _ => 0) with
    | error e => exact ⟨e, rfl⟩
    | ok v =>
      obtain ⟨a, b, update, rank⟩ := v
      have hlt : sl.level < randomLevel r := by omega
      have hg : insertGrow sl update rank (randomLevel r) = .error Err.indexOutOfRange := by
        simp only [insertGrow, hlt, hr, if_true]
      exact ⟨Err.indexOutOfRange, by simp only [hg]⟩

theorem Add_spec (s : SortedSet S) (ts : List Nat) (r : Nat) (key : GoString) (score : S)
    (h : SetInv s ts)
    (hr : randomLevel r ≤ maxLevel ∨ dictGet s.dict key = some ⟨key, score⟩) :
    ∃ s' ts', s.Add r key score = .ok (s', (dictGet s.dict key).isNone) ∧ SetInv s' ts' ∧
      s'.dict = dictSet s.dict key ⟨key, score⟩ := by
  obtain ⟨d, sl⟩ := s
  dsimp only at hr ⊢
  cases hg : dictGet d key with
  | none =>
    have hr' : randomLevel r ≤ maxLevel := by
      rcases hr with hr | hr
      · exact hr
      · rw [hg] at hr
        cases hr
    have hk : key ∉ d.map Prod.fst := (dictGet_eq_none d key).mp hg
    obtain ⟨sl', A, B, _, hins, hset, _⟩ := SetInv_insert d sl ts r key score h hr' hk
    refine ⟨{ dict := dictSet d key ⟨key, score⟩, SSFreeSkiplist := sl' }, A ++ sl.next :: B,
      ?_, ?_, rfl⟩
    · simp only [SortedSet.Add, hg, hins, Option.isNone]
    · simpa only [dictSet, dictDelete_absent d key hk] using hset
  | some element =>
    have hmem : (key, element) ∈ d := (dictGet_eq_some d key element h.keys).mp hg
    have hkey : element.Key = key := h.keyed _ hmem
    have hperm := dictDelete_perm d key element h.keys hmem
    by_cases hsc : score = element.KeyRank
    · have hel : element = ⟨key, score⟩ := by
        cases element
        simp only at hkey hsc
        rw [hkey, hsc]
      refine ⟨{ dict := dictSet d key ⟨key, score⟩, SSFreeSkiplist := sl }, ts, ?_, ?_, rfl⟩
      · simp only [SortedSet.Add, hg, hsc, ne_eq, not_true_eq_false, if_false, Option.isNone]
      · refine ⟨h.inv, ?_, ?_, ?_⟩
        · exact List.nodup_cons.mpr ⟨dictDelete_keys d key, dictDelete_nodup d key h.keys⟩
        · intro e he
          rcases List.mem_cons.mp he with he | he
          · rw [he]
          · exact h.keyed e ((dictDelete_sublist d key).subset he)
        · show ((dictSet d key ⟨key, score⟩).map Prod.snd).Perm (ts.map sl.obs.st)
          rw [← hel]
          exact (hperm.symm.map Prod.snd).trans h.perm
    · have hr' : randomLevel r ≤ maxLevel := by
        rcases hr with hr | hr
        · exact hr
        · rw [hg] at hr
          exact absurd (congrArg store.KeyRank (Option.some.inj hr)).symm hsc
      have hel : element = ⟨key, element.KeyRank⟩ := by
        cases element
        simp only at hkey
        rw [hkey]
      rcases remove_spec sl ts key element.KeyRank h.inv with
        ⟨sl1, A, t, B, hts, hst, hrem, hinv1, hst1, hn1⟩ | ⟨habs, _⟩
      · have hset1 : SetInv { dict := dictDelete d key, SSFreeSkiplist := sl1 } (A ++ B) := by
          have := SetInv_removed d sl sl1 ts [t] (A ++ B) h
            (by rw [hts]; exact List.perm_middle) hinv1 hst1
          rw [List.map_singleton, hst, ← hel] at this
          rw [← hkey]
          exact this
        obtain ⟨sl', A', B', _, hins, hset, _⟩ :=
          SetInv_insert _ sl1 (A ++ B) r key score hset1 hr' (dictDelete_keys d key)
        refine ⟨{ dict := dictSet d key ⟨key, score⟩, SSFreeSkiplist := sl' },
          A' ++ sl1.next :: B', ?_, hset, rfl⟩
        simp only [SortedSet.Add, hg, ne_eq, hsc, not_false_eq_true, if_true, hrem, hins,
          Option.isNone]
      · exfalso
        have h1 : element ∈ ts.map sl.obs.st :=
          h.perm.subset (List.mem_map.mpr ⟨_, hmem, rfl⟩)
        obtain ⟨x, hx, he⟩ := List.mem_map.mp h1
        exact habs x hx (he.trans hel)

omit [Zero S] in
theorem Remove_spec (s : SortedSet S) (ts : List Nat) (key : GoString) (h : SetInv s ts) :
    ∃ s' ts', s.Remove key = .ok (s', (dictGet s.dict key).isSome) ∧ SetInv s' ts' ∧
      s'.dict = dictDelete s.dict key ∧ ts'.Sublist ts ∧
      s'.SSFreeSkiplist.obs.st = s.SSFreeSkiplist.obs.st := by
  obtain ⟨d, sl⟩ := s
  dsimp only
  cases hg : dictGet d key with
  | none =>
    refine ⟨{ dict := d, SSFreeSkiplist := sl }, ts, ?_, h, ?_, List.Sublist.refl _, rfl⟩
    · simp only [SortedSet.Remove, hg, Option.isSome]
    · exact (dictDelete_absent d key ((dictGet_eq_none d key).mp hg)).symm
  | some element =>
    have hmem : (key, element) ∈ d := (dictGet_eq_some d key element h.keys).mp hg
    have hkey : element.Key = key := h.keyed _ hmem
    have hel : element = ⟨key, element.KeyRank⟩ := by
      cases element
      simp only at hkey
      rw [hkey]
    rcases remove_spec sl ts key element.KeyRank h.inv with
      ⟨sl1, A, t, B, hts, hst, hrem, hinv1, hst1, hn1⟩ | ⟨habs, _⟩
    · have hset1 : SetInv { dict := dictDelete d key, SSFreeSkiplist := sl1 } (A ++ B) := by
        have := SetInv_removed d sl sl1 ts [t] (A ++ B) h
          (by rw [hts]; exact List.perm_middle) hinv1 hst1
        rw [List.map_singleton, hst, ← hel] at this
        rw [← hkey]
        exact this
      refine ⟨{ dict := dictDelete d key, SSFreeSkiplist := sl1 }, A ++ B, ?_, hset1, rfl,
        ?_, hst1⟩
      · simp only [SortedSet.Remove, hg, hrem, Option.isSome]
      · rw [hts]
        exact List.Sublist.append_left (List.sublist_cons_self t B) A
    · exfalso
      have h1 : element ∈ ts.map sl.obs.st :=
        h.perm.subset (List.mem_map.mpr ⟨_, hmem, rfl⟩)
      obtain ⟨x, hx, he⟩ := List.mem_map.mp h1
      exact habs x hx (he.trans hel)

omit [Zero S] in
theorem scoreRemoval_SetInv (d : List (GoString × store S)) (sl : SSFreeSkiplist S)
    (ts : List Nat) (min max : SSFreeRankInterval S) (limit : Int)
    (h : SetInv { dict := d, SSFreeSkiplist := sl } ts) :
    ∃ (sl' : SSFreeSkiplist S) (C ts' : List Nat), sl.RemoveRangeByScore min max limit = .ok (sl', C.map sl.obs.st) ∧
      SetInv { dict := dictDeleteAll d (C.map sl.obs.st), SSFreeSkiplist := sl' } ts' := by
  obtain ⟨sl', C, hpre, _, hrun, hinv, hst, _⟩ :=
    RemoveRangeByScore_spec sl ts min max limit h.inv (fun a b hab ha => less_mono min hab ha)
  refine ⟨sl', C, _, hrun, SetInv_removed d sl sl' ts C _ h ?_ hinv hst⟩
  obtain ⟨R, hR⟩ := hpre
  have hsplit := List.takeWhile_append_dropWhile
    (fun y => !min.less (sl.obs.st y).KeyRank) ts
  rw [← hR, List.drop_left]
  nth_rewrite 1 [← hsplit]
  rw [← hR]
  exact List.perm_append_comm_assoc _ _ _

omit [Zero S] in
theorem RemoveByScore_spec (s : SortedSet S) (ts : List Nat) (min max : SSFreeRankInterval S)
    (h : SetInv s ts) : ∃ s' ts' n, s.RemoveByScore min max = .ok (s', n) ∧ SetInv s' ts' := by
  obtain ⟨d, sl⟩ := s
  obtain ⟨sl', C, ts', hrun, hset⟩ := scoreRemoval_SetInv d sl ts min max 0 h
  exact ⟨{ dict := dictDeleteAll d (C.map sl.obs.st), SSFreeSkiplist := sl' }, ts',
    ((C.map sl.obs.st).length : Int), by simp only [SortedSet.RemoveByScore, hrun], hset⟩

omit [Zero S] in
theorem RemoveByRank_spec (s : SortedSet S) (ts : List Nat) (start stop : Int)
    (h : SetInv s ts) : ∃ s' ts' n, s.RemoveByRank start stop = .ok (s', n) ∧ SetInv s' ts' := by
  obtain ⟨d, sl⟩ := s
  obtain ⟨sl', hrun, hinv, hst, _⟩ := RemoveRangeByRank_spec sl ts (start + 1) (stop + 1) h.inv
  refine ⟨{ dict := dictDeleteAll d _, SSFreeSkiplist := sl' }, _, _,
    by simp only [SortedSet.RemoveByRank, hrun]; rfl,
    SetInv_removed d sl sl' ts _ _ h ?_ hinv hst⟩
  nth_rewrite 1 [← List.take_append_drop (start + 1 - 1).toNat ts]
  nth_rewrite 1 [← List.take_append_drop
    (stop + 1 - (((ts.take (start + 1 - 1).toNat).length : Int) + 1)).toNat
    (ts.drop (start + 1 - 1).toNat)]
  exact List.perm_append_comm_assoc _ _ _

theorem PopMin_spec (s : SortedSet S) (ts : List Nat) (count : Int)
    (h : SetInv s ts) : ∃ s' ts' l, s.PopMin count = .ok (s', l) ∧ SetInv s' ts' := by
  obtain ⟨d, sl⟩ := s
  have hfirst := getFirstInScoreRange_spec sl ts NegativeInfinityExtremum
    PositiveInfinityExtremum h.inv
  cases hv : (if valuesRejected (NegativeInfinityExtremum : SSFreeRankInterval S)
      PositiveInfinityExtremum then none
    else ((ts.dropWhile (fun y => !(NegativeInfinityExtremum : SSFreeRankInterval S).less
        (sl.obs.st y).KeyRank)).head?).filter
      (fun f => (PositiveInfinityExtremum : SSFreeRankInterval S).greater
        (sl.obs.st f).KeyRank)) with
  | none =>
    rw [hv] at hfirst
    exact ⟨{ dict := d, SSFreeSkiplist := sl }, ts, [],
      by simp only [SortedSet.PopMin, hfirst], h⟩
  | some first =>
    rw [hv] at hfirst
    obtain ⟨sl', C, ts', hrun, hset⟩ := scoreRemoval_SetInv d sl ts
      { limit := 0, Value := (sl.mem first).KeyRank, isOpenInterval := false }
      PositiveInfinityExtremum count h
    exact ⟨{ dict := dictDeleteAll d (C.map sl.obs.st), SSFreeSkiplist := sl' }, ts',
      C.map sl.obs.st, by simp only [SortedSet.PopMin, hfirst, hrun], hset⟩

omit [Zero S] in
theorem Add_overflow (s : SortedSet S) (ts : List Nat) (r : Nat) (key : GoString) (score : S)
    (h : SetInv s ts) (hr : maxLevel < randomLevel r)
    (hne : dictGet s.dict key ≠ some ⟨key, score⟩) :
    ∃ e, s.Add r key score = .error e := by
  obtain ⟨d, sl⟩ := s
  dsimp only at hne
  cases hg : dictGet d key with
  | none =>
    obtain ⟨e, he⟩ := insert_overflow sl r key score hr
    exact ⟨e, by simp only [SortedSet.Add, hg, he]⟩
  | some element =>
    have hmem : (key, element) ∈ d := (dictGet_eq_some d key element h.keys).mp hg
    have hkey : element.Key = key := h.keyed _ hmem
    have hsc : score ≠ element.KeyRank := by
      intro hsc
      apply hne
      rw [hg]
      cases element
      simp only at hkey hsc
      rw [hkey, hsc]
    cases hrem : sl.remove key element.KeyRank with
    | error e => exact ⟨e, by simp only [SortedSet.Add, hg, ne_eq, hsc, not_false_eq_true,
        if_true, hrem]⟩
    | ok v =>
      obtain ⟨e, he⟩ := insert_overflow v.1 r key score hr
      exact ⟨e, by simp only [SortedSet.Add, hg, ne_eq, hsc, not_false_eq_true,
        if_true, hrem, he]⟩

theorem Reachable_SetInv (s : SortedSet S) (h : Reachable s) : ∃ ts, SetInv s ts := by
  induction h with
  | make => exact ⟨[], Make_SetInv⟩
  | @add s s' r key score b _ hrun ih =>
    obtain ⟨ts, hs⟩ := ih
    by_cases hr : randomLevel r ≤ maxLevel ∨ dictGet s.dict key = some ⟨key, score⟩
    · obtain ⟨s1, ts1, h1, h2, _⟩ := Add_spec s ts r key score hs hr
      rw [h1] at hrun
      cases hrun
      exact ⟨ts1, h2⟩
    · rw [not_or] at hr
      obtain ⟨e, he⟩ := Add_overflow s ts r key score hs (by omega) hr.2
      rw [he] at hrun
      cases hrun
  | @remove s s' key b _ hrun ih =>
    obtain ⟨ts, hs⟩ := ih
    obtain ⟨s1, ts1, h1, h2, _⟩ := Remove_spec s ts key hs
    rw [h1] at hrun
    cases hrun
    exact ⟨ts1, h2⟩
  | @removeByScore s s' min max n _ hrun ih =>
    obtain ⟨ts, hs⟩ := ih
    obtain ⟨s1, ts1, n1, h1, h2⟩ := RemoveByScore_spec s ts min max hs
    rw [h1] at hrun
    cases hrun
    exact ⟨ts1, h2⟩
  | @removeByRank s s' start stop n _ hrun ih =>
    obtain ⟨ts, hs⟩ := ih
    obtain ⟨s1, ts1, n1, h1, h2⟩ := RemoveByRank_spec s ts start stop hs
    rw [h1] at hrun
    cases hrun
    exact ⟨ts1, h2⟩
  | @popMin s s' count removed _ hrun ih =>
    obtain ⟨ts, hs⟩ := ih
    obtain ⟨s1, ts1, l1, h1, h2⟩ := PopMin_spec s ts count hs
    rw [h1] at hrun
    cases hrun
    exact ⟨ts1, h2⟩

omit [LinearOrder S] [Zero S] in
theorem walk_spec (sl : SSFreeSkiplist S) (L : List Nat) :
    Links sl.obs L → (∀ x ∈ L, 1 ≤ sl.obs.hgt x) → ∀ fuel, L.length < fuel →
      sl.walk fuel L.head? = .ok (L.map sl.obs.st) := by
  induction L with
  | nil =>
    intro _ _ fuel hf
    cases fuel with
    | zero => cases hf
    | succ k => rfl
  | cons a L ih =>
    intro hl hp fuel hf
    cases fuel with
    | zero => cases hf
    | succ k =>
      rw [Links_cons] at hl
      have h0 : 0 < sl.obs.hgt a := hp a (List.mem_cons_self _ _)
      have hfw : sl.obs.fwd a 0 = L.head? := by
        rw [(hl.1 0 h0).1]
        exact nxt_zero _ L (fun z hz => hp z (List.mem_cons_of_mem _ hz))
      have hrec := ih hl.2 (fun z hz => hp z (List.mem_cons_of_mem _ hz)) k
        (by simpa using hf)
      simp only [List.head?_cons, SSFreeSkiplist.walk, getLevel_eq sl a 0 h0, hfw, hrec,
        List.map_cons]
      rfl

omit [Zero S] in
theorem members_spec (sl : SSFreeSkiplist S) (ts : List Nat) (hinv : Inv sl.obs ts) :
    sl.members = .ok (ts.map sl.obs.st) := by
  have h0 : 0 < sl.obs.hgt sl.header := by
    rw [show sl.header = sl.obs.header from rfl, hinv.hgt_header]
    decide
  have hl := ((Links_cons _ _ _).mp hinv.links).2
  simp only [SSFreeSkiplist.members, getLevel_eq sl sl.header 0 h0]
  rw [show sl.obs.fwd sl.header 0 = ts.head? from header_fwd0 sl.obs ts hinv]
  exact walk_spec sl ts hl hinv.hgt_pos sl.next hinv.len_lt

omit [Zero S] in
theorem sorted_map (o : Obs S) (ts : List Nat)
    (h : ts.Pairwise (fun a b => storeLT (o.st a) (o.st b))) :
    (ts.map o.st).Pairwise storeLT :=
  List.pairwise_map.mpr h

omit [Zero S] in
theorem insertionSort_eq (l m : List (store S)) (hp : l.Perm m) (hm : m.Pairwise storeLT) :
    l.insertionSort storeLE = m := by
  haveI : IsTotal (store S) storeLE := ⟨fun a b => by
    rcases storeLT_total a b with h | h | h
    · exact Or.inl (Or.inl h)
    · exact Or.inl (Or.inr h)
    · exact Or.inr (Or.inl h)⟩
  haveI : IsTrans (store S) storeLE := ⟨fun a b c hab hbc => by
    rcases hab with hab | rfl
    · rcases hbc with hbc | rfl
      · exact Or.inl (storeLT_trans hab hbc)
      · exact Or.inl hab
    · exact hbc⟩
  haveI : IsAntisymm (store S) storeLE := ⟨fun a b hab hba => by
    rcases hab with hab | rfl
    · rcases hba with hba | rfl
      · exact (storeLT_asymm hab hba).elim
      · rfl
    · rfl⟩
  exact List.eq_of_perm_of_sorted ((List.perm_insertionSort storeLE l).trans hp)
    (List.sorted_insertionSort storeLE l) (hm.imp (fun h => Or.inl h))

omit [Zero S] in
theorem SetInv.strict {s : SortedSet S} {ts : List Nat} (h : SetInv s ts) :
    (ts.map s.SSFreeSkiplist.obs.st).Pairwise storeLT := by
  have hk : ((s.dict.map Prod.snd).map store.Key).Nodup := by
    have e : (s.dict.map Prod.snd).map store.Key = s.dict.map Prod.fst := by
      rw [List.map_map]
      exact List.map_congr_left (fun e he => h.keyed e he)
    rw [e]
    exact h.keys
  have hnd : (ts.map s.SSFreeSkiplist.obs.st).Nodup :=
    h.perm.nodup_iff.mp (List.Nodup.of_map _ hk)
  have hle : (ts.map s.SSFreeSkiplist.obs.st).Pairwise storeLE :=
    List.pairwise_map.mpr h.inv.sorted
  refine (hle.and hnd).imp ?_
  rintro a b ⟨hab | hab, hne⟩
  · exact hab
  · exact absurd hab hne

omit [Zero S] in
theorem SetInv.ascending_eq {s : SortedSet S} {ts : List Nat} (h : SetInv s ts) :
    s.ascending = ts.map s.SSFreeSkiplist.obs.st :=
  insertionSort_eq _ _ h.perm h.strict

omit [Zero S] in
theorem SetInv.length_eq {s : SortedSet S} {ts : List Nat} (h : SetInv s ts) :
    s.dict.length = ts.length := by
  have := h.perm.length_eq
  simpa using this

omit [Zero S] in
theorem Add_dict (s s' : SortedSet S) (r : Nat) (key : GoString) (score : S) (b : Bool)
    (h : s.Add r key score = .ok (s', b)) :
    s'.dict = dictSet s.dict key ⟨key, score⟩ ∧ b = (dictGet s.dict key).isNone := by
  unfold SortedSet.Add at h
  cases hg : dictGet s.dict key with
  | none =>
    rw [hg] at h
    dsimp only at h
    cases hi : s.SSFreeSkiplist.insert r key score with
    | error e => rw [hi] at h; cases h
    | ok v =>
      rw [hi] at h
      cases h
      exact ⟨rfl, rfl⟩
  | some element =>
    rw [hg] at h
    dsimp only at h
    by_cases hsc : score ≠ element.KeyRank
    · rw [if_pos hsc] at h
      cases hrem : s.SSFreeSkiplist.remove key element.KeyRank with
      | error e => rw [hrem] at h; cases h
      | ok v =>
        rw [hrem] at h
        dsimp only at h
        cases hi : v.1.insert r key score with
        | error e => rw [hi] at h; cases h
        | ok w =>
          rw [hi] at h
          cases h
          exact ⟨rfl, rfl⟩
    · rw [if_neg hsc] at h
      cases h
      exact ⟨rfl, rfl⟩

end Facade

section RankLookup

variable {S : Type} [LinearOrder S]

omit [LinearOrder S] in
theorem CondOn_le_true (mem : Nat → node S) (rank : Int) (l : List Nat) (q : Int)
    (h : q + l.length ≤ rank + 1) : CondOn mem (fun q _ => decide (q ≤ rank)) true q l := by
  induction l generalizing q with
  | nil => trivial
  | cons a l ih =>
    rw [CondOn_cons]
    simp only [List.length_cons] at h
    push_cast at h
    exact ⟨by simp; omega, ih (q + 1) (by omega)⟩

omit [LinearOrder S] in
theorem CondOn_le_false (mem : Nat → node S) (rank : Int) (l : List Nat) (q : Int)
    (h : rank < q) : CondOn mem (fun q _ => decide (q ≤ rank)) false q l := by
  induction l generalizing q with
  | nil => trivial
  | cons a l ih =>
    rw [CondOn_cons]
    exact ⟨by simp; omega, ih (q + 1) (by omega)⟩

omit [LinearOrder S] in
theorem getByRankLoop_spec (sl : SSFreeSkiplist S) (rank : Int) (R : List Nat) :
    ∀ (k x : Nat) (acc : Int) (P M : List Nat),
      k ≤ sl.obs.level → k ≤ sl.obs.hgt x →
      Links sl.obs (x :: (M ++ R)) →
      (∀ z ∈ M, sl.obs.hgt z ≤ k) → (∀ z ∈ M, 1 ≤ sl.obs.hgt z) →
      acc = P.length →
      (M = [] ∨ (P.length : Int) + M.length ≤ rank) →
      (k = 0 → acc ≠ rank) →
      CondOn sl.mem (fun q _ => decide (q ≤ rank)) false (acc + M.length + 1) R →
      M.length < sl.next →
      sl.getByRankLoop rank k x acc =
        .ok (if rank = (P.length : Int) + M.length then (x :: M).getLast? else none) := by
  intro k
  induction k with
  | zero =>
    intro x acc P M _ _ _ hM hpos hacc _ hne _ _
    have hM0 : M = [] := by
      cases M with
      | nil => rfl
      | cons a M =>
        have h1 := hM a (List.mem_cons_self _ _)
        have h2 := hpos a (List.mem_cons_self _ _)
        omega
    subst hM0
    have : ¬ rank = (P.length : Int) + (([] : List Nat).length : Int) := by
      have := hne rfl
      simp only [List.length_nil]
      push_cast
      omega
    rw [if_neg this]
    rfl
  | succ k ih =>
    intro x acc P M hk hx hl hM hpos hacc hle _ hF hfuel
    have hl0 := hl
    rw [Links_cons] at hl
    have hl1 := hl.1 k (by omega)
    have hT : CondOn sl.mem (fun q _ => decide (q ≤ rank)) true (acc + 1) M := by
      rcases hle with rfl | hle
      · trivial
      · exact CondOn_le_true _ _ _ _ (by omega)
    obtain ⟨u1, r1, hscan, hcase⟩ := scan_spec sl k (fun q _ => decide (q ≤ rank))
      (by omega) R M x acc 0 sl.next
      (by omega) hl1.1 (by rw [hl1.2 (by omega)]; ring) hl.2 hfuel (by simpa using hT)
      (by
        have := CondOn_nxt sl.mem (fun q _ => decide (q ≤ rank)) false sl.obs.hgt k R
          (acc + M.length) hF
        simpa using this)
    rcases hcase with ⟨rfl, rfl, hlow⟩ | ⟨M1, M2, rfl, h1, h2, h3⟩
    · by_cases hr : r1 = rank
      · have hM0 : M = [] := by
          rcases hle with h | h
          · exact h
          · exact List.length_eq_zero.mp (by omega)
        subst hM0
        simp only [SSFreeSkiplist.getByRankLoop, hscan]
        rw [if_pos hr, if_pos (by simp only [List.length_nil]; push_cast; omega)]
        rfl
      · simp only [SSFreeSkiplist.getByRankLoop, hscan]
        rw [if_neg hr]
        exact ih u1 r1 P M (by omega) (by omega) hl0 hlow hpos hacc hle (fun _ => hr) hF hfuel
    · have hlen : ((M1 ++ u1 :: M2).length : Int) = M1.length + 1 + M2.length := by
        simp only [List.length_append, List.length_cons]
        push_cast
        ring
      have hle' : (P.length : Int) + (M1 ++ u1 :: M2).length ≤ rank := by
        rcases hle with h | h
        · exact absurd h (by simp)
        · exact h
      by_cases hr : r1 = rank
      · have hM0 : M2 = [] := List.length_eq_zero.mp (by omega)
        subst hM0
        simp only [SSFreeSkiplist.getByRankLoop, hscan]
        rw [if_pos hr, if_pos (by omega)]
        rw [show x :: (M1 ++ [u1]) = (x :: M1) ++ [u1] from rfl, List.getLast?_append_cons]
        rfl
      · simp only [SSFreeSkiplist.getByRankLoop, hscan]
        rw [if_neg hr]
        have := ih u1 r1 (P ++ x :: M1) M2 (by omega) (by omega)
          (by
            have := Links_suffix sl.obs M1 (u1 :: M2 ++ R) (by simpa using hl.2)
            simpa using this)
          (fun z hz => h2 z hz)
          (fun z hz => hpos z (by simp [hz]))
          (by rw [h3, hacc]; simp; ring)
          (Or.inr (by
            simp only [List.length_append, List.length_cons]
            push_cast
            omega))
          (fun _ => hr)
          (by
            have e : r1 + (M2.length : Int) + 1
                = acc + ((M1 ++ u1 :: M2).length : Int) + 1 := by
              rw [h3]; simp; ring
            rw [e]; exact hF)
          (by simp at hfuel; omega)
        rw [this]
        have e1 : ((P ++ x :: M1).length : Int) + M2.length
            = (P.length : Int) + (M1 ++ u1 :: M2).length := by
          simp only [List.length_append, List.length_cons]
          push_cast
          ring
        rw [e1]
        have e2 : (x :: (M1 ++ u1 :: M2)).getLast? = (u1 :: M2).getLast? := by
          rw [show x :: (M1 ++ u1 :: M2) = (x :: M1) ++ u1 :: M2 from rfl,
            List.getLast?_append_cons]
        rw [e2]

theorem getByRank_spec (sl : SSFreeSkiplist S) (ts : List Nat) (rank : Int)
    (hinv : Inv sl.obs ts) :
    sl.getByRank rank =
      .ok (if 0 ≤ rank ∧ rank ≤ ts.length then (sl.header :: ts.take rank.toNat).getLast?
        else none) := by
  have hsplit := List.take_append_drop rank.toNat ts
  have hlen : (ts.take rank.toNat).length = min rank.toNat ts.length := List.length_take _ _
  have hF : CondOn sl.mem (fun q _ => decide (q ≤ rank)) false
      ((0 : Int) + (ts.take rank.toNat).length + 1) (ts.drop rank.toNat) := by
    by_cases h : rank.toNat ≤ ts.length
    · exact CondOn_le_false _ _ _ _ (by omega)
    · rw [List.drop_eq_nil_of_le (by omega)]
      trivial
  have key := getByRankLoop_spec sl rank (ts.drop rank.toNat) sl.level sl.header 0 []
    (ts.take rank.toNat) (le_refl _)
    (by
      have := hinv.hgt_header
      have := hinv.level_le
      show sl.obs.level ≤ sl.obs.hgt sl.obs.header
      omega)
    (by rw [hsplit]; exact hinv.links)
    (fun z hz => hinv.hgt_le z (List.mem_of_mem_take hz))
    (fun z hz => hinv.hgt_pos z (List.mem_of_mem_take hz))
    (by simp)
    (by
      by_cases h : 0 ≤ rank
      · right
        simp only [List.length_nil]
        push_cast
        omega
      · left
        have : rank.toNat = 0 := by omega
        rw [this]
        rfl)
    (fun h0 => by
      have := hinv.level_pos
      have h0' : sl.obs.level = 0 := h0
      omega)
    hF
    (by
      have := hinv.len_lt
      show (ts.take rank.toNat).length < sl.obs.next
      omega)
  unfold SSFreeSkiplist.getByRank
  rw [key]
  congr 1
  by_cases h : 0 ≤ rank ∧ rank ≤ ts.length
  · rw [if_pos h, if_pos (by simp only [List.length_nil]; push_cast; omega)]
  · rw [if_neg h, if_neg (by simp only [List.length_nil]; push_cast; omega)]

end RankLookup

section Visiting

variable {S : Type} [LinearOrder S] [Zero S]

omit [LinearOrder S] [Zero S] in
theorem forEachLoop_forward {σ : Type} (sl : SSFreeSkiplist S)
    (consumer : σ → store S → Except Err (σ × Bool)) :
    ∀ (k : Nat) (L : List Nat) (s : σ), Links sl.obs L → (∀ x ∈ L, 1 ≤ sl.obs.hgt x) →
      k ≤ L.length →
      sl.forEachLoop false consumer k L.head? s =
        visit consumer ((L.take k).map sl.obs.st) s := by
  intro k
  induction k with
  | zero => intro L s _ _ _; rfl
  | succ k ih =>
    intro L s hl hp hk
    cases L with
    | nil => cases hk
    | cons a L =>
      rw [Links_cons] at hl
      have h0 : 0 < sl.obs.hgt a := hp a (List.mem_cons_self _ _)
      have hfw : sl.obs.fwd a 0 = L.head? := by
        rw [(hl.1 0 h0).1]
        exact nxt_zero _ L (fun z hz => hp z (List.mem_cons_of_mem _ hz))
      have hrec := fun s' => ih L s' hl.2 (fun z hz => hp z (List.mem_cons_of_mem _ hz))
        (by simpa using hk)
      simp only [List.head?_cons, SSFreeSkiplist.forEachLoop, SSFreeSkiplist.getNode,
        getLevel_eq sl a 0 h0, hfw, hrec, List.take_succ_cons, List.map_cons, visit]
      rfl

omit [LinearOrder S] [Zero S] in
theorem Backs_concat (o : Obs S) (P : List Nat) (a : Nat) (prev : Option Nat)
    (h : Backs o prev (P ++ [a])) :
    o.bwd a = (prev.toList ++ P).getLast? ∧ Backs o prev P := by
  induction P generalizing prev with
  | nil =>
    rw [List.nil_append, Backs_cons] at h
    cases prev <;> exact ⟨by simpa using h.1, trivial⟩
  | cons b P ih =>
    rw [List.cons_append, Backs_cons] at h
    have := ih (some b) h.2
    refine ⟨?_, (Backs_cons _ _ _ _).mpr ⟨h.1, this.2⟩⟩
    rw [this.1]
    cases prev <;> simp

omit [LinearOrder S] [Zero S] in
theorem forEachLoop_backward {σ : Type} (sl : SSFreeSkiplist S)
    (consumer : σ → store S → Except Err (σ × Bool)) :
    ∀ (k : Nat) (P : List Nat) (s : σ), Backs sl.obs none P → k ≤ P.length →
      sl.forEachLoop true consumer k P.getLast? s =
        visit consumer ((P.reverse.take k).map sl.obs.st) s := by
  intro k
  induction k with
  | zero => intro P s _ _; rfl
  | succ k ih =>
    intro P s hb hk
    rcases List.eq_nil_or_concat P with rfl | ⟨P, a, rfl⟩
    · cases hk
    · rw [List.concat_eq_append] at hb hk ⊢
      obtain ⟨h1, h2⟩ := Backs_concat _ P a none hb
      have h1' : (sl.mem a).backwardNode = P.getLast? := by simpa using h1
      have hrec := fun s' => ih P s' h2 (by simpa using hk)
      have hg : (P ++ [a]).getLast? = some a := by simp
      rw [hg]
      simp only [SSFreeSkiplist.forEachLoop, SSFreeSkiplist.getNode, h1', hrec, if_true,
        List.reverse_append, List.reverse_singleton, List.singleton_append,
        List.take_succ_cons, List.map_cons, visit]
      rfl

omit [LinearOrder S] [Zero S] in
theorem Backs_initial (o : Obs S) (L R : List Nat) (prev : Option Nat)
    (h : Backs o prev (L ++ R)) : Backs o prev L := by
  induction L generalizing prev with
  | nil => trivial
  | cons a L ih =>
    rw [List.cons_append, Backs_cons] at h
    exact (Backs_cons _ _ _ _).mpr ⟨h.1, ih _ h.2⟩

theorem getLast_take_succ (x : Nat) (ts : List Nat) (n : Nat) (h : n < ts.length) :
    (x :: ts.take (n + 1)).getLast? = (ts.drop n).head? := by
  rw [List.head?_drop, List.take_succ, List.getElem?_eq_getElem h]
  show ((x :: ts.take n) ++ [ts[n]]).getLast? = _
  rw [List.getLast?_append_cons]
  rfl

theorem getLast_cons_take (x : Nat) (ts : List Nat) (n : Nat) (h0 : 0 < n)
    (h : n ≤ ts.length) : (x :: ts.take n).getLast? = (ts.take n).getLast? := by
  cases hn : ts.take n with
  | nil =>
    have := congrArg List.length hn
    rw [List.length_take] at this
    simp only [List.length_nil] at this
    omega
  | cons a l => simp

omit [Zero S] in
theorem startNode_spec (s : SortedSet S) (ts : List Nat) (h : SetInv s ts) (start : Int)
    (desc : Bool) (h1 : 0 ≤ start) (h2 : start < s.Len) :
    s.startNode start desc =
      .ok (if desc then (ts.take (ts.length - start.toNat)).getLast?
        else (ts.drop start.toNat).head?) := by
  have hlen : s.Len = (ts.length : Int) := by
    show (s.dict.length : Int) = _
    rw [h.length_eq]
  rw [hlen] at h2
  have h0 : 0 < s.SSFreeSkiplist.obs.hgt s.SSFreeSkiplist.header := by
    rw [show s.SSFreeSkiplist.header = s.SSFreeSkiplist.obs.header from rfl, h.inv.hgt_header]
    decide
  cases desc with
  | true =>
    simp only [SortedSet.startNode, if_true, hlen]
    by_cases hs : start > 0
    · rw [if_pos hs, getByRank_spec _ ts _ h.inv, if_pos (by omega)]
      have e : ((ts.length : Int) - start).toNat = ts.length - start.toNat := by omega
      rw [e, getLast_cons_take _ ts _ (by omega) (by omega)]
    · rw [if_neg hs]
      have e : start.toNat = 0 := by omega
      rw [e, Nat.sub_zero, List.take_length]
      exact congrArg Except.ok h.inv.tail_eq
  | false =>
    simp only [SortedSet.startNode, Bool.false_eq_true, if_false,
      getLevel_eq _ _ 0 h0]
    rw [show s.SSFreeSkiplist.obs.fwd s.SSFreeSkiplist.header 0 = ts.head? from
      header_fwd0 _ ts h.inv]
    by_cases hs : start > 0
    · rw [if_pos hs, getByRank_spec _ ts _ h.inv, if_pos (by omega)]
      have e : (start + 1).toNat = start.toNat + 1 := by omega
      rw [e, getLast_take_succ _ ts _ (by omega)]
    · rw [if_neg hs]
      have e : start.toNat = 0 := by omega
      rw [e, List.drop_zero]

omit [Zero S] in
theorem forEachLoop_spec {σ : Type} (s : SortedSet S) (ts : List Nat) (h : SetInv s ts)
    (m k : Nat) (desc : Bool) (consumer : σ → store S → Except Err (σ × Bool)) (init : σ)
    (hk : m + k ≤ ts.length) :
    s.SSFreeSkiplist.forEachLoop desc consumer k
        (if desc then (ts.take (ts.length - m)).getLast? else (ts.drop m).head?) init =
      visit consumer
        (((if desc then s.ascending.reverse else s.ascending).drop m).take k) init := by
  rw [h.ascending_eq]
  cases desc with
  | true =>
    simp only [if_true]
    have hb : Backs s.SSFreeSkiplist.obs none (ts.take (ts.length - m)) :=
      Backs_initial _ _ (ts.drop (ts.length - m)) none
        (by rw [List.take_append_drop]; exact h.inv.backs)
    rw [forEachLoop_backward _ consumer k _ init hb (by rw [List.length_take]; omega),
      List.reverse_take, ← List.map_reverse, ← List.map_drop, ← List.map_take]
    have e : ts.length - (ts.length - m) = m := by omega
    rw [e]
  | false =>
    simp only [Bool.false_eq_true, if_false]
    have hl : Links s.SSFreeSkiplist.obs (ts.drop m) :=
      Links_suffix _ (s.SSFreeSkiplist.obs.header :: ts.take m) _
        (by rw [List.cons_append, List.take_append_drop]; exact h.inv.links)
    rw [forEachLoop_forward _ consumer k _ init hl
      (fun x hx => h.inv.hgt_pos x (List.mem_of_mem_drop hx))
      (by rw [List.length_drop]; omega), ← List.map_drop, ← List.map_take]

omit [Zero S] in
theorem ForEach_spec {σ : Type} (s : SortedSet S) (ts : List Nat) (h : SetInv s ts)
    (start stop : Int) (desc : Bool) (consumer : σ → store S → Except Err (σ × Bool))
    (init : σ) (h1 : 0 ≤ start) (h2 : start < s.Len) (h3 : start ≤ stop) (h4 : stop ≤ s.Len) :
    s.ForEach start stop desc consumer init =
      visit consumer (((if desc then s.ascending.reverse else s.ascending).drop
        start.toNat).take (stop - start).toNat) init := by
  have hlen : s.Len = (ts.length : Int) := by
    show (s.dict.length : Int) = _
    rw [h.length_eq]
  have hb1 : ¬ (start < 0 ∨ start ≥ s.Len) := by omega
  have hb2 : ¬ (stop < start ∨ stop > s.Len) := by omega
  simp only [SortedSet.ForEach, hb1, hb2, if_false, startNode_spec s ts h start desc h1 h2]
  exact forEachLoop_spec s ts h start.toNat (stop - start).toNat desc consumer init
    (by omega)

omit [LinearOrder S] [Zero S] in
theorem visit_rangeVisitor (l : List (store S)) :
    ∀ pre : List (Option (store S)),
      visit rangeVisitor l (pre ++ List.replicate l.length none, pre.length) =
        .ok (pre ++ l.map some, pre.length + l.length) := by
  induction l with
  | nil => intro pre; simp [visit]
  | cons e l ih =>
    intro pre
    have hlt : pre.length < (pre ++ List.replicate (l.length + 1) none).length := by
      rw [List.length_append, List.length_replicate]
      omega
    have hset : (pre ++ List.replicate (l.length + 1) none).set pre.length (some e) =
        (pre ++ [some e]) ++ List.replicate l.length none := by
      rw [List.set_append_right _ _ (le_refl _)]
      simp [List.replicate_succ]
    have := ih (pre ++ [some e])
    simp only [List.length_append, List.length_singleton] at this
    simp only [visit, rangeVisitor, hlt, if_true, hset, this, Bool.not_true,
      Bool.false_eq_true, if_false, List.map_cons, List.length_cons]
    simp
    omega

omit [Zero S] in
theorem Range_spec (s : SortedSet S) (ts : List Nat) (h : SetInv s ts)
    (start stop : Int) (desc : Bool) (h1 : 0 ≤ start) (h2 : start < s.Len) (h3 : start ≤ stop)
    (h4 : stop ≤ s.Len) :
    s.Range start stop desc =
      .ok ((((if desc then s.ascending.reverse else s.ascending).drop
        start.toNat).take (stop - start).toNat).map some) := by
  have hlen : s.Len = (ts.length : Int) := by
    show (s.dict.length : Int) = _
    rw [h.length_eq]
  have hal : s.ascending.length = ts.length := by
    rw [h.ascending_eq, List.length_map]
  have hl : (((if desc then s.ascending.reverse else s.ascending).drop
      start.toNat).take (stop - start).toNat).length = (stop - start).toNat := by
    rw [List.length_take, List.length_drop]
    have : (if desc then s.ascending.reverse else s.ascending).length = ts.length := by
      cases desc <;> simp [hal]
    rw [this]
    omega
  have hv := visit_rangeVisitor (((if desc then s.ascending.reverse else s.ascending).drop
      start.toNat).take (stop - start).toNat) []
  rw [hl] at hv
  have hneg : ¬ stop - start < 0 := by omega
  simp only [SortedSet.Range, hneg, if_false,
    ForEach_spec s ts h start stop desc rangeVisitor _ h1 h2 h3 h4]
  simp only [List.nil_append, List.length_nil] at hv
  rw [hv]

end Visiting

section ByScore

variable {S : Type} [LinearOrder S] [Zero S]

omit [LinearOrder S] [Zero S] in
theorem Steps_cons (sl : SSFreeSkiplist S) (desc : Bool) (a : Nat) (l : List Nat) :
    Steps sl desc (a :: l) ↔
      (desc = false → 0 < sl.obs.hgt a) ∧
        (if desc then sl.obs.bwd a else sl.obs.fwd a 0) = l.head? ∧ Steps sl desc l := Iff.rfl

omit [LinearOrder S] [Zero S] in
theorem Steps_forward (sl : SSFreeSkiplist S) (L : List Nat) (hl : Links sl.obs L)
    (hp : ∀ x ∈ L, 1 ≤ sl.obs.hgt x) : Steps sl false L := by
  induction L with
  | nil => trivial
  | cons a L ih =>
    rw [Links_cons] at hl
    have h0 : 0 < sl.obs.hgt a := hp a (List.mem_cons_self _ _)
    refine (Steps_cons _ _ _ _).mpr ⟨fun _ => h0, ?_,
      ih hl.2 (fun z hz => hp z (List.mem_cons_of_mem _ hz))⟩
    simp only [Bool.false_eq_true, if_false]
    rw [(hl.1 0 h0).1]
    exact nxt_zero _ L (fun z hz => hp z (List.mem_cons_of_mem _ hz))

omit [LinearOrder S] [Zero S] in
theorem Steps_backward (sl : SSFreeSkiplist S) (P : List Nat) (hb : Backs sl.obs none P) :
    Steps sl true P.reverse := by
  induction P using List.reverseRecOn with
  | nil => trivial
  | append_singleton P a ih =>
    obtain ⟨h1, h2⟩ := Backs_concat _ P a none hb
    rw [List.reverse_append, List.reverse_singleton, List.singleton_append]
    refine (Steps_cons _ _ _ _).mpr ⟨fun h => (by cases h), ?_, ih h2⟩
    simp only [if_true]
    rw [h1, List.head?_reverse]
    simp

omit [LinearOrder S] [Zero S] in
theorem Steps_drop (sl : SSFreeSkiplist S) (desc : Bool) (k : Nat) :
    ∀ C : List Nat, Steps sl desc C → Steps sl desc (C.drop k) := by
  induction k with
  | zero => intro C h; exact h
  | succ k ih =>
    intro C h
    cases C with
    | nil => trivial
    | cons a C => exact ih C h.2.2

omit [LinearOrder S] [Zero S] in
theorem skipLoop_spec (sl : SSFreeSkiplist S) (desc : Bool) (k : Nat) :
    ∀ C : List Nat, Steps sl desc C → sl.skipLoop desc k C.head? = .ok (C.drop k).head? := by
  induction k with
  | zero => intro C _; rfl
  | succ k ih =>
    intro C h
    cases C with
    | nil => rfl
    | cons a C =>
      rw [Steps_cons] at h
      cases desc with
      | true =>
        have h2 : (sl.mem a).backwardNode = C.head? := by simpa using h.2.1
        simp only [List.head?_cons, SSFreeSkiplist.skipLoop, if_true, h2, List.drop_succ_cons]
        exact ih C h.2.2
      | false =>
        have h2 : sl.obs.fwd a 0 = C.head? := by simpa using h.2.1
        simp only [List.head?_cons, SSFreeSkiplist.skipLoop, Bool.false_eq_true, if_false,
          getLevel_eq sl a 0 (h.1 rfl), h2, List.drop_succ_cons]
        exact ih C h.2.2

theorem reached_nil (p : Nat → Bool) (l : Int) : reached p l [] = [] := by
  unfold reached
  split <;> simp

theorem reached_zero (p : Nat → Bool) (C : List Nat) : reached p 0 C = [] := by
  unfold reached
  rw [if_neg (by decide)]
  rfl

theorem reached_single (p : Nat → Bool) (l : Int) (a : Nat) (hl : l < 0 ∨ 0 < l) :
    reached p l [a] = [a] := by
  unfold reached
  by_cases h : l < 0
  · rw [if_pos h]
    rfl
  · rw [if_neg h]
    obtain ⟨n, hn⟩ : ∃ n, l.toNat = n + 1 := ⟨l.toNat - 1, by omega⟩
    rw [hn]
    simp

theorem reached_stop (p : Nat → Bool) (l : Int) (a b : Nat) (C : List Nat)
    (hl : l < 0 ∨ 0 < l) (hb : p b = false) : reached p l (a :: b :: C) = [a] := by
  unfold reached
  have e : (a :: b :: C).take 1 ++ (a :: b :: C).tail.takeWhile p = [a] := by
    simp [List.takeWhile_cons, hb]
  rw [e]
  by_cases h : l < 0
  · rw [if_pos h]
  · rw [if_neg h]
    obtain ⟨n, hn⟩ : ∃ n, l.toNat = n + 1 := ⟨l.toNat - 1, by omega⟩
    rw [hn]
    simp

theorem reached_step (p : Nat → Bool) (l : Int) (a b : Nat) (C : List Nat)
    (hl : l < 0 ∨ 0 < l) (hb : p b = true) :
    reached p l (a :: b :: C) = a :: reached p (l - 1) (b :: C) := by
  unfold reached
  have e : (a :: b :: C).take 1 ++ (a :: b :: C).tail.takeWhile p =
      a :: ((b :: C).take 1 ++ (b :: C).tail.takeWhile p) := by
    simp [List.takeWhile_cons, hb]
  rw [e]
  by_cases h : l < 0
  · rw [if_pos h, if_pos (by omega)]
  · rw [if_neg h, if_neg (by omega)]
    obtain ⟨n, hn⟩ : ∃ n, l.toNat = n + 1 := ⟨l.toNat - 1, by omega⟩
    have hn' : (l - 1).toNat = n := by omega
    rw [hn, hn']
    rfl

omit [Zero S] in
theorem byScoreLoop_spec {σ : Type} (sl : SSFreeSkiplist S) (min max : SSFreeRankInterval S)
    (limit : Int) (desc : Bool) (consumer : σ → store S → Except Err (σ × Bool)) :
    ∀ (C : List Nat) (fuel : Nat) (i : Int) (s : σ), Steps sl desc C → C.length < fuel →
      0 ≤ i → (limit < 0 ∨ i ≤ limit) →
      sl.byScoreLoop min max limit desc consumer fuel i C.head? s =
        visit consumer ((reached
          (fun b => min.less (sl.mem b).KeyRank && max.greater (sl.mem b).KeyRank)
          (limit - i) C).map sl.obs.st) s := by
  intro C
  induction C with
  | nil =>
    intro fuel i s _ hf _ _
    obtain ⟨f, rfl⟩ : ∃ f, fuel = f + 1 := ⟨fuel - 1, by simp at hf; omega⟩
    rw [reached_nil]
    simp only [List.head?_nil, SSFreeSkiplist.byScoreLoop, ite_self, List.map_nil, visit]
  | cons a C ih =>
    intro fuel i s hst hf hi0 hi
    obtain ⟨f, rfl⟩ : ∃ f, fuel = f + 1 := ⟨fuel - 1, by simp at hf; omega⟩
    rw [Steps_cons] at hst
    by_cases hc : i < limit ∨ limit < 0
    · have hl : limit - i < 0 ∨ 0 < limit - i := by omega
      have hnext : (if desc = true then (Except.ok (sl.mem a).backwardNode : Except Err _)
          else
            match sl.getLevel (some a) 0 with
            | .error e => .error e
            | .ok l => .ok l.forwardNode) = .ok C.head? := by
        cases desc with
        | true =>
          have h2 : (sl.mem a).backwardNode = C.head? := by simpa using hst.2.1
          simp only [if_true, h2]
        | false =>
          have h2 : sl.obs.fwd a 0 = C.head? := by simpa using hst.2.1
          simp only [Bool.false_eq_true, if_false, getLevel_eq sl a 0 (hst.1 rfl), h2]
      simp only [List.head?_cons, SSFreeSkiplist.byScoreLoop, hc, if_true, hnext]
      cases C with
      | nil =>
        rw [reached_single _ _ _ hl]
        simp only [List.map_cons, List.map_nil, visit, List.head?_nil]
        rfl
      | cons b C =>
        by_cases hb : (min.less (sl.mem b).KeyRank && max.greater (sl.mem b).KeyRank) = true
        · rw [reached_step _ _ _ _ _ hl hb]
          have hrec := fun s' => ih f (i + 1) s' hst.2.2 (by simpa using hf) (by omega)
            (by omega)
          have e : limit - (i + 1) = limit - i - 1 := by ring
          simp only [e, List.head?_cons] at hrec
          have hb' : (!min.less (sl.mem b).KeyRank || !max.greater (sl.mem b).KeyRank)
              = false := by
            rw [Bool.and_eq_true] at hb
            simp [hb.1, hb.2]
          simp only [List.map_cons, visit, List.head?_cons, hb', Bool.false_eq_true, if_false,
            hrec]
          rfl
        · have hb0 : (min.less (sl.mem b).KeyRank && max.greater (sl.mem b).KeyRank)
              = false := by simpa using hb
          rw [reached_stop _ _ _ _ _ hl hb0]
          have hb' : (!min.less (sl.mem b).KeyRank || !max.greater (sl.mem b).KeyRank)
              = true := by
            rw [Bool.and_eq_false_iff] at hb0
            rcases hb0 with h | h <;> simp [h]
          simp only [List.map_cons, List.map_nil, visit, List.head?_cons, hb', if_true]
          rfl
    · have e : limit - i = 0 := by omega
      rw [e, reached_zero]
      simp only [List.head?_cons, SSFreeSkiplist.byScoreLoop, hc, if_false, List.map_nil, visit]

theorem dropWhile_split {α : Type} (p : α → Bool) (X Y : List α)
    (hX : ∀ x ∈ X, p x = true) (hY : ∀ y ∈ Y.head?, p y = false) :
    (X ++ Y).dropWhile p = Y := by
  induction X with
  | nil =>
    cases Y with
    | nil => rfl
    | cons y Y => exact List.dropWhile_cons_of_neg (by simp [hY y rfl])
  | cons x X ih =>
    rw [List.cons_append, List.dropWhile_cons_of_pos (hX x (List.mem_cons_self _ _))]
    exact ih (fun z hz => hX z (List.mem_cons_of_mem _ hz))

theorem takeWhile_split {α : Type} (p : α → Bool) (X Y : List α)
    (hX : ∀ x ∈ X, p x = true) (hY : ∀ y ∈ Y.head?, p y = false) :
    (X ++ Y).takeWhile p = X := by
  induction X with
  | nil =>
    cases Y with
    | nil => rfl
    | cons y Y => exact List.takeWhile_cons_of_neg (by simp [hY y rfl])
  | cons x X ih =>
    rw [List.cons_append, List.takeWhile_cons_of_pos (hX x (List.mem_cons_self _ _))]
    exact congrArg _ (ih (fun z hz => hX z (List.mem_cons_of_mem _ hz)))

theorem takeWhile_within {α : Type} (p : α → Bool) (X Y : List α)
    (hY : ∀ y ∈ Y.head?, p y = false) : ∀ a ∈ (X ++ Y).takeWhile p, a ∈ X := by
  induction X with
  | nil =>
    intro a ha
    cases Y with
    | nil => simp at ha
    | cons y Y =>
      rw [List.nil_append, List.takeWhile_cons_of_neg (by simp [hY y rfl])] at ha
      cases ha
  | cons x X ih =>
    intro a ha
    rw [List.cons_append] at ha
    by_cases hx : p x = true
    · rw [List.takeWhile_cons_of_pos hx] at ha
      rcases List.mem_cons.mp ha with rfl | ha
      · exact List.mem_cons_self _ _
      · exact List.mem_cons_of_mem _ (ih a ha)
    · rw [List.takeWhile_cons_of_neg hx] at ha
      cases ha

theorem range_split {α : Type} (p q : α → Bool) (l : List α)
    (hp : l.Pairwise (fun a b => p a = true → p b = true))
    (hq : l.Pairwise (fun a b => q b = true → q a = true)) :
    ∃ X M Z, l = X ++ (M ++ Z) ∧ (∀ x ∈ X, p x = false) ∧
      (∀ m ∈ M, p m = true ∧ q m = true) ∧ (∀ z ∈ Z, p z = true ∧ q z = false) ∧
      (M ≠ [] → ∀ x ∈ X, q x = true) := by
  induction l with
  | nil => exact ⟨[], [], [], rfl, by simp, by simp, by simp, by simp⟩
  | cons a l ih =>
    rw [List.pairwise_cons] at hp hq
    obtain ⟨X, M, Z, rfl, hX, hM, hZ, hXq⟩ := ih hp.2 hq.2
    by_cases ha : p a = true
    · have hX0 : X = [] := by
        cases X with
        | nil => rfl
        | cons x X =>
          have h1 := hX x (List.mem_cons_self _ _)
          have h2 := hp.1 x (by simp) ha
          rw [h1] at h2
          cases h2
      subst hX0
      by_cases hqa : q a = true
      · refine ⟨[], a :: M, Z, rfl, by simp, ?_, hZ, by simp⟩
        intro m hm
        rcases List.mem_cons.mp hm with rfl | hm
        · exact ⟨ha, hqa⟩
        · exact hM m hm
      · have hM0 : M = [] := by
          cases M with
          | nil => rfl
          | cons m M =>
            have h1 := (hM m (List.mem_cons_self _ _)).2
            exact absurd (hq.1 m (by simp) h1) hqa
        subst hM0
        refine ⟨[], [], a :: Z, rfl, by simp, by simp, ?_, by simp⟩
        intro z hz
        rcases List.mem_cons.mp hz with rfl | hz
        · exact ⟨ha, by simpa using hqa⟩
        · exact hZ z hz
    · refine ⟨a :: X, M, Z, rfl, ?_, hM, hZ, ?_⟩
      · intro x hx
        rcases List.mem_cons.mp hx with rfl | hx
        · simpa using ha
        · exact hX x hx
      · intro hne x hx
        rcases List.mem_cons.mp hx with rfl | hx
        · obtain ⟨m, M', rfl⟩ := List.exists_cons_of_ne_nil hne
          exact hq.1 m (by simp) (hM m (List.mem_cons_self _ _)).2
        · exact hXq hne x hx

theorem filter_split {α : Type} (r : α → Bool) (X M Z : List α)
    (hX : ∀ x ∈ X, r x = false) (hM : ∀ m ∈ M, r m = true) (hZ : ∀ z ∈ Z, r z = false) :
    (X ++ (M ++ Z)).filter r = M := by
  have h1 : X.filter r = [] := List.filter_eq_nil_iff.mpr (by simpa using hX)
  have h2 : Z.filter r = [] := List.filter_eq_nil_iff.mpr (by simpa using hZ)
  have h3 : M.filter r = M := List.filter_eq_self.mpr hM
  rw [List.filter_append, List.filter_append, h1, h2, h3]
  simp

theorem reached_split (r : Nat → Bool) (M Z : List Nat) (hne : M ≠ [])
    (hM : ∀ m ∈ M, r m = true) (hZ : ∀ z ∈ Z.head?, r z = false) :
    reached r (-1) (M ++ Z) = M := by
  obtain ⟨a, M', rfl⟩ := List.exists_cons_of_ne_nil hne
  unfold reached
  rw [if_pos (by decide)]
  show [a] ++ (M' ++ Z).takeWhile r = a :: M'
  rw [takeWhile_split r M' Z (fun z hz => hM z (List.mem_cons_of_mem _ hz)) hZ]
  rfl

theorem filter_of_isSome {α : Type} (f : α → Bool) (o : Option α)
    (h : (o.filter f).isSome = true) : o.filter f = o := by
  cases o with
  | none => rfl
  | some a =>
    by_cases ha : f a = true
    · simp [Option.filter, ha]
    · simp [Option.filter, ha] at h

theorem filter_of_not_isSome {α : Type} (f : α → Bool) (o : Option α)
    (h : ¬ (o.filter f).isSome = true) : o.filter f = none := by
  cases hf : o.filter f with
  | none => rfl
  | some a => rw [hf] at h; simp at h

omit [Zero S] in
theorem scoreChain_spec (sl : SSFreeSkiplist S) (ts : List Nat)
    (min max : SSFreeRankInterval S) (desc : Bool) (hinv : Inv sl.obs ts) :
    Steps sl desc (scoreChain sl ts min max desc) ∧
      (if desc then sl.getLastInScoreRange min max else sl.getFirstInScoreRange min max) =
        .ok (scoreChain sl ts min max desc).head? ∧
      (scoreChain sl ts min max desc).length ≤ ts.length := by
  have hfirst := getFirstInScoreRange_spec sl ts min max hinv
  have hlast := getLastInScoreRange_spec sl ts min max hinv
  unfold scoreChain
  by_cases hrej : valuesRejected min max
  · rw [if_pos hrej] at hfirst hlast ⊢
    refine ⟨trivial, ?_, Nat.zero_le _⟩
    cases desc
    · simpa using hfirst
    · simpa using hlast
  · rw [if_neg hrej] at hfirst hlast ⊢
    cases desc with
    | true =>
      simp only [if_true]
      by_cases hs : ((ts.takeWhile (fun y => max.greater (sl.obs.st y).KeyRank)).getLast?.filter
          (fun u => min.less (sl.obs.st u).KeyRank)).isSome = true
      · rw [if_pos hs, hlast, filter_of_isSome _ _ hs, List.head?_reverse, List.length_reverse]
        refine ⟨Steps_backward sl _ (Backs_initial _ _
          (ts.dropWhile (fun y => max.greater (sl.obs.st y).KeyRank)) none
          (by rw [List.takeWhile_append_dropWhile]; exact hinv.backs)), rfl, ?_⟩
        exact (List.takeWhile_sublist _).length_le
      · rw [if_neg hs, hlast, filter_of_not_isSome _ _ hs]
        exact ⟨trivial, rfl, Nat.zero_le _⟩
    | false =>
      simp only [Bool.false_eq_true, if_false]
      by_cases hs : ((ts.dropWhile (fun y => !min.less (sl.obs.st y).KeyRank)).head?.filter
          (fun f => max.greater (sl.obs.st f).KeyRank)).isSome = true
      · rw [if_pos hs, hfirst, filter_of_isSome _ _ hs]
        refine ⟨Steps_forward sl _ (Links_suffix _
          (sl.obs.header :: ts.takeWhile (fun y => !min.less (sl.obs.st y).KeyRank)) _
          (by rw [List.cons_append, List.takeWhile_append_dropWhile]; exact hinv.links))
          (fun x hx => hinv.hgt_pos x ((List.dropWhile_sublist _).subset hx)), rfl, ?_⟩
        exact (List.dropWhile_sublist _).length_le
      · rw [if_neg hs, hfirst, filter_of_not_isSome _ _ hs]
        exact ⟨trivial, rfl, Nat.zero_le _⟩

omit [Zero S] in
theorem ForEachByScore_spec {σ : Type} (s : SortedSet S) (ts : List Nat) (h : SetInv s ts)
    (min max : SSFreeRankInterval S) (offset limit : Int) (desc : Bool)
    (consumer : σ → store S → Except Err (σ × Bool)) (init : σ) :
    s.ForEachByScore min max offset limit desc consumer init =
      visit consumer ((reached
        (fun b => min.less (s.SSFreeSkiplist.mem b).KeyRank &&
          max.greater (s.SSFreeSkiplist.mem b).KeyRank) limit
        ((scoreChain s.SSFreeSkiplist ts min max desc).drop offset.toNat)).map
          s.SSFreeSkiplist.obs.st) init := by
  obtain ⟨hsteps, hstart, hlen⟩ := scoreChain_spec s.SSFreeSkiplist ts min max desc h.inv
  have hskip := skipLoop_spec s.SSFreeSkiplist desc offset.toNat _ hsteps
  have hloop := byScoreLoop_spec s.SSFreeSkiplist min max limit desc consumer
    ((scoreChain s.SSFreeSkiplist ts min max desc).drop offset.toNat) s.SSFreeSkiplist.next
    0 init (Steps_drop _ _ _ _ hsteps)
    (by
      have := h.inv.len_lt
      rw [List.length_drop]
      show _ < s.SSFreeSkiplist.obs.next
      omega)
    (le_refl _) (by omega)
  rw [sub_zero] at hloop
  simp only [SortedSet.ForEachByScore, hstart, hskip, hloop]

omit [Zero S] in
theorem reached_scoreChain (sl : SSFreeSkiplist S) (ts : List Nat)
    (min max : SSFreeRankInterval S) (desc : Bool) (hinv : Inv sl.obs ts) :
    reached (fun b => min.less (sl.obs.st b).KeyRank && max.greater (sl.obs.st b).KeyRank)
        (-1) (scoreChain sl ts min max desc) =
      if valuesRejected min max then []
      else if desc then
        (ts.filter (fun b => min.less (sl.obs.st b).KeyRank &&
          max.greater (sl.obs.st b).KeyRank)).reverse
      else ts.filter (fun b => min.less (sl.obs.st b).KeyRank &&
          max.greater (sl.obs.st b).KeyRank) := by
  unfold scoreChain
  by_cases hrej : valuesRejected min max
  · rw [if_pos hrej, if_pos hrej, reached_nil]
  · rw [if_neg hrej, if_neg hrej]
    obtain ⟨X, M, Z, hts, hX, hM, hZ, hXq⟩ := range_split
      (fun y => min.less (sl.obs.st y).KeyRank) (fun y => max.greater (sl.obs.st y).KeyRank) ts
      (hinv.sorted.imp (fun hab ha => less_mono min (storeLE_le hab) ha))
      (hinv.sorted.imp (fun hab hb => greater_anti max (storeLE_le hab) hb))
    have hfilter : ts.filter (fun b => min.less (sl.obs.st b).KeyRank &&
        max.greater (sl.obs.st b).KeyRank) = M := by
      rw [hts]
      exact filter_split _ X M Z (fun x hx => by simp [hX x hx])
        (fun m hm => by simp [(hM m hm).1, (hM m hm).2])
        (fun z hz => by simp [(hZ z hz).2])
    rw [hfilter]
    cases desc with
    | true =>
      simp only [if_true]
      by_cases hne : M = []
      · subst hne
        have hP : ∀ a ∈ ts.takeWhile (fun y => max.greater (sl.obs.st y).KeyRank), a ∈ X := by
          rw [hts, List.nil_append]
          exact takeWhile_within _ X Z (fun z hz => (hZ z (List.mem_of_mem_head? hz)).2)
        have hnone : ¬ ((ts.takeWhile (fun y => max.greater (sl.obs.st y).KeyRank)).getLast?.filter
            (fun u => min.less (sl.obs.st u).KeyRank)).isSome = true := by
          cases hg : (ts.takeWhile (fun y => max.greater (sl.obs.st y).KeyRank)).getLast? with
          | none => simp
          | some u =>
            have hu := hX u (hP u (List.mem_of_mem_getLast? hg))
            simp only at hu
            simp [Option.filter, hu]
        rw [if_neg hnone, reached_nil]
        rfl
      · have hP : ts.takeWhile (fun y => max.greater (sl.obs.st y).KeyRank) = X ++ M := by
          rw [hts, ← List.append_assoc]
          exact takeWhile_split _ (X ++ M) Z
            (fun a ha => by
              rcases List.mem_append.mp ha with ha | ha
              · exact hXq hne a ha
              · exact (hM a ha).2)
            (fun z hz => (hZ z (List.mem_of_mem_head? hz)).2)
        have hlast : ∃ u, (X ++ M).getLast? = some u ∧ u ∈ M := by
          obtain ⟨M', u, rfl⟩ := (List.eq_nil_or_concat M).resolve_left hne
          exact ⟨u, by simp, by simp⟩
        obtain ⟨u, hu, huM⟩ := hlast
        have hsome : ((X ++ M).getLast?.filter
            (fun u => min.less (sl.obs.st u).KeyRank)).isSome = true := by
          have := (hM u huM).1
          simp only at this
          simp [hu, Option.filter, this]
        rw [hP, if_pos hsome, List.reverse_append]
        exact reached_split _ M.reverse X.reverse (by simpa using hne)
          (fun m hm => by
            have := hM m (List.mem_reverse.mp hm)
            simp only at this
            simp [this.1, this.2])
          (fun x hx => by
            have := hX x (List.mem_reverse.mp (List.mem_of_mem_head? hx))
            simp only at this
            simp [this])
    | false =>
      simp only [Bool.false_eq_true, if_false]
      have hB : ts.dropWhile (fun y => !min.less (sl.obs.st y).KeyRank) = M ++ Z := by
        rw [hts]
        exact dropWhile_split _ X (M ++ Z) (fun x hx => by simp [hX x hx])
          (fun y hy => by
            rcases List.mem_append.mp (List.mem_of_mem_head? hy) with hy | hy
            · simp [(hM y hy).1]
            · simp [(hZ y hy).1])
      rw [hB]
      by_cases hne : M = []
      · subst hne
        have hnone : ¬ (([] ++ Z).head?.filter
            (fun f => max.greater (sl.obs.st f).KeyRank)).isSome = true := by
          cases Z with
          | nil => simp
          | cons z Z =>
            have := (hZ z (List.mem_cons_self _ _)).2
            simp only at this
            simp [Option.filter, this]
        rw [if_neg hnone, reached_nil]
      · obtain ⟨m, M', rfl⟩ := List.exists_cons_of_ne_nil hne
        have hsome : ((m :: M' ++ Z).head?.filter
            (fun f => max.greater (sl.obs.st f).KeyRank)).isSome = true := by
          have := (hM m (List.mem_cons_self _ _)).2
          simp only at this
          simp [Option.filter, this]
        rw [if_pos hsome]
        exact reached_split _ (m :: M') Z hne
          (fun a ha => by
            have := hM a ha
            simp only at this
            simp [this.1, this.2])
          (fun z hz => by
            have := (hZ z (List.mem_of_mem_head? hz)).2
            simp only at this
            simp [this])

omit [LinearOrder S] [Zero S] in
theorem visit_collect (l : List (store S)) :
    ∀ pre : List (store S),
      visit (fun (slice : List (store S)) element => .ok (slice ++ [element], true)) l pre =
        .ok (pre ++ l) := by
  induction l with
  | nil => intro pre; simp [visit]
  | cons e l ih =>
    intro pre
    simp only [visit, Bool.not_true, Bool.false_eq_true, if_false, ih]
    simp

omit [Zero S] in
theorem RangeByScore_spec (s : SortedSet S) (ts : List Nat) (h : SetInv s ts)
    (min max : SSFreeRankInterval S) (offset limit : Int) (desc : Bool) :
    s.RangeByScore min max offset limit desc =
      .ok (if limit = 0 ∨ offset < 0 then []
        else (reached
          (fun b => min.less (s.SSFreeSkiplist.obs.st b).KeyRank &&
            max.greater (s.SSFreeSkiplist.obs.st b).KeyRank) limit
          ((scoreChain s.SSFreeSkiplist ts min max desc).drop offset.toNat)).map
            s.SSFreeSkiplist.obs.st) := by
  unfold SortedSet.RangeByScore
  by_cases hc : limit = 0 ∨ offset < 0
  · rw [if_pos hc, if_pos hc]
  · rw [if_neg hc, if_neg hc, ForEachByScore_spec s ts h, visit_collect]
    rfl

omit [Zero S] in
theorem RangeByScore_all (s : SortedSet S) (ts : List Nat) (h : SetInv s ts)
    (min max : SSFreeRankInterval S) (desc : Bool) :
    s.RangeByScore min max 0 (-1) desc =
      .ok (if valuesRejected min max then []
        else if desc then
          (s.ascending.filter (fun e => min.less e.KeyRank && max.greater e.KeyRank)).reverse
        else s.ascending.filter (fun e => min.less e.KeyRank && max.greater e.KeyRank)) := by
  rw [RangeByScore_spec s ts h, if_neg (by decide), Int.toNat_zero, List.drop_zero,
    reached_scoreChain _ ts min max desc h.inv, h.ascending_eq]
  congr 1
  have hf : (ts.filter (fun b => min.less (s.SSFreeSkiplist.obs.st b).KeyRank &&
      max.greater (s.SSFreeSkiplist.obs.st b).KeyRank)).map s.SSFreeSkiplist.obs.st =
      (ts.map s.SSFreeSkiplist.obs.st).filter
        (fun e => min.less e.KeyRank && max.greater e.KeyRank) := by
    rw [List.filter_map]
    rfl
  by_cases hrej : valuesRejected min max
  · rw [if_pos hrej, if_pos hrej]
    rfl
  · rw [if_neg hrej, if_neg hrej]
    cases desc with
    | true =>
      simp only [if_true]
      rw [List.map_reverse, hf]
    | false =>
      simp only [Bool.false_eq_true, if_false]
      exact hf

end ByScore

section Counting

variable {S : Type} [LinearOrder S]

theorem visit_count (min max : SSFreeRankInterval S) (l : List (store S))
    (hq : l.Pairwise (fun a b => max.greater b.KeyRank = true → max.greater a.KeyRank = true)) :
    ∀ i : Int,
      visit (fun (i : Int) (element : store S) =>
          if !min.less element.KeyRank then .ok (i, true)
          else if !max.greater element.KeyRank then .ok (i, false)
          else .ok (i + 1, true)) l i =
        .ok (i + ((l.filter (fun e => min.less e.KeyRank && max.greater e.KeyRank)).length
          : Int)) := by
  induction l with
  | nil => intro i; simp [visit]
  | cons e l ih =>
    intro i
    rw [List.pairwise_cons] at hq
    by_cases h1 : min.less e.KeyRank = true
    · by_cases h2 : max.greater e.KeyRank = true
      · simp only [visit, h1, h2, Bool.not_true, Bool.false_eq_true, if_false, ih hq.2,
          Bool.and_self, List.filter_cons_of_pos, List.length_cons]
        congr 1
        push_cast
        ring
      · have hnone : l.filter (fun e => min.less e.KeyRank && max.greater e.KeyRank) = [] := by
          rw [List.filter_eq_nil_iff]
          intro b hb hp
          rw [Bool.and_eq_true] at hp
          exact h2 (hq.1 b hb hp.2)
        have h2' : max.greater e.KeyRank = false := by simpa using h2
        simp [visit, h1, h2', hnone]
    · have h1' : min.less e.KeyRank = false := by simpa using h1
      simp only [visit, h1', Bool.not_false, if_true, Bool.not_true, Bool.false_eq_true,
        if_false, ih hq.2, Bool.false_and, List.filter_cons_of_neg, not_false_eq_true]

theorem Count_spec (s : SortedSet S) (ts : List Nat) (h : SetInv s ts)
    (min max : SSFreeRankInterval S) (hne : 0 < s.Len) :
    s.Count min max =
      .ok ((s.ascending.filter
        (fun e => min.less e.KeyRank && max.greater e.KeyRank)).length : Int) := by
  have hlen : s.Len.toNat = s.ascending.length := by
    have h1 : s.ascending.length = ts.length := by rw [h.ascending_eq, List.length_map]
    have h2 : s.Len = (ts.length : Int) := by
      show (s.dict.length : Int) = _
      rw [h.length_eq]
    omega
  unfold SortedSet.Count
  rw [ForEach_spec s ts h 0 s.Len false _ 0 (le_refl _) hne (le_of_lt hne) (le_refl _)]
  simp only [Bool.false_eq_true, if_false, Int.toNat_zero, List.drop_zero, sub_zero, hlen,
    List.take_length]
  rw [visit_count min max s.ascending]
  · simp
  · rw [h.ascending_eq]
    exact List.pairwise_map.mpr (h.inv.sorted.imp
      (fun hab hb => greater_anti max (storeLE_le hab) hb))

end Counting

section Removal

variable {S : Type} [LinearOrder S] [Zero S]

omit [Zero S] in
theorem removal_facade (d : List (GoString × store S)) (sl sl' : SSFreeSkiplist S)
    (ts C ts' : List Nat) (h : SetInv { dict := d, SSFreeSkiplist := sl } ts)
    (hperm : ts.Perm (C ++ ts')) (hinv : Inv sl'.obs ts') (hst : sl'.obs.st = sl.obs.st) :
    SetInv { dict := dictDeleteAll d (C.map sl.obs.st), SSFreeSkiplist := sl' } ts' ∧
      SortedSet.ascending { dict := dictDeleteAll d (C.map sl.obs.st), SSFreeSkiplist := sl' } =
        ts'.map sl.obs.st ∧
      (∀ k, dictGet (dictDeleteAll d (C.map sl.obs.st)) k =
        if k ∈ (C.map sl.obs.st).map (fun v => v.Key) then none else dictGet d k) ∧
      ((dictDeleteAll d (C.map sl.obs.st)).length : Int) = (d.length : Int) - C.length := by
  have hset := SetInv_removed d sl sl' ts C ts' h hperm hinv hst
  have hp : (d.map Prod.snd).Perm (C.map sl.obs.st ++ ts'.map sl.obs.st) := by
    rw [← List.map_append]
    exact h.perm.trans (hperm.map _)
  obtain ⟨_, _, _, hget⟩ := dictDeleteAll_spec (C.map sl.obs.st) d _ h.keys h.keyed hp
  refine ⟨hset, ?_, hget, ?_⟩
  · rw [hset.ascending_eq]
    show ts'.map sl'.obs.st = _
    rw [hst]
  · have h1 := hset.length_eq
    have h2 := h.length_eq
    have h3 := hperm.length_eq
    simp only [List.length_append] at h3
    show ((dictDeleteAll d (C.map sl.obs.st)).length : Int) = (d.length : Int) - C.length
    have h1' : (dictDeleteAll d (C.map sl.obs.st)).length = ts'.length := h1
    have h2' : d.length = ts.length := h2
    omega

theorem less_negInf (v : S) :
    (NegativeInfinityExtremum : SSFreeRankInterval S).less v = true := by
  simp [SSFreeRankInterval.less, NegativeInfinityExtremum]

theorem greater_posInf (v : S) :
    (PositiveInfinityExtremum : SSFreeRankInterval S).greater v = true := by
  simp [SSFreeRankInterval.greater, PositiveInfinityExtremum, PositiveInfinity,
    NegativeInfinity]

theorem unbounded_accepted :
    ¬ valuesRejected (NegativeInfinityExtremum : SSFreeRankInterval S)
      PositiveInfinityExtremum := by
  unfold valuesRejected NegativeInfinityExtremum PositiveInfinityExtremum
  simp

theorem getFirst_unbounded (sl : SSFreeSkiplist S) (ts : List Nat) (hinv : Inv sl.obs ts) :
    sl.getFirstInScoreRange NegativeInfinityExtremum PositiveInfinityExtremum =
      .ok ts.head? := by
  rw [getFirstInScoreRange_spec sl ts _ _ hinv, if_neg unbounded_accepted]
  congr 1
  cases ts with
  | nil => rfl
  | cons a l =>
    rw [List.dropWhile_cons_of_neg (by simp [less_negInf])]
    simp [Option.filter, greater_posInf]

theorem PopMin_full (s : SortedSet S) (ts : List Nat) (h : SetInv s ts) (k : Int)
    (hk : 0 < k) :
    ∃ s', s.PopMin k = .ok (s', s.ascending.take k.toNat) ∧ SetInv s' (ts.drop k.toNat) ∧
      s'.ascending = s.ascending.drop k.toNat ∧
      (∀ key, s'.Get key =
        if key ∈ (s.ascending.take k.toNat).map (fun v => v.Key) then none else s.Get key) ∧
      s'.Len = s.Len - (s.ascending.take k.toNat).length := by
  have hasc := h.ascending_eq
  obtain ⟨d, sl⟩ := s
  have hfirst := getFirst_unbounded sl ts h.inv
  cases ts with
  | nil =>
    simp only [List.map_nil] at hasc
    rw [hasc]
    simp only [List.take_nil, List.drop_nil, List.map_nil, List.length_nil]
    refine ⟨{ dict := d, SSFreeSkiplist := sl }, ?_, h, hasc, ?_, ?_⟩
    · simp only [SortedSet.PopMin, hfirst, List.head?_nil]
    · intro key
      simp
    · simp
  | cons a l =>
    obtain ⟨sl', C, _, hC, hrun, hinv', hst, _⟩ := RemoveRangeByScore_spec sl (a :: l)
      { limit := 0, Value := (sl.mem a).KeyRank, isOpenInterval := false }
      PositiveInfinityExtremum k h.inv (fun x y hxy hx => less_mono _ hxy hx)
    have hless : (⟨0, (sl.mem a).KeyRank, false⟩ : SSFreeRankInterval S).less
        (sl.obs.st a).KeyRank = true := by
      simp [SSFreeRankInterval.less, NegativeInfinity, PositiveInfinity, SSFreeSkiplist.obs]
    have hB : (a :: l).dropWhile (fun y =>
        !(⟨0, (sl.mem a).KeyRank, false⟩ : SSFreeRankInterval S).less (sl.obs.st y).KeyRank) =
        a :: l := List.dropWhile_cons_of_neg (by simp [hless])
    have hA : (a :: l).takeWhile (fun y =>
        !(⟨0, (sl.mem a).KeyRank, false⟩ : SSFreeRankInterval S).less (sl.obs.st y).KeyRank) =
        [] := List.takeWhile_cons_of_neg (by simp [hless])
    have hall : (a :: l).takeWhile (fun y =>
        (PositiveInfinityExtremum : SSFreeRankInterval S).greater (sl.obs.st y).KeyRank) =
        a :: l := by
      rw [List.takeWhile_eq_self_iff]
      intro x _
      exact greater_posInf _
    rw [hB, hall, if_pos hk] at hC
    rw [hA, hB, List.nil_append] at hinv'
    have hdrop : (a :: l).drop C.length = (a :: l).drop k.toNat := by
      rw [hC, List.length_take]
      by_cases hle : k.toNat ≤ (a :: l).length
      · rw [min_eq_left hle]
      · rw [min_eq_right (by omega), List.drop_length, List.drop_eq_nil_of_le (by omega)]
    rw [hdrop] at hinv'
    obtain ⟨hset, hasc', hget, hlen⟩ := removal_facade d sl sl' (a :: l) C
      ((a :: l).drop k.toNat) h
      (by rw [hC]; exact (List.take_append_drop _ _).symm ▸ List.Perm.refl _) hinv' hst
    have hCm : C.map sl.obs.st = (SortedSet.mk d sl).ascending.take k.toNat := by
      rw [hasc, hC, List.map_take]
    rw [hCm] at hset hasc' hget hlen hrun
    refine ⟨SortedSet.mk (dictDeleteAll d ((SortedSet.mk d sl).ascending.take k.toNat)) sl',
      ?_, hset, ?_, hget, ?_⟩
    · simp only [SortedSet.PopMin, hfirst, List.head?_cons, hrun]
    · rw [hasc', hasc, List.map_drop]
    · have : ((SortedSet.mk d sl).ascending.take k.toNat).length = C.length := by
        rw [← hCm, List.length_map]
      rw [this]
      exact hlen

omit [Zero S] in
theorem score_split (sl : SSFreeSkiplist S) (ts : List Nat) (min max : SSFreeRankInterval S)
    (hinv : Inv sl.obs ts) :
    ∃ X M Z, ts = X ++ (M ++ Z) ∧
      ts.takeWhile (fun y => !min.less (sl.obs.st y).KeyRank) = X ∧
      ts.dropWhile (fun y => !min.less (sl.obs.st y).KeyRank) = M ++ Z ∧
      (M ++ Z).takeWhile (fun y => max.greater (sl.obs.st y).KeyRank) = M ∧
      ts.filter (fun y => min.less (sl.obs.st y).KeyRank &&
        max.greater (sl.obs.st y).KeyRank) = M ∧
      ts.filter (fun y => !(min.less (sl.obs.st y).KeyRank &&
        max.greater (sl.obs.st y).KeyRank)) = X ++ Z := by
  obtain ⟨X, M, Z, hts, hX, hM, hZ, _⟩ := range_split
    (fun y => min.less (sl.obs.st y).KeyRank) (fun y => max.greater (sl.obs.st y).KeyRank) ts
    (hinv.sorted.imp (fun hab ha => less_mono min (storeLE_le hab) ha))
    (hinv.sorted.imp (fun hab hb => greater_anti max (storeLE_le hab) hb))
  have hhead : ∀ y ∈ (M ++ Z).head?, (!min.less (sl.obs.st y).KeyRank) = false := by
    intro y hy
    rcases List.mem_append.mp (List.mem_of_mem_head? hy) with hy | hy
    · simp [(hM y hy).1]
    · simp [(hZ y hy).1]
  refine ⟨X, M, Z, hts, ?_, ?_, ?_, ?_, ?_⟩
  · rw [hts]
    exact takeWhile_split _ X (M ++ Z) (fun x hx => by simp [hX x hx]) hhead
  · rw [hts]
    exact dropWhile_split _ X (M ++ Z) (fun x hx => by simp [hX x hx]) hhead
  · exact takeWhile_split _ M Z (fun m hm => (hM m hm).2)
      (fun z hz => (hZ z (List.mem_of_mem_head? hz)).2)
  · rw [hts]
    exact filter_split _ X M Z (fun x hx => by simp [hX x hx])
      (fun m hm => by simp [(hM m hm).1, (hM m hm).2])
      (fun z hz => by simp [(hZ z hz).2])
  · rw [hts, List.filter_append, List.filter_append]
    have h1 : X.filter (fun y => !(min.less (sl.obs.st y).KeyRank &&
        max.greater (sl.obs.st y).KeyRank)) = X :=
      List.filter_eq_self.mpr (fun x hx => by simp [hX x hx])
    have h2 : M.filter (fun y => !(min.less (sl.obs.st y).KeyRank &&
        max.greater (sl.obs.st y).KeyRank)) = [] :=
      List.filter_eq_nil_iff.mpr (fun m hm => by simp [(hM m hm).1, (hM m hm).2])
    have h3 : Z.filter (fun y => !(min.less (sl.obs.st y).KeyRank &&
        max.greater (sl.obs.st y).KeyRank)) = Z :=
      List.filter_eq_self.mpr (fun z hz => by simp [(hZ z hz).2])
    rw [h1, h2, h3, List.nil_append]

omit [Zero S] in
theorem RemoveByScore_full (s : SortedSet S) (ts : List Nat) (h : SetInv s ts)
    (min max : SSFreeRankInterval S) :
    ∃ s' ts',
      s.RemoveByScore min max = .ok (s', ((s.ascending.filter
        (fun e => min.less e.KeyRank && max.greater e.KeyRank)).length : Int)) ∧
      SetInv s' ts' ∧
      s'.ascending = s.ascending.filter
        (fun e => !(min.less e.KeyRank && max.greater e.KeyRank)) ∧
      (∀ key, s'.Get key =
        if key ∈ (s.ascending.filter
          (fun e => min.less e.KeyRank && max.greater e.KeyRank)).map (fun v => v.Key)
        then none else s.Get key) ∧
      s'.Len = s.Len - (s.ascending.filter
        (fun e => min.less e.KeyRank && max.greater e.KeyRank)).length := by
  have hasc := h.ascending_eq
  obtain ⟨d, sl⟩ := s
  obtain ⟨sl', C, _, hC, hrun, hinv', hst, _⟩ := RemoveRangeByScore_spec sl ts min max 0
    h.inv (fun x y hxy hx => less_mono _ hxy hx)
  obtain ⟨X, M, Z, hts, hX, hB, hT, hF, hN⟩ := score_split sl ts min max h.inv
  rw [if_neg (by decide), hB, hT] at hC
  subst hC
  rw [hX, hB, List.drop_left] at hinv'
  obtain ⟨hset, hasc', hget, hlen⟩ := removal_facade d sl sl' ts C (X ++ Z) h
    (by rw [hts]; exact List.perm_append_comm_assoc _ _ _) hinv' hst
  have hCm : C.map sl.obs.st = (SortedSet.mk d sl).ascending.filter
      (fun e => min.less e.KeyRank && max.greater e.KeyRank) := by
    rw [hasc, ← hF, List.filter_map]
    rfl
  have hXZ : (X ++ Z).map sl.obs.st = (SortedSet.mk d sl).ascending.filter
      (fun e => !(min.less e.KeyRank && max.greater e.KeyRank)) := by
    rw [hasc, ← hN, List.filter_map]
    rfl
  rw [hCm] at hset hget hrun
  rw [hCm, hXZ] at hasc'
  refine ⟨SortedSet.mk (dictDeleteAll d ((SortedSet.mk d sl).ascending.filter
      (fun e => min.less e.KeyRank && max.greater e.KeyRank))) sl', X ++ Z, ?_, hset, hasc',
    hget, ?_⟩
  · simp only [SortedSet.RemoveByScore, hrun]
  · have : ((SortedSet.mk d sl).ascending.filter
        (fun e => min.less e.KeyRank && max.greater e.KeyRank)).length = C.length := by
      rw [← hCm, List.length_map]
    rw [this]
    rw [hCm] at hlen
    exact hlen

omit [Zero S] in
theorem RemoveByRank_full (s : SortedSet S) (ts : List Nat) (h : SetInv s ts)
    (start stop : Int) (h1 : 0 ≤ start) (h2 : start ≤ stop) (h3 : stop ≤ s.Len) :
    ∃ s' ts',
      s.RemoveByRank start stop = .ok (s', stop - start) ∧ SetInv s' ts' ∧
      s'.ascending = s.ascending.take start.toNat ++ s.ascending.drop stop.toNat ∧
      (∀ key, s'.Get key =
        if key ∈ ((s.ascending.drop start.toNat).take (stop - start).toNat).map
          (fun v => v.Key)
        then none else s.Get key) ∧
      s'.Len = s.Len - (stop - start) := by
  have hasc := h.ascending_eq
  have hlen : s.Len = (ts.length : Int) := by
    show (s.dict.length : Int) = _
    rw [h.length_eq]
  obtain ⟨d, sl⟩ := s
  obtain ⟨sl', hrun, hinv', hst, _⟩ := RemoveRangeByRank_spec sl ts (start + 1) (stop + 1)
    h.inv
  have e1 : (start + 1 - 1).toNat = start.toNat := by omega
  have e2 : (stop + 1 - (((ts.take start.toNat).length : Int) + 1)).toNat
      = (stop - start).toNat := by
    rw [List.length_take]
    omega
  rw [e1, e2] at hrun hinv'
  have e3 : (ts.drop start.toNat).drop (stop - start).toNat = ts.drop stop.toNat := by
    rw [List.drop_drop]
    congr 1
    omega
  rw [e3] at hinv'
  obtain ⟨hset, hasc', hget, hl⟩ := removal_facade d sl sl' ts
    ((ts.drop start.toNat).take (stop - start).toNat)
    (ts.take start.toNat ++ ts.drop stop.toNat) h
    (by
      rw [← e3]
      nth_rewrite 1 [← List.take_append_drop start.toNat ts]
      nth_rewrite 1 [← List.take_append_drop (stop - start).toNat (ts.drop start.toNat)]
      exact List.perm_append_comm_assoc _ _ _)
    hinv' hst
  have hCm : ((ts.drop start.toNat).take (stop - start).toNat).map sl.obs.st =
      ((SortedSet.mk d sl).ascending.drop start.toNat).take (stop - start).toNat := by
    rw [hasc, List.map_take, List.map_drop]
  have hCl : (((ts.drop start.toNat).take (stop - start).toNat).length : Int)
      = stop - start := by
    rw [List.length_take, List.length_drop]
    omega
  rw [hCm] at hset hasc' hget hl
  refine ⟨SortedSet.mk (dictDeleteAll d
      (((SortedSet.mk d sl).ascending.drop start.toNat).take (stop - start).toNat)) sl',
    ts.take start.toNat ++ ts.drop stop.toNat, ?_, hset, ?_, hget, ?_⟩
  · simp only [SortedSet.RemoveByRank, hrun, hCm]
    rw [← hCm, List.length_map, hCl]
  · rw [hasc', hasc, List.map_append, List.map_take, List.map_drop]
  · rw [hCl] at hl
    exact hl

omit [LinearOrder S] [Zero S] in
theorem dictDelete_values (d : List (GoString × store S)) (key : GoString)
    (hk : ∀ e ∈ d, e.2.Key = e.1) :
    (dictDelete d key).map Prod.snd =
      (d.map Prod.snd).filter (fun e => decide (e.Key ≠ key)) := by
  unfold dictDelete
  rw [List.filter_map]
  congr 1
  apply List.filter_congr
  intro e he
  simp only [Function.comp, hk e he]

omit [LinearOrder S] [Zero S] in
theorem dictDelete_length (d : List (GoString × store S)) (key : GoString)
    (hnd : (d.map Prod.fst).Nodup) :
    ((dictDelete d key).length : Int) =
      d.length - (if (dictGet d key).isSome then 1 else 0) := by
  cases hg : dictGet d key with
  | none =>
    rw [dictDelete_absent d key ((dictGet_eq_none d key).mp hg)]
    simp
  | some v =>
    have := (dictDelete_perm d key v hnd ((dictGet_eq_some d key v hnd).mp hg)).length_eq
    simp only [List.length_cons] at this
    simp only [Option.isSome_some, if_true]
    omega

omit [Zero S] in
theorem Remove_full (s : SortedSet S) (ts : List Nat) (h : SetInv s ts) (key : GoString) :
    ∃ s' ts', s.Remove key = .ok (s', (s.Get key).isSome) ∧ SetInv s' ts' ∧
      s'.ascending = s.ascending.filter (fun e => decide (e.Key ≠ key)) ∧
      s'.Get key = none ∧ (∀ k, k ≠ key → s'.Get k = s.Get k) ∧
      s'.Len = s.Len - (if (s.Get key).isSome then 1 else 0) ∧
      ((s.Get key).isSome = false → s' = s) := by
  obtain ⟨s', ts', hrun, hset, hd, _, _⟩ := Remove_spec s ts key h
  refine ⟨s', ts', hrun, hset, ?_, ?_, ?_, ?_, ?_⟩
  · unfold SortedSet.ascending
    rw [hd, dictDelete_values _ _ h.keyed]
    refine insertionSort_eq _ _ ?_ ?_
    · exact (List.perm_insertionSort storeLE _).symm.filter _
    · have : (SortedSet.ascending s).Pairwise storeLT := by
        rw [h.ascending_eq]
        exact h.strict
      exact this.sublist (List.filter_sublist _)
  · show dictGet s'.dict key = none
    rw [hd]
    exact dictGet_delete_self _ _
  · intro k hk
    show dictGet s'.dict k = dictGet s.dict k
    rw [hd]
    exact dictGet_delete_ne _ _ _ hk
  · show (s'.dict.length : Int) = (s.dict.length : Int) - _
    rw [hd]
    exact dictDelete_length _ _ h.keys
  · intro hnone
    have hg : dictGet s.dict key = none := by
      cases hq : dictGet s.dict key with
      | none => rfl
      | some v =>
        have : (s.Get key).isSome = true := by
          show (dictGet s.dict key).isSome = true
          rw [hq]; rfl
        rw [this] at hnone
        cases hnone
    have : s.Remove key = .ok (s, false) := by
      simp only [SortedSet.Remove, hg]
    rw [this, hg] at hrun
    cases hrun
    rfl

end Removal

section Descending

variable {S : Type} [LinearOrder S]

theorem reached_sublist (p : Nat → Bool) (limit : Int) (C : List Nat) :
    (reached p limit C).Sublist C := by
  have h : (C.take 1 ++ C.tail.takeWhile p).Sublist C := by
    cases C with
    | nil => simp
    | cons a C =>
      show (a :: C.takeWhile p).Sublist (a :: C)
      exact (List.takeWhile_sublist p).cons₂ a
  unfold reached
  split
  · exact h
  · exact (List.take_sublist _ _).trans h

theorem scoreChain_sublist (sl : SSFreeSkiplist S) (ts : List Nat)
    (min max : SSFreeRankInterval S) :
    (scoreChain sl ts min max true).Sublist ts.reverse := by
  unfold scoreChain
  split
  · exact List.nil_sublist _
  · simp only [if_true]
    split
    · exact (List.takeWhile_sublist _).reverse
    · exact List.nil_sublist _

theorem RangeByScore_desc_sorted (s : SortedSet S) (ts : List Nat) (h : SetInv s ts)
    (min max : SSFreeRankInterval S) (offset limit : Int) :
    ∃ l, s.RangeByScore min max offset limit true = .ok l ∧
      l.Sublist s.ascending.reverse := by
  rw [RangeByScore_spec s ts h]
  refine ⟨_, rfl, ?_⟩
  split
  · exact List.nil_sublist _
  · rw [h.ascending_eq, ← List.map_reverse]
    exact (((reached_sublist _ _ _).trans (List.drop_sublist _ _)).trans
      (scoreChain_sublist _ ts min max)).map _

omit [LinearOrder S] in
theorem bitsLen_le (n : Nat) : ∀ fuel k, k < 2 ^ n → bitsLen fuel k ≤ n := by
  induction n with
  | zero =>
    intro fuel k hk
    have : k = 0 := by simpa using hk
    subst this
    cases fuel <;> simp [bitsLen]
  | succ n ih =>
    intro fuel k hk
    cases fuel with
    | zero => simp [bitsLen]
    | succ f =>
      by_cases h0 : k = 0
      · simp [bitsLen, h0]
      · simp only [bitsLen, h0, if_false]
        have : k / 2 < 2 ^ n := by
          rw [pow_succ] at hk
          omega
        have := ih f (k / 2) this
        omega

omit [LinearOrder S] in
theorem bitsLen_pos (fuel k : Nat) (hk : k ≠ 0) : 1 ≤ bitsLen (fuel + 1) k := by
  simp [bitsLen, hk]

omit [LinearOrder S] in
theorem randomLevel_range (r : Nat) :
    1 ≤ randomLevel r ∧ randomLevel r ≤ maxLevel + 1 ∧
      (randomLevel r = maxLevel + 1 ↔ r % 65535 = 0) := by
  have h1 : bitsLen 64 (r % 65535) ≤ 16 :=
    bitsLen_le 16 64 (r % 65535) (by have := Nat.mod_lt r (show 0 < 65535 by decide); omega)
  have h2 : r % 65535 ≠ 0 → 1 ≤ bitsLen 64 (r % 65535) := bitsLen_pos 63 _
  have h3 : r % 65535 = 0 → bitsLen 64 (r % 65535) = 0 := by
    intro h
    rw [h]
    rfl
  simp only [randomLevel, maxLevel]
  by_cases h : r % 65535 = 0
  · have := h3 h
    have e : (2 ^ 16 - 1 : Nat) = 65535 := by norm_num
    simp only [e] at *
    omega
  · have := h2 h
    have e : (2 ^ 16 - 1 : Nat) = 65535 := by norm_num
    simp only [e] at *
    omega

end Descending

section Spans

variable {S : Type} [LinearOrder S] [Zero S]

omit [LinearOrder S] [Zero S] in
theorem forwardBy_chain (sl : SSFreeSkiplist S) :
    ∀ (n x : Nat) (suf : List Nat), Links sl.obs (x :: suf) →
      (∀ z ∈ x :: suf, 1 ≤ sl.obs.hgt z) → sl.forwardBy n x = (x :: suf)[n]? := by
  intro n
  induction n with
  | zero => intro x suf _ _; simp [SSFreeSkiplist.forwardBy]
  | succ n ih =>
    intro x suf hl hp
    have h0 : 0 < sl.obs.hgt x := hp x (List.mem_cons_self _ _)
    have hl' := (Links_cons _ _ _).mp hl
    have hfw : sl.obs.fwd x 0 = suf.head? := by
      rw [(hl'.1 0 h0).1]
      exact nxt_zero _ suf (fun z hz => hp z (List.mem_cons_of_mem _ hz))
    cases suf with
    | nil =>
      simp [SSFreeSkiplist.forwardBy, getLevel_eq sl x 0 h0, hfw]
    | cons y suf =>
      simp only [SSFreeSkiplist.forwardBy, getLevel_eq sl x 0 h0, hfw, List.head?_cons]
      rw [ih y suf hl'.2 (fun z hz => hp z (List.mem_cons_of_mem _ hz)),
        List.getElem?_cons_succ]

theorem getElem_split (l : List Nat) :
    ∀ (n x : Nat), l[n]? = some x → ∃ P suf, l = P ++ x :: suf ∧ P.length = n := by
  induction l with
  | nil => intro n x h; simp at h
  | cons a l ih =>
    intro n x h
    cases n with
    | zero =>
      simp only [List.getElem?_cons_zero, Option.some.injEq] at h
      exact ⟨[], l, by rw [h]; rfl, rfl⟩
    | succ n =>
      rw [List.getElem?_cons_succ] at h
      obtain ⟨P, suf, e, hP⟩ := ih n x h
      exact ⟨a :: P, suf, by rw [e]; rfl, by simp [hP]⟩

theorem nxt_split (h : Nat → Nat) (i : Nat) (L : List Nat) (y : Nat)
    (hy : nxt h i L = some y) :
    ∃ L1 L2, L = L1 ++ y :: L2 ∧ (∀ z ∈ L1, h z ≤ i) ∧ i < h y ∧
      dst h i L = (L1.length : Int) + 1 := by
  induction L with
  | nil => simp at hy
  | cons a L ih =>
    rw [nxt_cons] at hy
    by_cases ha : i < h a
    · simp only [ha, if_true, Option.some.injEq] at hy
      subst hy
      exact ⟨[], L, rfl, by simp, ha, by rw [dst_cons, if_pos ha]; simp⟩
    · rw [if_neg ha] at hy
      obtain ⟨L1, L2, e, hlow, hhy, hd⟩ := ih hy
      refine ⟨a :: L1, L2, by rw [e]; rfl, ?_, hhy, ?_⟩
      · intro z hz
        rcases List.mem_cons.mp hz with rfl | hz
        · omega
        · exact hlow z hz
      · rw [dst_cons, if_neg ha, hd]
        simp only [List.length_cons]
        push_cast
        ring

omit [LinearOrder S] [Zero S] in
theorem fwd_some_lt (sl : SSFreeSkiplist S) (x i y : Nat) (h : sl.obs.fwd x i = some y) :
    i < sl.obs.hgt x := by
  by_contra hc
  have : (sl.mem x).level[i]? = none := List.getElem?_eq_none (by
    show (sl.mem x).level.length ≤ i
    exact Nat.le_of_not_lt hc)
  simp [SSFreeSkiplist.obs, this] at h

theorem ReachableList_Inv (sl : SSFreeSkiplist S) (h : ReachableList sl) :
    ∃ ts, Inv sl.obs ts := by
  induction h with
  | make => exact ⟨[], makeSSFreeSkiplist_Inv⟩
  | @insert sl sl' r key score n _ hrun ih =>
    obtain ⟨ts, hinv⟩ := ih
    by_cases hr : randomLevel r ≤ maxLevel
    · obtain ⟨sl1, A, B, _, h1, h2, _⟩ := insert_spec sl ts r key score hinv hr
      rw [h1] at hrun
      cases hrun
      exact ⟨_, h2⟩
    · obtain ⟨e, he⟩ := insert_overflow sl r key score (by omega)
      rw [he] at hrun
      cases hrun
  | @remove sl sl' key score b _ hrun ih =>
    obtain ⟨ts, hinv⟩ := ih
    rcases remove_spec sl ts key score hinv with
      ⟨sl1, A, t, B, _, _, h1, h2, _⟩ | ⟨_, h1⟩
    · rw [h1] at hrun
      cases hrun
      exact ⟨_, h2⟩
    · rw [h1] at hrun
      cases hrun
      exact ⟨ts, hinv⟩
  | @removeRangeByScore sl sl' min max limit removed _ hrun ih =>
    obtain ⟨ts, hinv⟩ := ih
    obtain ⟨sl1, C, _, _, h1, h2, _⟩ := RemoveRangeByScore_spec sl ts min max limit hinv
      (fun a b hab ha => less_mono min hab ha)
    rw [h1] at hrun
    cases hrun
    exact ⟨_, h2⟩
  | @removeRangeByRank sl sl' start stop removed _ hrun ih =>
    obtain ⟨ts, hinv⟩ := ih
    obtain ⟨sl1, h1, h2, _⟩ := RemoveRangeByRank_spec sl ts start stop hinv
    rw [h1] at hrun
    cases hrun
    exact ⟨_, h2⟩

omit [Zero S] in
theorem span_exact (sl : SSFreeSkiplist S) (ts : List Nat) (hinv : Inv sl.obs ts)
    (i : Nat) (hi : i < sl.level) (n x : Nat) (hx : sl.forwardBy n sl.header = some x)
    (y : Nat) (hy : sl.obs.fwd x i = some y) :
    0 < sl.obs.spn x i ∧ sl.forwardBy (sl.obs.spn x i).toNat x = some y ∧
      sl.forwardBy (n + (sl.obs.spn x i).toNat) sl.header = some y ∧
      ∀ m, sl.forwardBy m x = some y → (m : Int) = sl.obs.spn x i := by
  have hpos : ∀ z ∈ sl.header :: ts, 1 ≤ sl.obs.hgt z := by
    intro z hz
    rcases List.mem_cons.mp hz with rfl | hz
    · rw [show sl.header = sl.obs.header from rfl, hinv.hgt_header]
      decide
    · exact hinv.hgt_pos z hz
  have hnd : (sl.header :: ts).Nodup :=
    List.nodup_cons.mpr ⟨hinv.header_nmem, hinv.nodup⟩
  have hchain := forwardBy_chain sl n sl.header ts hinv.links hpos
  rw [hx] at hchain
  obtain ⟨P, suf, e, hP⟩ := getElem_split _ n x hchain.symm
  have hlinks : Links sl.obs (P ++ x :: suf) := by
    rw [← e]
    exact hinv.links
  have hxi := fwd_some_lt sl x i y hy
  obtain ⟨h1, h2⟩ := Links_at sl.obs P suf x hlinks i hxi
  rw [hy] at h1
  obtain ⟨L1, L2, hsuf, _, _, hd⟩ := nxt_split sl.obs.hgt i suf y h1.symm
  have hspn : sl.obs.spn x i = (L1.length : Int) + 1 := by
    rw [h2 hi, hd]
  have hposx : ∀ z ∈ x :: suf, 1 ≤ sl.obs.hgt z := by
    intro z hz
    apply hpos
    rw [e]
    exact List.mem_append_right _ hz
  have hfx := fun m => forwardBy_chain sl m x suf (Links_suffix _ P _ hlinks) hposx
  have hat : (x :: suf)[L1.length + 1]? = some y := by
    rw [List.getElem?_cons_succ, hsuf, List.getElem?_append_right (le_refl _),
      Nat.sub_self, List.getElem?_cons_zero]
  have htn : (sl.obs.spn x i).toNat = L1.length + 1 := by omega
  refine ⟨by omega, ?_, ?_, ?_⟩
  · rw [htn, hfx, hat]
  · rw [htn, forwardBy_chain sl _ sl.header ts hinv.links hpos, e, ← hP]
    rw [List.getElem?_append_right (by omega)]
    have : P.length + (L1.length + 1) - P.length = L1.length + 1 := by omega
    rw [this, hat]
  · intro m hm
    rw [hfx] at hm
    have hndx : (x :: suf).Nodup := by
      rw [e] at hnd
      exact (List.nodup_append.mp hnd).2.1
    have hlt : L1.length + 1 < (x :: suf).length := by
      rw [hsuf]
      simp
    have := List.getElem?_inj hlt hndx (hat.trans hm.symm)
    omega

end Spans

section RankTable

variable {S : Type} [LinearOrder S] [Zero S]

omit [Zero S] in
theorem getByRank_table (sl : SSFreeSkiplist S) (ts : List Nat) (hinv : Inv sl.obs ts)
    (r : Int) :
    (1 ≤ r ∧ r ≤ sl.length →
        ∃ x, sl.getByRank r = .ok (some x) ∧ x ∈ ts ∧
          sl.forwardBy r.toNat sl.header = some x ∧
          ∃ l, sl.members = .ok l ∧ l[(r - 1).toNat]? = some (sl.mem x).tostore) ∧
      (r = 0 → sl.getByRank r = .ok (some sl.header)) ∧
      (r < 0 ∨ sl.length < r → sl.getByRank r = .ok none) := by
  have hlen : sl.length = (ts.length : Int) := hinv.length_eq
  have hspec := getByRank_spec sl ts r hinv
  have hpos : ∀ z ∈ sl.header :: ts, 1 ≤ sl.obs.hgt z := by
    intro z hz
    rcases List.mem_cons.mp hz with rfl | hz
    · rw [show sl.header = sl.obs.header from rfl, hinv.hgt_header]
      decide
    · exact hinv.hgt_pos z hz
  refine ⟨?_, ?_, ?_⟩
  · rintro ⟨h1, h2⟩
    rw [hlen] at h2
    obtain ⟨n, hn⟩ : ∃ n, r.toNat = n + 1 := ⟨r.toNat - 1, by omega⟩
    have hnlt : n < ts.length := by omega
    rw [if_pos ⟨by omega, h2⟩, hn, getLast_take_succ _ ts n hnlt, List.head?_drop,
      List.getElem?_eq_getElem hnlt] at hspec
    refine ⟨ts[n], hspec, List.getElem_mem _, ?_, ts.map sl.obs.st,
      members_spec sl ts hinv, ?_⟩
    · rw [hn, forwardBy_chain sl (n + 1) sl.header ts hinv.links hpos,
        List.getElem?_cons_succ, List.getElem?_eq_getElem hnlt]
    · have e : (r - 1).toNat = n := by omega
      rw [e, List.getElem?_map, List.getElem?_eq_getElem hnlt]
      rfl
  · intro h0
    subst h0
    rw [if_pos ⟨le_refl _, by omega⟩] at hspec
    rw [hspec]
    rfl
  · intro h
    rw [hlen] at h
    rw [if_neg (by omega)] at hspec
    exact hspec

end RankTable

section RankOf

variable {S : Type} [LinearOrder S] [Zero S]

omit [Zero S] in
theorem beforeEq_iff (key : GoString) (score : S) (f : node S) :
    beforeEq key score f = true ↔ storeLE f.tostore ⟨key, score⟩ := by
  cases f with
  | mk st bw lv =>
    cases st with
    | mk k v =>
      simp only [beforeEq, storeLE, storeLT, Bool.or_eq_true, Bool.and_eq_true,
        decide_eq_true_eq, store.mk.injEq]
      constructor
      · rintro (h | ⟨h1, h2⟩)
        · exact Or.inl (Or.inl h)
        · rcases lt_or_eq_of_le h2 with h3 | h3
          · exact Or.inl (Or.inr ⟨h1, h3⟩)
          · exact Or.inr ⟨h3, h1⟩
      · rintro ((h | ⟨h1, h2⟩) | ⟨h1, h2⟩)
        · exact Or.inl h
        · exact Or.inr ⟨h1, le_of_lt h2⟩
        · exact Or.inr ⟨h2, le_of_eq h1⟩

omit [Zero S] in
theorem getRankLoop_spec (sl : SSFreeSkiplist S) (key : GoString) (score : S) (t : Nat)
    (R : List Nat) (hkey : (sl.mem t).Key = key) :
    ∀ (k x : Nat) (acc : Int) (P M : List Nat),
      k ≤ sl.obs.level → k ≤ sl.obs.hgt x →
      Links sl.obs (x :: (M ++ R)) →
      (∀ z ∈ M, sl.obs.hgt z ≤ k) → (∀ z ∈ M, 1 ≤ sl.obs.hgt z) →
      acc = P.length →
      (x :: M).getLast? = some t →
      (x :: M).Nodup →
      (∀ z ∈ M, (sl.mem z).Key = key → z = t) →
      (sl.mem x).Key ≠ key →
      CondOn sl.mem (fun _ f => beforeEq key score f) true (acc + 1) M →
      CondOn sl.mem (fun _ f => beforeEq key score f) false (acc + M.length + 1) R →
      M.length < sl.next →
      sl.getRankLoop key score k x acc = .ok ((P.length : Int) + M.length) := by
  intro k
  induction k with
  | zero =>
    intro x acc P M _ _ _ hM hpos _ hlast _ _ hx _ _ _
    exfalso
    have hM0 : M = [] := by
      cases M with
      | nil => rfl
      | cons a M =>
        have h1 := hM a (List.mem_cons_self _ _)
        have h2 := hpos a (List.mem_cons_self _ _)
        omega
    subst hM0
    simp only [List.getLast?_singleton, Option.some.injEq] at hlast
    subst hlast
    exact hx hkey
  | succ k ih =>
    intro x acc P M hk hx hl hM hpos hacc hlast hnd huniq hxk hT hF hfuel
    have hl0 := hl
    rw [Links_cons] at hl
    have hl1 := hl.1 k (by omega)
    obtain ⟨u1, r1, hscan, hcase⟩ := scan_spec sl k (fun _ f => beforeEq key score f)
      (by omega) R M x acc 0 sl.next
      (by omega) hl1.1 (by rw [hl1.2 (by omega)]; ring) hl.2 hfuel (by simpa using hT)
      (by
        have := CondOn_nxt sl.mem (fun _ f => beforeEq key score f) false sl.obs.hgt k R
          (acc + M.length) hF
        simpa using this)
    rcases hcase with ⟨rfl, rfl, hlow⟩ | ⟨M1, M2, rfl, h1, h2, h3⟩
    · simp only [SSFreeSkiplist.getRankLoop, hscan]
      rw [if_neg hxk]
      exact ih u1 r1 P M (by omega) (by omega) hl0 hlow hpos hacc hlast hnd huniq hxk hT hF
        hfuel
    · have hT' := (CondOn_append sl.mem (fun _ f => beforeEq key score f) true M1 (u1 :: M2)
        (acc + 1)).mp hT
      simp only [SSFreeSkiplist.getRankLoop, hscan]
      by_cases hu : (sl.mem u1).Key = key
      · rw [if_pos hu]
        have hut : u1 = t := huniq u1 (by simp) hu
        have hM2 : M2 = [] := by
          cases hM2 : M2 with
          | nil => rfl
          | cons b M2' =>
            exfalso
            rw [hM2] at hlast hnd
            have hl2 : (x :: (M1 ++ u1 :: b :: M2')).getLast? = (b :: M2').getLast? := by
              rw [show x :: (M1 ++ u1 :: b :: M2') = (x :: M1 ++ [u1]) ++ b :: M2' by simp,
                List.getLast?_append_cons]
            rw [hl2] at hlast
            have hmem : t ∈ b :: M2' := List.mem_of_mem_getLast? hlast
            rw [← hut] at hmem
            have hnd2 : (M1 ++ u1 :: b :: M2').Nodup := (List.nodup_cons.mp hnd).2
            have := (List.nodup_append.mp hnd2).2.1
            exact (List.nodup_cons.mp this).1 hmem
        subst hM2
        congr 1
        rw [h3, hacc]
        simp only [List.length_append, List.length_cons, List.length_nil]
        push_cast
        ring
      · rw [if_neg hu]
        have := ih u1 r1 (P ++ x :: M1) M2 (by omega) (by omega)
          (by
            have := Links_suffix sl.obs M1 (u1 :: M2 ++ R) (by simpa using hl.2)
            simpa using this)
          (fun z hz => h2 z hz)
          (fun z hz => hpos z (by simp [hz]))
          (by rw [h3, hacc]; simp; ring)
          (by
            rw [show x :: (M1 ++ u1 :: M2) = (x :: M1) ++ u1 :: M2 from rfl,
              List.getLast?_append_cons] at hlast
            exact hlast)
          (by
            have hnd2 : (M1 ++ u1 :: M2).Nodup := (List.nodup_cons.mp hnd).2
            exact (List.nodup_append.mp hnd2).2.1)
          (fun z hz => huniq z (by simp [hz]))
          hu
          (by
            have := hT'.2
            rw [CondOn_cons] at this
            have e : r1 + 1 = acc + 1 + (M1.length : Int) + 1 := by rw [h3]; ring
            rw [e]; exact this.2)
          (by
            have e : r1 + (M2.length : Int) + 1
                = acc + ((M1 ++ u1 :: M2).length : Int) + 1 := by
              rw [h3]; simp; ring
            rw [e]; exact hF)
          (by simp at hfuel; omega)
        rw [this]
        congr 1
        simp only [List.length_append, List.length_cons]
        push_cast
        ring

omit [Zero S] in
theorem storeLE_antisymm {a b : store S} (h1 : storeLE a b) (h2 : storeLE b a) : a = b := by
  rcases h1 with h1 | h1
  · rcases h2 with h2 | h2
    · exact (storeLT_asymm h1 h2).elim
    · exact h2.symm
  · exact h1

omit [Zero S] in
theorem getRank_spec (sl : SSFreeSkiplist S) (ts : List Nat) (hinv : Inv sl.obs ts)
    (A R : List Nat) (t : Nat) (hts : ts = A ++ t :: R)
    (huniq : ∀ z ∈ ts, (sl.mem z).Key = (sl.mem t).Key → z = t)
    (hhead : (sl.mem sl.header).Key ≠ (sl.mem t).Key) :
    sl.getRank (sl.mem t).Key (sl.mem t).KeyRank = .ok ((A.length : Int) + 1) := by
  subst hts
  have hst : ∀ y, sl.obs.st y = (sl.mem y).tostore := fun _ => rfl
  have heta : (⟨(sl.mem t).Key, (sl.mem t).KeyRank⟩ : store S) = (sl.mem t).tostore := rfl
  have hs := List.pairwise_append.mp hinv.sorted
  have hnd := List.nodup_append.mp hinv.nodup
  have hT : ∀ y ∈ A ++ [t], beforeEq (sl.mem t).Key (sl.mem t).KeyRank (sl.mem y) = true := by
    intro y hy
    rw [beforeEq_iff, heta]
    rcases List.mem_append.mp hy with hy | hy
    · exact hs.2.2 y hy t (List.mem_cons_self _ _)
    · rw [List.mem_singleton.mp hy]
      exact Or.inr rfl
  have hF : ∀ y ∈ R, beforeEq (sl.mem t).Key (sl.mem t).KeyRank (sl.mem y) = false := by
    intro y hy
    cases hb : beforeEq (sl.mem t).Key (sl.mem t).KeyRank (sl.mem y) with
    | false => rfl
    | true =>
      exfalso
      rw [beforeEq_iff, heta] at hb
      have h1 : storeLE (sl.mem t).tostore (sl.mem y).tostore :=
        (List.pairwise_cons.mp hs.2.1).1 y hy
      have h2 := storeLE_antisymm hb h1
      have hkey : (sl.mem y).Key = (sl.mem t).Key := congrArg store.Key h2
      have hyt := huniq y (List.mem_append_right _ (List.mem_cons_of_mem _ hy)) hkey
      rw [hyt] at hy
      exact (List.nodup_cons.mp hnd.2.1).1 hy
  have key := getRankLoop_spec sl (sl.mem t).Key (sl.mem t).KeyRank t R rfl sl.level sl.header
    0 [] (A ++ [t]) (le_refl _)
    (by
      have := hinv.hgt_header
      have := hinv.level_le
      show sl.obs.level ≤ sl.obs.hgt sl.obs.header
      omega)
    (by
      have := hinv.links
      rw [show A ++ [t] ++ R = A ++ t :: R by simp]
      exact this)
    (fun z hz => hinv.hgt_le z (by
      rcases List.mem_append.mp hz with hz | hz
      · exact List.mem_append_left _ hz
      · rw [List.mem_singleton.mp hz]; simp))
    (fun z hz => hinv.hgt_pos z (by
      rcases List.mem_append.mp hz with hz | hz
      · exact List.mem_append_left _ hz
      · rw [List.mem_singleton.mp hz]; simp))
    (by simp)
    (by
      rw [show sl.header :: (A ++ [t]) = (sl.header :: A) ++ [t] from rfl,
        List.getLast?_append_cons]
      rfl)
    (by
      refine List.nodup_cons.mpr ⟨?_, ?_⟩
      · intro hm
        apply hinv.header_nmem
        show sl.header ∈ A ++ t :: R
        rcases List.mem_append.mp hm with hm | hm
        · exact List.mem_append_left _ hm
        · rw [List.mem_singleton.mp hm]; simp
      · have : (A ++ [t]).Sublist (A ++ t :: R) :=
          List.Sublist.append_left (List.cons_sublist_cons.mpr (List.nil_sublist _)) A
        exact hinv.nodup.sublist this)
    (fun z hz => huniq z (by
      rcases List.mem_append.mp hz with hz | hz
      · exact List.mem_append_left _ hz
      · rw [List.mem_singleton.mp hz]; simp))
    hhead
    (CondOn_const sl.mem _ true _ _ hT)
    (CondOn_const sl.mem _ false _ _ hF)
    (by
      have := hinv.len_lt
      simp only [List.length_append, List.length_cons, List.length_nil] at this ⊢
      show A.length + 1 < sl.obs.next
      omega)
  unfold SSFreeSkiplist.getRank
  rw [key]
  congr 1
  simp

end RankOf

section RankInverse

variable {S : Type} [LinearOrder S] [Zero S]

omit [Zero S] in
theorem getRank_at (sl : SSFreeSkiplist S) (ts : List Nat) (hinv : Inv sl.obs ts) (n : Nat)
    (hn : n < ts.length) (hkey : (sl.mem ts[n]).Key ≠ [])
    (huniq : ∀ i e, (ts.map sl.obs.st)[i]? = some e → e.Key = (sl.mem ts[n]).Key → i = n) :
    sl.getRank (sl.mem ts[n]).Key (sl.mem ts[n]).KeyRank = .ok ((n : Int) + 1) := by
  have hts : ts = ts.take n ++ ts[n] :: ts.drop (n + 1) := by
    rw [← List.drop_eq_getElem_cons hn, List.take_append_drop]
  have := getRank_spec sl ts hinv (ts.take n) (ts.drop (n + 1)) ts[n] hts
    (by
      intro z hz hk
      obtain ⟨i, hi, rfl⟩ := List.getElem_of_mem hz
      have := huniq i (sl.obs.st ts[i])
        (by rw [List.getElem?_map, List.getElem?_eq_getElem hi]; rfl) hk
      subst this
      rfl)
    (by
      have hk : (sl.mem sl.header).Key = [] := hinv.header_key
      rw [hk]
      exact fun h => hkey h.symm)
  rw [this]
  congr 1
  rw [List.length_take, Nat.min_eq_left (le_of_lt hn)]

end RankInverse

section RankBoth

variable {S : Type} [LinearOrder S] [Zero S]

omit [Zero S] in
theorem getByRank_inverse (sl : SSFreeSkiplist S) (ts : List Nat) (hinv : Inv sl.obs ts)
    (r : Int) (h1 : 1 ≤ r) (h2 : r ≤ sl.length) :
    ∃ x l, sl.getByRank r = .ok (some x) ∧ x ∈ ts ∧
      sl.forwardBy r.toNat sl.header = some x ∧
      sl.members = .ok l ∧ l[(r - 1).toNat]? = some (sl.mem x).tostore ∧
      ((sl.mem x).Key ≠ [] →
        (∀ i e, l[i]? = some e → e.Key = (sl.mem x).Key → i = (r - 1).toNat) →
        sl.getRank (sl.mem x).Key (sl.mem x).KeyRank = .ok r) := by
  have hlen : sl.length = (ts.length : Int) := hinv.length_eq
  have hspec := getByRank_spec sl ts r hinv
  have hpos : ∀ z ∈ sl.header :: ts, 1 ≤ sl.obs.hgt z := by
    intro z hz
    rcases List.mem_cons.mp hz with rfl | hz
    · rw [show sl.header = sl.obs.header from rfl, hinv.hgt_header]
      decide
    · exact hinv.hgt_pos z hz
  rw [hlen] at h2
  obtain ⟨n, hn⟩ : ∃ n, r.toNat = n + 1 := ⟨r.toNat - 1, by omega⟩
  have hnlt : n < ts.length := by omega
  have e : (r - 1).toNat = n := by omega
  rw [if_pos ⟨by omega, h2⟩, hn, getLast_take_succ _ ts n hnlt, List.head?_drop,
    List.getElem?_eq_getElem hnlt] at hspec
  refine ⟨ts[n], ts.map sl.obs.st, hspec, List.getElem_mem _, ?_, members_spec sl ts hinv,
    ?_, ?_⟩
  · rw [hn, forwardBy_chain sl (n + 1) sl.header ts hinv.links hpos,
      List.getElem?_cons_succ, List.getElem?_eq_getElem hnlt]
  · rw [e, List.getElem?_map, List.getElem?_eq_getElem hnlt]
    rfl
  · intro hkey huniq
    rw [e] at huniq
    rw [getRank_at sl ts hinv n hnlt hkey huniq]
    congr 1
    omega

end RankBoth

section Claims

variable {S : Type} [LinearOrder S] [Zero S]

theorem setA_run : (Make : SortedSet Int).Add 40000 keyA 1 = .ok (setA, true) := by rfl

theorem setAB_run : setA.Add 20000 keyB 2 = .ok (setAB, true) := by rfl

theorem setABC_run : setAB.Add 5000 keyC 1 = .ok (setABC, true) := by rfl

theorem setABC_reachable : Reachable setABC :=
  Reachable.add (Reachable.add (Reachable.add Reachable.make setA_run) setAB_run) setABC_run

theorem listABC_reachable : ReachableList listABC :=
  ReachableList.insert (ReachableList.insert (ReachableList.insert ReachableList.make
    (by rfl : (makeSSFreeSkiplist : SSFreeSkiplist Int).insert 40000 keyA 1 = .ok (listA, 1)))
    (by rfl : listA.insert 20000 keyB 2 = .ok (listAB, 2)))
    (by rfl : listAB.insert 5000 keyC 1 = .ok (listABC, 3))

theorem setABC_ascending :
    setABC.ascending = [⟨keyA, 1⟩, ⟨keyC, 1⟩, ⟨keyB, 2⟩] := by rfl

/-- C1: in every sorted set that `Make` and the calls of `Add`, `Remove`, `RemoveByScore`,
`RemoveByRank` and `PopMin` that return produce, following the level-0 forward links from
the header meets the members sorted by `(score, key)`, strictly ascending. -/
theorem members_ascending (s : SortedSet S) (h : Reachable s) :
    s.SSFreeSkiplist.members = .ok s.ascending ∧ s.ascending.Pairwise storeLT := by
  obtain ⟨ts, hs⟩ := Reachable_SetInv s h
  rw [hs.ascending_eq]
  exact ⟨members_spec _ ts hs.inv, hs.strict⟩

/-- After `Add("a", 1.0)`, `Add("b", 2.0)`, `Add("c", 1.0)` the level-0 chain is a, c, b. -/
theorem members_ascending_witness :
    Reachable setABC ∧
      setABC.SSFreeSkiplist.members = .ok [⟨keyA, 1⟩, ⟨keyC, 1⟩, ⟨keyB, 2⟩] ∧
      setABC.ascending.Pairwise storeLT :=
  ⟨setABC_reachable,
    setABC_ascending ▸ (members_ascending setABC setABC_reachable).1,
    (members_ascending setABC setABC_reachable).2⟩

/-- After every call of a mutating method that returns, the hash index and the skip list
agree: `len(dict)` is the field `length`, the level-0 chain holds exactly the entries of
`dict`, every entry is filed under its own key, and no key occurs on two nodes of the
chain. -/
theorem dict_matches_chain (s : SortedSet S) (h : Reachable s) :
    s.Len = s.SSFreeSkiplist.length ∧
      ∃ l, s.SSFreeSkiplist.members = .ok l ∧ l.Perm (s.dict.map Prod.snd) ∧
        (l.map store.Key).Nodup ∧ (∀ e ∈ s.dict, e.2.Key = e.1) ∧
        (s.dict.map Prod.fst).Nodup := by
  obtain ⟨ts, hs⟩ := Reachable_SetInv s h
  refine ⟨?_, ts.map s.SSFreeSkiplist.obs.st, members_spec _ ts hs.inv, hs.perm.symm, ?_,
    hs.keyed, hs.keys⟩
  · show (s.dict.length : Int) = s.SSFreeSkiplist.obs.length
    rw [hs.inv.length_eq, hs.length_eq]
  · have h1 : (s.dict.map Prod.snd).map store.Key = s.dict.map Prod.fst := by
      rw [List.map_map]
      exact List.map_congr_left (fun e he => hs.keyed e he)
    have h2 := (hs.perm.map store.Key).nodup_iff.mp (h1 ▸ hs.keys)
    exact h2

/-- The agreement on the set after the adds of a, b, c: three entries on both sides. -/
theorem dict_matches_chain_witness :
    Reachable setABC ∧ setABC.Len = 3 ∧ setABC.Len = setABC.SSFreeSkiplist.length :=
  ⟨setABC_reachable, by rfl, (dict_matches_chain setABC setABC_reachable).1⟩

/-- C2: when the level drawn is 17, `Add` panics with the entry written into `dict` and no
node linked or counted.  After `Add("a", 1.0)` on a fresh set, `dict` has one entry, which
`Get` finds, while `length` is 0 and the level-0 chain is empty; after `Add("c", 1.0)` on the
set of a, b, `dict` has three entries and the chain the two nodes of a and b; after
`Add("a", 5.0)` on the set of a, b, the node of a is removed and `dict` holds `("a", 5.0)`. -/
theorem Add_panic_leaves_dict_ahead :
    randomLevel 0 = 17 ∧
      (Make : SortedSet Int).Add 0 keyA 1 = .error Err.indexOutOfRange ∧
      ((Make : SortedSet Int).addPanicked keyA 1).map
          (fun s => (s.Len, s.Get keyA, s.SSFreeSkiplist.length, s.SSFreeSkiplist.members)) =
        .ok (1, some ⟨keyA, 1⟩, 0, .ok []) ∧
      setAB.Add 0 keyC 1 = .error Err.indexOutOfRange ∧
      (setAB.addPanicked keyC 1).map
          (fun s => (s.Len, s.Get keyC, s.SSFreeSkiplist.length, s.SSFreeSkiplist.members)) =
        .ok (3, some ⟨keyC, 1⟩, 2, .ok [⟨keyA, 1⟩, ⟨keyB, 2⟩]) ∧
      setAB.Add 0 keyA 5 = .error Err.indexOutOfRange ∧
      (setAB.addPanicked keyA 5).map
          (fun s => (s.Len, s.Get keyA, s.SSFreeSkiplist.length, s.SSFreeSkiplist.members)) =
        .ok (2, some ⟨keyA, 5⟩, 1, .ok [⟨keyB, 2⟩]) :=
  ⟨by rfl, by rfl, by rfl, by rfl, by rfl, by rfl, by rfl⟩

omit [LinearOrder S] [Zero S] in
theorem visit_total {σ : Type} (consumer : σ → store S → Except Err (σ × Bool))
    (hc : ∀ st e, ∃ r, consumer st e = .ok r) (l : List (store S)) :
    ∀ init, ∃ r, visit consumer l init = .ok r := by
  induction l with
  | nil => exact fun init => ⟨init, rfl⟩
  | cons e l ih =>
    intro init
    obtain ⟨⟨s', cont⟩, hr⟩ := hc init e
    cases cont with
    | false => exact ⟨s', by simp only [visit, hr]; rfl⟩
    | true =>
      obtain ⟨r, h⟩ := ih s'
      exact ⟨r, by simp only [visit, hr]; exact h⟩

omit [LinearOrder S] [Zero S] in
theorem dictSet_length (d : List (GoString × store S)) (k : GoString) (v : store S)
    (hnd : (d.map Prod.fst).Nodup) :
    ((dictSet d k v).length : Int) = d.length + (if (dictGet d k).isNone then 1 else 0) := by
  cases hg : dictGet d k with
  | none =>
    have := dictDelete_absent d k ((dictGet_eq_none d k).mp hg)
    simp [dictSet, this]
  | some v0 =>
    have hmem := (dictGet_eq_some d k v0 hnd).mp hg
    have := (dictDelete_perm d k v0 hnd hmem).length_eq
    simp only [List.length_cons] at this
    simp [dictSet, this]

/-- The contract of `Add` when the level drawn is within 1..16: the result says whether the
key is new, the key then has the given score, no other key is touched, and `Len()` grows by
one exactly for a new key. -/
theorem Add_contract (s : SortedSet S) (h : Reachable s) (r : Nat) (key : GoString)
    (score : S) (hr : randomLevel r ≤ maxLevel) :
    ∃ s', s.Add r key score = .ok (s', (s.Get key).isNone) ∧ Reachable s' ∧
      s'.Get key = some ⟨key, score⟩ ∧ (∀ k, k ≠ key → s'.Get k = s.Get k) ∧
      s'.Len = s.Len + (if (s.Get key).isNone then 1 else 0) := by
  obtain ⟨ts, hs⟩ := Reachable_SetInv s h
  obtain ⟨s', ts', hrun, _, hd⟩ := Add_spec s ts r key score hs (Or.inl hr)
  refine ⟨s', hrun, Reachable.add h hrun, ?_, ?_, ?_⟩
  · show dictGet s'.dict key = _
    rw [hd]
    exact dictGet_set_self _ _ _
  · intro k hk
    show dictGet s'.dict k = dictGet s.dict k
    rw [hd]
    exact dictGet_set_ne _ _ _ _ hk
  · show (s'.dict.length : Int) = (s.dict.length : Int) + _
    rw [hd]
    exact dictSet_length _ _ _ hs.keys

/-- C3: `Add` of a new key panics when the level drawn is 17, which `randomLevel` returns
when the random number is a multiple of 65535: on a fresh set `Add("a", 1.0)` then returns
nothing, although the key was not a member. -/
theorem Add_panics_on_level_17 :
    randomLevel 0 = 17 ∧ (Make : SortedSet Int).Get keyA = none ∧
      (Make : SortedSet Int).Add 0 keyA 1 = .error Err.indexOutOfRange :=
  ⟨by rfl, by rfl, by rfl⟩

/-- C4: the member with the empty key gets rank -1 when the list has a level above it: the
set holds `("", 1.0)` and `("z", 2.0)`, the empty key is its smallest member, and
`GetRank("", false)` is -1, not 0. -/
theorem GetRank_empty_key :
    Reachable setEZ ∧ setEZ.Get [] = some ⟨[], 1⟩ ∧
      setEZ.ascending = [⟨[], 1⟩, ⟨keyZ, 2⟩] ∧
      setEZ.GetRank [] false = .ok (-1) ∧ setEZ.GetRank keyZ false = .ok 1 :=
  ⟨Reachable.add (Reachable.add Reachable.make
      (by rfl : (Make : SortedSet Int).Add 40000 [] 1 =
        .ok (orMake ((Make : SortedSet Int).Add 40000 [] 1), true)))
      (by rfl : (orMake ((Make : SortedSet Int).Add 40000 [] 1)).Add 20000 keyZ 2 =
        .ok (setEZ, true)),
    by rfl, by rfl, by rfl, by rfl⟩

/-- C5: in a set with `0 <= start < Len()` and `start <= stop <= Len()`, `Range(start,
stop, false)` returns the members at positions `start .. stop-1` of the ascending list, and
`Range(start, stop, true)` those at positions `start .. stop-1` of the reversed list. -/
theorem Range_positions (s : SortedSet S) (h : Reachable s) (start stop : Int)
    (h1 : 0 ≤ start) (h2 : start < s.Len) (h3 : start ≤ stop) (h4 : stop ≤ s.Len) :
    s.Range start stop false =
        .ok (((s.ascending.drop start.toNat).take (stop - start).toNat).map some) ∧
      s.Range start stop true =
        .ok (((s.ascending.reverse.drop start.toNat).take (stop - start).toNat).map some) := by
  obtain ⟨ts, hs⟩ := Reachable_SetInv s h
  exact ⟨Range_spec s ts hs start stop false h1 h2 h3 h4,
    Range_spec s ts hs start stop true h1 h2 h3 h4⟩

/-- On the set of a, b, c: `Range(1, 3, false)` is c, b and `Range(1, 3, true)` is c, a. -/
theorem Range_positions_witness :
    Reachable setABC ∧ (0 : Int) ≤ 1 ∧ 1 < setABC.Len ∧ (1 : Int) ≤ 3 ∧ 3 ≤ setABC.Len ∧
      setABC.Range 1 3 false = .ok [some ⟨keyC, 1⟩, some ⟨keyB, 2⟩] ∧
      setABC.Range 1 3 true = .ok [some ⟨keyC, 1⟩, some ⟨keyA, 1⟩] :=
  ⟨setABC_reachable, by decide, by decide, by decide, by decide,
    Range_positions setABC setABC_reachable 1 3 (by decide) (by decide) (by decide)
      (by decide)⟩

/-- C6, the counterexample: on an empty set `ForEach(0, 0, ...)` panics with the message of
an illegal start, and so does `start = stop = Len()` on the set of a, b, c. -/
theorem ForEach_start_at_count :
    (Make : SortedSet Int).Len = 0 ∧
      (Make : SortedSet Int).ForEach 0 0 false countVisitor 0 = .error Err.illegalStart ∧
      setABC.Len = 3 ∧ setABC.ForEach 3 3 false countVisitor 0 = .error Err.illegalStart :=
  ⟨by rfl, by rfl, by rfl, by rfl⟩

/-- C6, amended: `ForEach(start, stop, desc, visitor)` panics with a range message exactly
when NOT (`0 <= start < count` and `start <= stop <= count`); inside these bounds it visits
and returns (the visitor not panicking).  On an empty set every call panics. -/
theorem ForEach_bounds {σ : Type} (s : SortedSet S) (h : Reachable s) (start stop : Int)
    (desc : Bool) (consumer : σ → store S → Except Err (σ × Bool)) (init : σ)
    (hc : ∀ st e, ∃ r, consumer st e = .ok r) :
    (¬ (0 ≤ start ∧ start < s.Len ∧ start ≤ stop ∧ stop ≤ s.Len) →
        s.ForEach start stop desc consumer init = .error Err.illegalStart ∨
        s.ForEach start stop desc consumer init = .error Err.illegalEnd) ∧
      (0 ≤ start ∧ start < s.Len ∧ start ≤ stop ∧ stop ≤ s.Len →
        ∃ r, s.ForEach start stop desc consumer init = .ok r) := by
  obtain ⟨ts, hs⟩ := Reachable_SetInv s h
  constructor
  · intro hb
    by_cases h1 : start < 0 ∨ start ≥ s.Len
    · left
      simp only [SortedSet.ForEach, h1, if_true]
    · right
      have h2 : stop < start ∨ stop > s.Len := by omega
      simp only [SortedSet.ForEach, h1, h2, if_true, if_false]
  · rintro ⟨h1, h2, h3, h4⟩
    rw [ForEach_spec s ts hs start stop desc consumer init h1 h2 h3 h4]
    exact visit_total consumer hc _ init

/-- On the set of a, b, c the call `ForEach(0, 3, false, ...)` returns, having counted three
members. -/
theorem ForEach_bounds_witness :
    Reachable setABC ∧ (∀ st e, ∃ r, countVisitor st e = .ok r) ∧
      ((0 : Int) ≤ 0 ∧ 0 < setABC.Len ∧ (0 : Int) ≤ 3 ∧ 3 ≤ setABC.Len) ∧
      (∃ r, setABC.ForEach 0 3 false countVisitor 0 = .ok r) ∧
      ¬ ((0 : Int) ≤ 3 ∧ 3 < setABC.Len ∧ (3 : Int) ≤ 3 ∧ 3 ≤ setABC.Len) ∧
      (setABC.ForEach 3 3 false countVisitor 0 = .error Err.illegalStart ∨
        setABC.ForEach 3 3 false countVisitor 0 = .error Err.illegalEnd) :=
  ⟨setABC_reachable, fun st _ => ⟨(st + 1, true), rfl⟩,
    ⟨by decide, by decide, by decide, by decide⟩,
    (ForEach_bounds setABC setABC_reachable 0 3 false countVisitor 0
      (fun st _ => ⟨(st + 1, true), rfl⟩)).2 ⟨by decide, by decide, by decide, by decide⟩,
    by decide,
    (ForEach_bounds setABC setABC_reachable 3 3 false countVisitor 0
      (fun st _ => ⟨(st + 1, true), rfl⟩)).1 (by decide)⟩

omit [Zero S] in
theorem finite_bounds (lv uv v : S) (lo uo : Bool) :
    ((⟨0, lv, lo⟩ : SSFreeRankInterval S).less v &&
      (⟨0, uv, uo⟩ : SSFreeRankInterval S).greater v) = withinBounds lv lo uv uo v := by
  unfold SSFreeRankInterval.less SSFreeRankInterval.greater withinBounds
    NegativeInfinity PositiveInfinity
  cases lo <;> cases uo <;> simp

omit [Zero S] in
theorem rejected_empty (lv uv : S) (lo uo : Bool) (l : List (store S))
    (h : valuesRejected (⟨0, lv, lo⟩ : SSFreeRankInterval S) ⟨0, uv, uo⟩) :
    l.filter (fun e => withinBounds lv lo uv uo e.KeyRank) = [] := by
  rw [List.filter_eq_nil_iff]
  intro e _
  unfold valuesRejected at h
  unfold withinBounds
  simp only at h
  rw [decide_eq_true_eq]
  rintro ⟨ha, hb⟩
  have ha' : lv ≤ e.KeyRank := by
    cases lo
    · simpa using ha
    · exact le_of_lt (by simpa using ha)
  have hb' : e.KeyRank ≤ uv := by
    cases uo
    · simpa using hb
    · exact le_of_lt (by simpa using hb)
  rcases h with h | ⟨h, h' | h'⟩
  · exact absurd (le_trans ha' hb') (not_le.mpr h)
  · subst h'
    have ha2 : lv < e.KeyRank := by simpa using ha
    exact absurd (lt_of_lt_of_le ha2 hb') (by rw [h]; exact lt_irrefl _)
  · subst h'
    have hb2 : e.KeyRank < uv := by simpa using hb
    exact absurd (lt_of_le_of_lt ha' hb2) (by rw [h]; exact lt_irrefl _)

/-- C7: for finite bounds `lv` and `uv`, each inclusive or exclusive, `RangeByScore(lower,
upper, 0, -1, false)` returns exactly the members whose score satisfies both bounds, in
ascending `(score, key)` order, and with `desc = true` the same members in the reverse
order; a malformed range satisfies no score, so the list is empty. -/
theorem RangeByScore_finite (s : SortedSet S) (h : Reachable s) (lv uv : S) (lo uo : Bool) :
    s.RangeByScore ⟨0, lv, lo⟩ ⟨0, uv, uo⟩ 0 (-1) false =
        .ok (s.ascending.filter (fun e => withinBounds lv lo uv uo e.KeyRank)) ∧
      s.RangeByScore ⟨0, lv, lo⟩ ⟨0, uv, uo⟩ 0 (-1) true =
        .ok (s.ascending.filter (fun e => withinBounds lv lo uv uo e.KeyRank)).reverse ∧
      (uv < lv ∨ (lv = uv ∧ (lo = true ∨ uo = true)) →
        s.ascending.filter (fun e => withinBounds lv lo uv uo e.KeyRank) = []) := by
  obtain ⟨ts, hs⟩ := Reachable_SetInv s h
  have hf : (fun e : store S => (⟨0, lv, lo⟩ : SSFreeRankInterval S).less e.KeyRank &&
      (⟨0, uv, uo⟩ : SSFreeRankInterval S).greater e.KeyRank) =
      fun e => withinBounds lv lo uv uo e.KeyRank :=
    funext (fun e => finite_bounds lv uv e.KeyRank lo uo)
  have h1 := RangeByScore_all s ts hs ⟨0, lv, lo⟩ ⟨0, uv, uo⟩ false
  have h2 := RangeByScore_all s ts hs ⟨0, lv, lo⟩ ⟨0, uv, uo⟩ true
  rw [hf] at h1 h2
  refine ⟨?_, ?_, fun hm => rejected_empty lv uv lo uo _ hm⟩
  · rw [h1]
    by_cases hrej : valuesRejected (⟨0, lv, lo⟩ : SSFreeRankInterval S) ⟨0, uv, uo⟩
    · rw [if_pos hrej, rejected_empty lv uv lo uo _ hrej]
    · rw [if_neg hrej]
      rfl
  · rw [h2]
    by_cases hrej : valuesRejected (⟨0, lv, lo⟩ : SSFreeRankInterval S) ⟨0, uv, uo⟩
    · rw [if_pos hrej, rejected_empty lv uv lo uo _ hrej]
      rfl
    · rw [if_neg hrej]
      rfl

/-- On the set of a, b, c the range `[1.0 inclusive, 2.0 exclusive]` gives a, c. -/
theorem RangeByScore_finite_witness :
    Reachable setABC ∧
      setABC.RangeByScore ⟨0, 1, false⟩ ⟨0, 2, true⟩ 0 (-1) false =
        .ok [⟨keyA, 1⟩, ⟨keyC, 1⟩] ∧
      setABC.RangeByScore ⟨0, 1, false⟩ ⟨0, 2, true⟩ 0 (-1) true =
        .ok [⟨keyC, 1⟩, ⟨keyA, 1⟩] ∧
      ((1 : Int) < 2 ∨ ((2 : Int) = 1 ∧ (false = true ∨ false = true))) ∧
      setABC.ascending.filter (fun e => withinBounds 2 false 1 false e.KeyRank) = [] :=
  ⟨setABC_reachable, (RangeByScore_finite setABC setABC_reachable 1 2 false true).1,
    (RangeByScore_finite setABC setABC_reachable 1 2 false true).2.1,
    Or.inl (by decide),
    (RangeByScore_finite setABC setABC_reachable 2 1 false false).2.2 (Or.inl (by decide))⟩

/-- C8: with the lower bound `[1.0 inclusive]` and the upper bound `PositiveInfinityExtremum`
the set of a, b, c gives no member at all, although all three have a score of at least 1:
`hasInRange` compares the `Value` fields, and that of the sentinel is 0. -/
theorem RangeByScore_sentinel_rejected :
    setABC.RangeByScore ⟨0, 1, false⟩ PositiveInfinityExtremum 0 (-1) false = .ok [] ∧
      setABC.ascending.filter (fun e => decide (1 ≤ e.KeyRank)) =
        [⟨keyA, 1⟩, ⟨keyC, 1⟩, ⟨keyB, 2⟩] :=
  ⟨by rfl, by rfl⟩

/-- C9: with both bounds `[1.0 inclusive]` and the offset 2, the set of a, b, c gives b, the
score of which is 2: the nodes skipped for the offset are not checked against the range. -/
theorem RangeByScore_offset_leaves_range :
    setABC.RangeByScore ⟨0, 1, false⟩ ⟨0, 1, false⟩ 2 (-1) false = .ok [⟨keyB, 2⟩] ∧
      withinBounds 1 false 1 false (2 : Int) = false :=
  ⟨by rfl, by rfl⟩

/-- C10: `RangeByScore(NegativeInfinityExtremum, PositiveInfinityExtremum, 0, -1, false)`
returns all members in ascending `(score, key)` order, and on a set that is not empty
`Range(0, Len(), false)` returns the same members. -/
theorem RangeByScore_unbounded (s : SortedSet S) (h : Reachable s) :
    s.RangeByScore NegativeInfinityExtremum PositiveInfinityExtremum 0 (-1) false =
        .ok s.ascending ∧
      (0 < s.Len → s.Range 0 s.Len false = .ok (s.ascending.map some)) := by
  obtain ⟨ts, hs⟩ := Reachable_SetInv s h
  constructor
  · rw [RangeByScore_all s ts hs]
    have hrej : ¬ valuesRejected (NegativeInfinityExtremum : SSFreeRankInterval S)
        PositiveInfinityExtremum := by
      unfold valuesRejected NegativeInfinityExtremum PositiveInfinityExtremum
      simp
    rw [if_neg hrej]
    simp only [Bool.false_eq_true, if_false]
    congr 1
    rw [List.filter_eq_self]
    intro e _
    simp [SSFreeRankInterval.less, SSFreeRankInterval.greater, NegativeInfinityExtremum,
      PositiveInfinityExtremum, NegativeInfinity, PositiveInfinity]
  · intro hpos
    rw [Range_spec s ts hs 0 s.Len false (le_refl _) hpos (le_of_lt hpos) (le_refl _)]
    simp only [Bool.false_eq_true, if_false, Int.toNat_zero, List.drop_zero, sub_zero]
    have : s.Len.toNat = s.ascending.length := by
      have h1 : s.ascending.length = ts.length := by rw [hs.ascending_eq, List.length_map]
      have h2 : s.Len = (ts.length : Int) := by
        show (s.dict.length : Int) = _
        rw [hs.length_eq]
      omega
    rw [this, List.take_length]

/-- On the set of a, b, c both calls return a, c, b. -/
theorem RangeByScore_unbounded_witness :
    Reachable setABC ∧
      setABC.RangeByScore NegativeInfinityExtremum PositiveInfinityExtremum 0 (-1) false =
        .ok [⟨keyA, 1⟩, ⟨keyC, 1⟩, ⟨keyB, 2⟩] ∧
      setABC.Range 0 setABC.Len false =
        .ok [some ⟨keyA, 1⟩, some ⟨keyC, 1⟩, some ⟨keyB, 2⟩] :=
  ⟨setABC_reachable, (RangeByScore_unbounded setABC setABC_reachable).1,
    (RangeByScore_unbounded setABC setABC_reachable).2 (by decide)⟩

/-- C11: on a set that is not empty, `Count(lower, upper)` is the number of members whose
score the lower bound admits (`less`) and the upper bound admits (`greater`), sentinels
included; for two finite bounds these are the scores within the bounds.  `Count` only reads
the set. -/
theorem Count_in_range (s : SortedSet S) (h : Reachable s) (hne : 0 < s.Len)
    (min max : SSFreeRankInterval S) :
    s.Count min max =
        .ok ((s.ascending.filter
          (fun e => min.less e.KeyRank && max.greater e.KeyRank)).length : Int) ∧
      (∀ (lv uv : S) (lo uo : Bool), s.Count ⟨0, lv, lo⟩ ⟨0, uv, uo⟩ =
        .ok ((s.ascending.filter
          (fun e => withinBounds lv lo uv uo e.KeyRank)).length : Int)) ∧
      s.Count NegativeInfinityExtremum PositiveInfinityExtremum = .ok s.Len := by
  obtain ⟨ts, hs⟩ := Reachable_SetInv s h
  refine ⟨Count_spec s ts hs min max hne, ?_, ?_⟩
  · intro lv uv lo uo
    rw [Count_spec s ts hs _ _ hne]
    have hf : (fun e : store S => (⟨0, lv, lo⟩ : SSFreeRankInterval S).less e.KeyRank &&
        (⟨0, uv, uo⟩ : SSFreeRankInterval S).greater e.KeyRank) =
        fun e => withinBounds lv lo uv uo e.KeyRank :=
      funext (fun e => finite_bounds lv uv e.KeyRank lo uo)
    rw [hf]
  · rw [Count_spec s ts hs _ _ hne]
    have hall : s.ascending.filter (fun e =>
        (NegativeInfinityExtremum : SSFreeRankInterval S).less e.KeyRank &&
        (PositiveInfinityExtremum : SSFreeRankInterval S).greater e.KeyRank) = s.ascending :=
      List.filter_eq_self.mpr (fun e _ => by simp [less_negInf, greater_posInf])
    rw [hall, hs.ascending_eq, List.length_map]
    show Except.ok (ts.length : Int) = Except.ok (s.dict.length : Int)
    rw [hs.length_eq]

/-- On the set of a, b, c: `Count([1.0 inclusive], [2.0 exclusive])` is 2. -/
theorem Count_in_range_witness :
    Reachable setABC ∧ 0 < setABC.Len ∧
      setABC.Count ⟨0, 1, false⟩ ⟨0, 2, true⟩ = .ok 2 :=
  ⟨setABC_reachable, by decide,
    (Count_in_range setABC setABC_reachable (by decide) ⟨0, 1, false⟩ ⟨0, 2, true⟩).1⟩

/-- C12: for `k >= 1`, `PopMin(k)` returns the first `k` members of the ascending list (all
of them when there are fewer, none on an empty set); afterwards exactly these keys are
absent, the other keys have the entry they had, the rest of the ascending list is left in
its order, and `Len()` has dropped by the number returned. -/
theorem PopMin_smallest (s : SortedSet S) (h : Reachable s) (k : Int) (hk : 1 ≤ k) :
    ∃ s', s.PopMin k = .ok (s', s.ascending.take k.toNat) ∧ Reachable s' ∧
      s'.ascending = s.ascending.drop k.toNat ∧
      (∀ key, s'.Get key =
        if key ∈ (s.ascending.take k.toNat).map (fun v => v.Key) then none else s.Get key) ∧
      s'.Len = s.Len - (s.ascending.take k.toNat).length := by
  obtain ⟨ts, hs⟩ := Reachable_SetInv s h
  obtain ⟨s', hrun, _, h1, h2, h3⟩ := PopMin_full s ts hs k (by omega)
  exact ⟨s', hrun, Reachable.popMin h hrun, h1, h2, h3⟩

/-- On the set of a, b, c: `PopMin(2)` returns a, c and leaves b. -/
theorem PopMin_smallest_witness :
    Reachable setABC ∧ (1 : Int) ≤ 2 ∧
      ∃ s', setABC.PopMin 2 = .ok (s', [⟨keyA, 1⟩, ⟨keyC, 1⟩]) ∧ Reachable s' ∧
        s'.ascending = [⟨keyB, 2⟩] ∧
        (∀ key, s'.Get key =
          if key ∈ [keyA, keyC] then none else setABC.Get key) ∧
        s'.Len = setABC.Len - 2 :=
  ⟨setABC_reachable, by decide, PopMin_smallest setABC setABC_reachable 2 (by decide)⟩

/-- C13: `PopMin(0)` on the set of a, b, c returns all three members and leaves the set
empty: the count is passed on as the limit of `RemoveRangeByScore`, where 0 stands for no
limit. -/
theorem PopMin_zero_removes_all :
    setABC.Len = 3 ∧
      setABC.PopMin 0 =
        .ok (orMake (setABC.PopMin 0), [⟨keyA, 1⟩, ⟨keyC, 1⟩, ⟨keyB, 2⟩]) ∧
      (orMake (setABC.PopMin 0)).Len = 0 ∧ (orMake (setABC.PopMin 0)).Get keyA = none :=
  ⟨by rfl, by rfl, by rfl, by rfl⟩

/-- C14: for `0 <= start <= stop <= Len()`, `RemoveByRank(start, stop)` returns `stop -
start`; afterwards the keys at the positions `start .. stop-1` of the ascending list are
absent, the other keys have the entry they had, the ascending list is what was before
`start` followed by what was from `stop` on, and `Len()` has dropped by `stop - start`. -/
theorem RemoveByRank_positions (s : SortedSet S) (h : Reachable s) (start stop : Int)
    (h1 : 0 ≤ start) (h2 : start ≤ stop) (h3 : stop ≤ s.Len) :
    ∃ s', s.RemoveByRank start stop = .ok (s', stop - start) ∧ Reachable s' ∧
      s'.ascending = s.ascending.take start.toNat ++ s.ascending.drop stop.toNat ∧
      (∀ key, s'.Get key =
        if key ∈ ((s.ascending.drop start.toNat).take (stop - start).toNat).map
          (fun v => v.Key)
        then none else s.Get key) ∧
      s'.Len = s.Len - (stop - start) := by
  obtain ⟨ts, hs⟩ := Reachable_SetInv s h
  obtain ⟨s', _, hrun, _, h4, h5, h6⟩ := RemoveByRank_full s ts hs start stop h1 h2 h3
  exact ⟨s', hrun, Reachable.removeByRank h hrun, h4, h5, h6⟩

/-- On the set of a, b, c: `RemoveByRank(0, Len())` returns 3 and leaves no member. -/
theorem RemoveByRank_positions_witness :
    Reachable setABC ∧ (0 : Int) ≤ 0 ∧ (0 : Int) ≤ setABC.Len ∧ setABC.Len ≤ setABC.Len ∧
      ∃ s', setABC.RemoveByRank 0 setABC.Len = .ok (s', 3) ∧ Reachable s' ∧
        s'.ascending = [] ∧
        (∀ key, s'.Get key =
          if key ∈ [keyA, keyC, keyB] then none else setABC.Get key) ∧
        s'.Len = 0 :=
  ⟨setABC_reachable, by decide, by decide, by decide,
    RemoveByRank_positions setABC setABC_reachable 0 setABC.Len (by decide) (by decide)
      (by decide)⟩

/-- C15: `RemoveByScore(lower, upper)` removes the members whose score both bounds admit
(`less` for the lower one, `greater` for the upper one, sentinels included) and returns how
many they were; afterwards their keys are absent, the other keys have the entry they had,
and the ascending list is the old one without the removed members. -/
theorem RemoveByScore_in_range (s : SortedSet S) (h : Reachable s)
    (min max : SSFreeRankInterval S) :
    ∃ s',
      s.RemoveByScore min max = .ok (s', ((s.ascending.filter
        (fun e => min.less e.KeyRank && max.greater e.KeyRank)).length : Int)) ∧
      Reachable s' ∧
      s'.ascending = s.ascending.filter
        (fun e => !(min.less e.KeyRank && max.greater e.KeyRank)) ∧
      (∀ key, s'.Get key =
        if key ∈ (s.ascending.filter
          (fun e => min.less e.KeyRank && max.greater e.KeyRank)).map (fun v => v.Key)
        then none else s.Get key) ∧
      s'.Len = s.Len - (s.ascending.filter
        (fun e => min.less e.KeyRank && max.greater e.KeyRank)).length := by
  obtain ⟨ts, hs⟩ := Reachable_SetInv s h
  obtain ⟨s', _, hrun, _, h1, h2, h3⟩ := RemoveByScore_full s ts hs min max
  exact ⟨s', hrun, Reachable.removeByScore h hrun, h1, h2, h3⟩

/-- On the set of a, b, c: `RemoveByScore([2.0 inclusive], +inf)` returns 1, `Len()` is
then 2 and `Get("b")` finds nothing. -/
theorem RemoveByScore_in_range_witness :
    Reachable setABC ∧
      ∃ s', setABC.RemoveByScore ⟨0, 2, false⟩ PositiveInfinityExtremum = .ok (s', 1) ∧
        Reachable s' ∧ s'.ascending = [⟨keyA, 1⟩, ⟨keyC, 1⟩] ∧
        (∀ key, s'.Get key = if key ∈ [keyB] then none else setABC.Get key) ∧
        s'.Len = 3 - 1 :=
  ⟨setABC_reachable,
    RemoveByScore_in_range setABC setABC_reachable ⟨0, 2, false⟩ PositiveInfinityExtremum⟩

/-- C16: `Remove(k)` returns whether `k` was a member; afterwards `Get(k)` finds nothing,
no member with the key `k` is on the ascending list, which otherwise is the old one, the
other keys have the entry they had, and `Len()` has dropped by one exactly when the result
is true; when the result is false the set is the one before the call. -/
theorem Remove_member (s : SortedSet S) (h : Reachable s) (key : GoString) :
    ∃ s', s.Remove key = .ok (s', (s.Get key).isSome) ∧ Reachable s' ∧
      s'.ascending = s.ascending.filter (fun e => decide (e.Key ≠ key)) ∧
      s'.SSFreeSkiplist.members = .ok s'.ascending ∧
      s'.Get key = none ∧ (∀ k, k ≠ key → s'.Get k = s.Get k) ∧
      s'.Len = s.Len - (if (s.Get key).isSome then 1 else 0) ∧
      ((s.Get key).isSome = false → s' = s) := by
  obtain ⟨ts, hs⟩ := Reachable_SetInv s h
  obtain ⟨s', ts', hrun, hs', h1, h2, h3, h4, h5⟩ := Remove_full s ts hs key
  refine ⟨s', hrun, Reachable.remove h hrun, h1, ?_, h2, h3, h4, h5⟩
  rw [hs'.ascending_eq]
  exact members_spec _ ts' hs'.inv

/-- On the set of a, b, c: `Remove("c")` returns true and leaves a, b. -/
theorem Remove_member_witness :
    Reachable setABC ∧
      ∃ s', setABC.Remove keyC = .ok (s', true) ∧ Reachable s' ∧
        s'.ascending = [⟨keyA, 1⟩, ⟨keyB, 2⟩] ∧
        s'.SSFreeSkiplist.members = .ok s'.ascending ∧
        s'.Get keyC = none ∧ (∀ k, k ≠ keyC → s'.Get k = setABC.Get k) ∧
        s'.Len = 3 - 1 ∧ (true = false → s' = setABC) :=
  ⟨setABC_reachable, Remove_member setABC setABC_reachable keyC⟩

/-- C17, the counterexample: `getByRank(0)` returns the header, which is no member, in the
list of the set of a, b, c and in the empty list alike; the ranks 1 and 3 give the first
and the last node, the ranks -1 and 4 give nil.  The node at a rank need not have that
rank by `getRank` either: in the list of the set of "" and z the node at rank 1 holds the
empty key, for which `getRank` answers 0, and in the list built by `insert("a", 1.0)`,
`insert("a", 2.0)` the node at rank 2 holds `("a", 2.0)`, for which `getRank` answers 1. -/
theorem getByRank_zero_is_header :
    setABC.SSFreeSkiplist.getByRank 0 = .ok (some setABC.SSFreeSkiplist.header) ∧
      (setABC.SSFreeSkiplist.mem setABC.SSFreeSkiplist.header).tostore = ⟨[], 0⟩ ∧
      setABC.Get [] = none ∧
      (makeSSFreeSkiplist : SSFreeSkiplist Int).getByRank 0 =
        .ok (some (makeSSFreeSkiplist : SSFreeSkiplist Int).header) ∧
      (setABC.SSFreeSkiplist.getByRank 1).map
          (Option.map (fun x => (setABC.SSFreeSkiplist.mem x).tostore)) =
        .ok (some ⟨keyA, 1⟩) ∧
      (setABC.SSFreeSkiplist.getByRank 3).map
          (Option.map (fun x => (setABC.SSFreeSkiplist.mem x).tostore)) =
        .ok (some ⟨keyB, 2⟩) ∧
      setABC.SSFreeSkiplist.getByRank (-1) = .ok none ∧
      setABC.SSFreeSkiplist.getByRank 4 = .ok none ∧
      (setEZ.SSFreeSkiplist.getByRank 1).map
          (Option.map (fun x => (setEZ.SSFreeSkiplist.mem x).tostore)) =
        .ok (some ⟨[], 1⟩) ∧
      setEZ.SSFreeSkiplist.getRank [] 1 = .ok 0 ∧
      listAA.members = .ok [⟨keyA, 1⟩, ⟨keyA, 2⟩] ∧
      (listAA.getByRank 2).map (Option.map (fun x => (listAA.mem x).tostore)) =
        .ok (some ⟨keyA, 2⟩) ∧
      listAA.getRank keyA 2 = .ok 1 :=
  ⟨by rfl, by rfl, by rfl, by rfl, by rfl, by rfl, by rfl, by rfl, by rfl, by rfl, by rfl,
    by rfl, by rfl⟩

/-- C17, amended: in every skip list that `makeSSFreeSkiplist` and the calls of `insert`,
`remove` and the range removals that return produce, `getByRank(r)` returns for
`1 <= r <= length` the node `r` level-0 steps from the header, which is not the header and
holds the member at position `r - 1` of the level-0 chain; when the key of that node is not
the empty string and no node at another position of the chain holds it, `getRank` of the
node's key and score is `r`.  For `r < 0` and for `r > length` `getByRank(r)` returns nil;
for `r = 0` it returns the header. -/
theorem getByRank_ranks (sl : SSFreeSkiplist S) (h : ReachableList sl) (r : Int) :
    (1 ≤ r ∧ r ≤ sl.length →
        ∃ x l, sl.getByRank r = .ok (some x) ∧ x ≠ sl.header ∧
          sl.forwardBy r.toNat sl.header = some x ∧
          sl.members = .ok l ∧ l[(r - 1).toNat]? = some (sl.mem x).tostore ∧
          ((sl.mem x).Key ≠ [] →
            (∀ i e, l[i]? = some e → e.Key = (sl.mem x).Key → i = (r - 1).toNat) →
            sl.getRank (sl.mem x).Key (sl.mem x).KeyRank = .ok r)) ∧
      (r = 0 → sl.getByRank r = .ok (some sl.header)) ∧
      (r < 0 ∨ sl.length < r → sl.getByRank r = .ok none) := by
  obtain ⟨ts, hinv⟩ := ReachableList_Inv sl h
  obtain ⟨_, h2, h3⟩ := getByRank_table sl ts hinv r
  refine ⟨fun hr => ?_, h2, h3⟩
  obtain ⟨x, l, hx, hmem, hrest⟩ := getByRank_inverse sl ts hinv r hr.1 hr.2
  refine ⟨x, l, hx, fun e => hinv.header_nmem ?_, hrest⟩
  show sl.header ∈ ts
  rw [← e]
  exact hmem

/-- In the list of a, b, c: rank 2 gives the node of c, the second on the chain, and
`getRank("c", 1.0)` is 2; rank 0 gives the header and rank 4 gives nil. -/
theorem getByRank_ranks_witness :
    ReachableList listABC ∧ ((1 : Int) ≤ 2 ∧ (2 : Int) ≤ listABC.length) ∧
      (listABC.getByRank 2 = .ok (some 3) ∧ (3 : Nat) ≠ listABC.header ∧
        listABC.forwardBy 2 listABC.header = some 3 ∧
        listABC.members = .ok [⟨keyA, 1⟩, ⟨keyC, 1⟩, ⟨keyB, 2⟩] ∧
        (listABC.mem 3).tostore = ⟨keyC, 1⟩ ∧
        listABC.getRank keyC 1 = .ok 2) ∧
      listABC.getByRank 0 = .ok (some listABC.header) ∧
      ((4 : Int) < 0 ∨ listABC.length < 4) ∧ listABC.getByRank 4 = .ok none := by
  refine ⟨listABC_reachable, ⟨by decide, by decide⟩, ?_,
    (getByRank_ranks listABC listABC_reachable 0).2.1 rfl,
    Or.inr (by decide),
    (getByRank_ranks listABC listABC_reachable 4).2.2 (Or.inr (by decide))⟩
  obtain ⟨x, l, hx, hne, hfwd, hl, _, hrank⟩ :=
    (getByRank_ranks listABC listABC_reachable 2).1 ⟨by decide, by decide⟩
  have ex : x = 3 := by
    have e : listABC.getByRank 2 = .ok (some 3) := by rfl
    rw [e] at hx
    cases hx
    rfl
  have el : l = [⟨keyA, 1⟩, ⟨keyC, 1⟩, ⟨keyB, 2⟩] := by
    have e : listABC.members = .ok [⟨keyA, 1⟩, ⟨keyC, 1⟩, ⟨keyB, 2⟩] := by rfl
    rw [e] at hl
    cases hl
    rfl
  subst ex el
  refine ⟨hx, hne, hfwd, hl, by rfl, hrank (by decide) ?_⟩
  intro i e hi he
  have hk : (listABC.mem 3).Key = keyC := by rfl
  rw [hk] at he
  match i, hi with
  | 0, hi =>
    simp only [List.getElem?_cons_zero, Option.some.injEq] at hi
    subst hi
    exact absurd he (by decide)
  | 1, _ => rfl
  | 2, hi =>
    simp only [List.getElem?_cons_succ, List.getElem?_cons_zero, Option.some.injEq] at hi
    subst hi
    exact absurd he (by decide)
  | n + 3, hi =>
    simp at hi

/-- C18, the counterexample: on the set of a, b, c the descending results hold c before a,
both of score 1.0, although a is the smaller key. -/
theorem desc_ties_reversed :
    setABC.Range 0 3 true = .ok [some ⟨keyB, 2⟩, some ⟨keyC, 1⟩, some ⟨keyA, 1⟩] ∧
      setABC.RangeByScore ⟨0, 1, false⟩ ⟨0, 2, false⟩ 0 (-1) true =
        .ok [⟨keyB, 2⟩, ⟨keyC, 1⟩, ⟨keyA, 1⟩] ∧
      keyA < keyC :=
  ⟨by rfl, by rfl, by decide⟩

/-- C18, amended: a descending result is a part of the reversed ascending list, in that
order: of two members in it the later one has the smaller score or, the scores being
equal, the smaller key.  So among equal scores the larger key comes first. -/
theorem desc_is_reverse (s : SortedSet S) (h : Reachable s) :
    (∀ start stop : Int, 0 ≤ start → start < s.Len → start ≤ stop → stop ≤ s.Len →
        ∃ l : List (store S), s.Range start stop true = .ok (l.map some) ∧ l.Sublist s.ascending.reverse ∧
          l.Pairwise (fun x y => storeLT y x)) ∧
      (∀ (min max : SSFreeRankInterval S) (offset limit : Int),
        ∃ l, s.RangeByScore min max offset limit true = .ok l ∧
          l.Sublist s.ascending.reverse ∧ l.Pairwise (fun x y => storeLT y x)) := by
  obtain ⟨ts, hs⟩ := Reachable_SetInv s h
  have hrev : s.ascending.reverse.Pairwise (fun x y => storeLT y x) := by
    rw [List.pairwise_reverse, hs.ascending_eq]
    exact hs.strict
  constructor
  · intro start stop h1 h2 h3 h4
    refine ⟨_, Range_spec s ts hs start stop true h1 h2 h3 h4, ?_, ?_⟩
    · exact (List.take_sublist _ _).trans (List.drop_sublist _ _)
    · exact hrev.sublist ((List.take_sublist _ _).trans (List.drop_sublist _ _))
  · intro min max offset limit
    obtain ⟨l, hl, hsub⟩ := RangeByScore_desc_sorted s ts hs min max offset limit
    exact ⟨l, hl, hsub, hrev.sublist hsub⟩

/-- On the set of a, b, c: `Range(0, 3, true)` is b, c, a. -/
theorem desc_is_reverse_witness :
    Reachable setABC ∧ (0 : Int) ≤ 0 ∧ 0 < setABC.Len ∧ (0 : Int) ≤ 3 ∧ 3 ≤ setABC.Len ∧
      (∃ l : List (store Int), setABC.Range 0 3 true = .ok (l.map some) ∧ l.Sublist setABC.ascending.reverse ∧
        l.Pairwise (fun x y => storeLT y x)) ∧
      (∃ l, setABC.RangeByScore ⟨0, 1, false⟩ ⟨0, 2, false⟩ 0 (-1) true = .ok l ∧
        l.Sublist setABC.ascending.reverse ∧ l.Pairwise (fun x y => storeLT y x)) :=
  ⟨setABC_reachable, by decide, by decide, by decide, by decide,
    (desc_is_reverse setABC setABC_reachable).1 0 3 (by decide) (by decide) (by decide)
      (by decide),
    (desc_is_reverse setABC setABC_reachable).2 ⟨0, 1, false⟩ ⟨0, 2, false⟩ 0 (-1)⟩

/-- C19: `randomLevel` returns 17, one more than `maxLevel`, when the random number is
65535 (or any multiple of it), and `insert` then panics with an index out of range. -/
theorem randomLevel_above_maxLevel :
    maxLevel = 16 ∧ randomLevel 65535 = 17 ∧ randomLevel (2 * 65535) = 17 ∧
      (makeSSFreeSkiplist : SSFreeSkiplist Int).insert 65535 keyA 1 =
        .error Err.indexOutOfRange :=
  ⟨by rfl, by rfl, by rfl, by rfl⟩

/-- C20: in every skip list that `makeSSFreeSkiplist` and the calls of `insert`, `remove`,
`RemoveRangeByScore` and `RemoveRangeByRank` that return produce, for every level `i` below
the level of the list and every node `x` that is `n` level-0 steps from the header (the
header itself for `n = 0`) with a level-`i` forward node `y`: the span `x.level[i].span` is
positive, `y` is reached from `x` by exactly that many level-0 steps and by no other
number of steps, and `y` is `n + span` steps from the header. -/
theorem span_counts_steps (sl : SSFreeSkiplist S) (h : ReachableList sl) (i : Nat)
    (hi : i < sl.level) (n x : Nat) (hx : sl.forwardBy n sl.header = some x) (y : Nat)
    (hy : sl.obs.fwd x i = some y) :
    0 < sl.obs.spn x i ∧ sl.forwardBy (sl.obs.spn x i).toNat x = some y ∧
      sl.forwardBy (n + (sl.obs.spn x i).toNat) sl.header = some y ∧
      ∀ m, sl.forwardBy m x = some y → (m : Int) = sl.obs.spn x i := by
  obtain ⟨ts, hinv⟩ := ReachableList_Inv sl h
  exact span_exact sl ts hinv i hi n x hx y hy

/-- In the list of a, b, c the header's level-1 forward node is the node of c, two level-0
steps away, and the span is 2. -/
theorem span_counts_steps_witness :
    ReachableList listABC ∧ 1 < listABC.level ∧
      listABC.forwardBy 0 listABC.header = some 0 ∧ listABC.obs.fwd 0 1 = some 3 ∧
      (listABC.mem 3).tostore = ⟨keyC, 1⟩ ∧ listABC.obs.spn 0 1 = 2 ∧
      (0 < listABC.obs.spn 0 1 ∧ listABC.forwardBy (listABC.obs.spn 0 1).toNat 0 = some 3 ∧
        listABC.forwardBy (0 + (listABC.obs.spn 0 1).toNat) listABC.header = some 3 ∧
        ∀ m, listABC.forwardBy m 0 = some 3 → (m : Int) = listABC.obs.spn 0 1) :=
  ⟨listABC_reachable, by decide, by rfl, by rfl, by rfl, by rfl,
    span_counts_steps listABC listABC_reachable 1 (by decide) 0 0 (by rfl) 3 (by rfl)⟩

end Claims

end SortedSetFree
